import Mathlib

/-!
# ADS_set: a hash set with separate chaining (src/ADS_set.h)

Shallow embedding of the class template ADS_set<Key, N>.

Modelling conventions

* A chain (a value of type Node*) is the list of the keys stored from that node
  on: nullptr is the empty list, ptr->key is the head and ptr->next the tail.
  Inside one set every key is stored once, so two non-null node pointers are
  equal exactly when their lists are equal.
* The bucket array is a list of chains; the member table_size is kept as a field of
  its own, as in the source, and the agreement of the two is an invariant that is
  proved, not assumed.
* std::hash<Key> is a parameter hasher : Key -> Nat and std::equal_to<Key> is
  decidable equality on Key. The template parameter N is a parameter N : Nat.
* The member max_lf is a float, initialised with 0.7 in every object (no operation
  changes it, swap exchanges two equal values), and the expressions with it are
  evaluated in single precision: table_size * max_lf >= n converts both sizes to
  float, multiplies and compares; size_type(current_size / max_lf) converts, divides
  and truncates. Every float operation rounds its exact result to 24 significant
  bits, to nearest, a tie going to the even significand (round_float). A float is
  kept as the natural number value * 2^24; every float met here is 0 or at least
  1/2, so it is a multiple of 2^-24 and this number is exact.
* size_type values are natural numbers: a bucket array of 2^63 entries cannot be
  allocated, so the doubling of the capacity never wraps, and a size converted to
  float stays far below the largest float.
* A thrown exception (the runtime_error of h) is the result none.
* The indices at which the constructor of a cursor reads the bucket array are given by a
  function of their own, Iterator.ctor_reads.
* Two sets are two values. That a copy shares no node with its source, so that one of
  them can change without the other, is proved on a second embedding with the nodes in an
  explicit heap (namespace Ptr), which is shown to follow the list model operation by
  operation.
-/

/-- State of one ADS_set object: the bucket array, table_size and current_size. -/
structure ADS_set (Key : Type) where
  table : List (List Key)
  table_size : Nat
  current_size : Nat
deriving DecidableEq

namespace ADS_set

variable {Key : Type} [DecidableEq Key]

/-- The unit in the last place of a float whose value, counted in units of 2^-24, has the
integer part q: the least power of two u with q < 2^24 * u, so that q / u has at most 24
bits. The first argument bounds the number of halvings. -/
def ulp_loop : Nat → Nat → Nat → Nat
  | 0, _, u => u
  | fuel + 1, q, u => if q < 2 ^ 24 then u else ulp_loop fuel (q / 2) (2 * u)

/-- The unit in the last place for the integer part q. -/
def ulp (q : Nat) : Nat := ulp_loop q q 1

/-- The rounding of every float operation: the exact result num / den (in units of
2^-24) is replaced by the nearest multiple of its unit in the last place, and a result
halfway between two multiples by the one with the even significand. This is the float
result for every exact result that is 0 or at least 2^23 units (the value 1/2), which
covers the conversions, products and quotients of the source. -/
def round_float (num den : Nat) : Nat :=
  let u := ulp (num / den)
  let m := num / (u * den)
  let r := num % (u * den)
  if 2 * r < u * den then m * u
  else if u * den < 2 * r then (m + 1) * u
  else if m % 2 = 0 then m * u else (m + 1) * u

/-- The member float max_lf {0.7}: the float nearest to 7/10, which is 11744051 * 2^-24. -/
def max_lf : Nat := round_float (7 * 2 ^ 24) 10

/-- Conversion of a size_type value to float, as in the operands table_size, n and
current_size of the expressions with max_lf. -/
def float_of_size (n : Nat) : Nat := round_float (n * 2 ^ 24) 1

/-- The float product a * b. -/
def float_mul (a b : Nat) : Nat := round_float (a * b) (2 ^ 24)

/-- The float quotient a / b. -/
def float_div (a b : Nat) : Nat := round_float (a * 2 ^ 24) b

/-- The conversion size_type(a) of a float: the fraction is cut off. -/
def size_of_float (a : Nat) : Nat := a / 2 ^ 24

/-- The default constructor: N empty buckets, table_size N, current_size 0. -/
def empty (N : Nat) : ADS_set Key :=
  { table := List.replicate N [], table_size := N, current_size := 0 }

/-- Member size(). -/
def size (s : ADS_set Key) : Nat := s.current_size

/-- Member h: throws when table_size is 0, otherwise hasher(key) % table_size. -/
def h (hasher : Key → Nat) (s : ADS_set Key) (key : Key) : Option Nat :=
  if s.table_size = 0 then none else some (hasher key % s.table_size)

/-- The while loop of locate over one chain: the node holding key, or nullptr. -/
def locate_loop (key : Key) : List Key → List Key
  | [] => []
  | k :: next => if key = k then k :: next else locate_loop key next

/-- Member locate: walks the chain of bucket h(key). -/
def locate (hasher : Key → Nat) (s : ADS_set Key) (key : Key) : Option (List Key) := do
  let index ← h hasher s key
  pure (locate_loop key (s.table.getD index []))

/-- Member count: locate(key) != nullptr, as 0 or 1. -/
def count (hasher : Key → Nat) (s : ADS_set Key) (key : Key) : Option Nat := do
  let e ← locate hasher s key
  pure (if e ≠ [] then 1 else 0)

/-- The inner while loop of rehash: every node of one old chain is copied to the head
of its bucket in new_table; h already sees the new table_size. -/
def rehash_chain (hasher : Key → Nat) (s : ADS_set Key) :
    List Key → List (List Key) → Option (List (List Key))
  | [], new_table => some new_table
  | key :: next, new_table => do
    let new_hash_index ← h hasher s key
    rehash_chain hasher s next
      (new_table.set new_hash_index (key :: new_table.getD new_hash_index []))

/-- Member rehash: the new capacity is max(N, max(n, size_type(current_size / max_lf)));
the old buckets are walked by ascending index. -/
def rehash (hasher : Key → Nat) (N : Nat) (s : ADS_set Key) (n : Nat) : Option (ADS_set Key) := do
  let new_table_size :=
    max N (max n (size_of_float (float_div (float_of_size s.current_size) max_lf)))
  let old_table := s.table
  let old_table_size := s.table_size
  let s1 : ADS_set Key := { s with table_size := new_table_size }
  let new_table ← (List.range old_table_size).foldlM
    (fun new_table index => rehash_chain hasher s1 (old_table.getD index []) new_table)
    (List.replicate new_table_size [])
  pure { s1 with table := new_table }

/-- The while loop of reserve: new_table_size becomes 2 * new_table_size + 1 as long as
new_table_size * max_lf < n. The first argument bounds the number of iterations;
reserve passes 2 * n, which the loop never uses up (see reserve_loop_exit). -/
def reserve_loop (n : Nat) : Nat → Nat → Nat
  | 0, new_table_size => new_table_size
  | fuel + 1, new_table_size =>
    if float_mul (float_of_size new_table_size) max_lf < float_of_size n then
      reserve_loop n fuel (2 * new_table_size + 1)
    else new_table_size

/-- Member reserve. -/
def reserve (hasher : Key → Nat) (N : Nat) (s : ADS_set Key) (n : Nat) : Option (ADS_set Key) :=
  if float_mul (float_of_size s.table_size) max_lf ≥ float_of_size n then some s
  else rehash hasher N s (reserve_loop n (2 * n) s.table_size)

/-- The test of add, current_size / table_size >= max_lf: the quotient of the two size_type
members is the integer quotient, which is then converted to float for the comparison. -/
def add_grows (s : ADS_set Key) : Bool :=
  decide (float_of_size (s.current_size / s.table_size) ≥ max_lf)

/-- Member add: the bucket index is computed first, then current_size is incremented,
then the growth test runs, then the node is linked at the head of table[hashedIndex].
Returns the new state and the new node. -/
def add (hasher : Key → Nat) (N : Nat) (s : ADS_set Key) (key : Key) :
    Option (ADS_set Key × List Key) := do
  let hashedIndex ← h hasher s key
  let s1 : ADS_set Key := { s with current_size := s.current_size + 1 }
  let s2 ← if add_grows s1 then reserve hasher N s1 (s1.table_size * 2) else pure s1
  let new_node := key :: s2.table.getD hashedIndex []
  let s3 : ADS_set Key := { s2 with table := s2.table.set hashedIndex new_node }
  pure (s3, s3.table.getD hashedIndex [])

/-- The class Iterator: the members position and ptr (the container is passed to the
operations that read it). -/
structure Iterator (Key : Type) where
  position : Nat
  ptr : List Key
deriving DecidableEq

/-- The for loop of Iterator::findNextNode; the first argument is the number of
buckets left, table_size - position. -/
def findNextNode_loop (s : ADS_set Key) : Nat → Iterator Key → Iterator Key
  | 0, it => it
  | fuel + 1, it =>
    if it.position < s.table_size then
      if s.table.getD it.position [] ≠ [] then
        { it with ptr := s.table.getD it.position [] }
      else findNextNode_loop s fuel { it with position := it.position + 1 }
    else it

/-- Member Iterator::findNextNode. -/
def findNextNode (s : ADS_set Key) (it : Iterator Key) : Iterator Key :=
  findNextNode_loop s (s.table_size - it.position) it

/-- The constructor Iterator(ads_set, position, ptr). In its body the names position
and ptr are the parameters: findNextNode works on the members, while the assignment
ptr = table[position] of the second test changes the parameter only, so the value it
reads is discarded and the members keep the values they have after the first test. -/
def Iterator.ctor (s : ADS_set Key) (position : Nat) (ptr : List Key) : Iterator Key :=
  let members : Iterator Key := { position := position, ptr := ptr }
  let members := if position = 0 ∧ ptr = [] then findNextNode s members else members
  let _ptr := if position = s.table_size then s.table.getD position [] else ptr
  members

/-- Iterator operator*: the key of the node, none for a null node. -/
def Iterator.deref (it : Iterator Key) : Option Key := it.ptr.head?

/-- Iterator prefix operator++. -/
def Iterator.incr (s : ADS_set Key) (it : Iterator Key) : Iterator Key :=
  if it.ptr ≠ [] then
    let it1 : Iterator Key := { it with ptr := it.ptr.tail }
    if it1.ptr = [] then findNextNode s { it1 with position := it1.position + 1 }
    else it1
  else it

/-- Iterator operator==: the node pointers are compared. -/
def Iterator.eq (lhs rhs : Iterator Key) : Bool := decide (lhs.ptr = rhs.ptr)

/-- Member begin(). -/
def begin (s : ADS_set Key) : Iterator Key := Iterator.ctor s 0 []

/-- Member end(). -/
def end_ (s : ADS_set Key) : Iterator Key := Iterator.ctor s s.table_size []

/-- Member find. -/
def find (hasher : Key → Nat) (s : ADS_set Key) (key : Key) : Option (Iterator Key) := do
  let e ← locate hasher s key
  if e ≠ [] then
    let position ← h hasher s key
    pure (Iterator.ctor s position e)
  else pure (end_ s)

/-- Member insert(const key_type&): the new state, the cursor and the flag. In the
second return the braced initialiser evaluates h(key) before add(key). -/
def insert (hasher : Key → Nat) (N : Nat) (s : ADS_set Key) (key : Key) :
    Option (ADS_set Key × Iterator Key × Bool) := do
  let e ← locate hasher s key
  if e ≠ [] then
    let position ← h hasher s key
    pure (s, Iterator.ctor s position e, false)
  else
    let s1 ← reserve hasher N s (s.current_size + 1)
    let position ← h hasher s1 key
    let (s2, node) ← add hasher N s1 key
    pure (s2, Iterator.ctor s2 position node, true)

/-- Member insert(first, last) over the keys of the range in order. -/
def insert_range (hasher : Key → Nat) (N : Nat) : ADS_set Key → List Key → Option (ADS_set Key)
  | s, [] => some s
  | s, key :: rest => do
    let c ← count hasher s key
    if c = 0 then
      let s1 ← reserve hasher N s (s.current_size + 1)
      let (s2, _) ← add hasher N s1 key
      insert_range hasher N s2 rest
    else insert_range hasher N s rest

/-- The constructors from an initializer list or a range: insert on the empty set. -/
def of_list (hasher : Key → Nat) (N : Nat) (ilist : List Key) : Option (ADS_set Key) :=
  insert_range hasher N (empty N) ilist

/-- The while loop of erase over one chain: the chain without the first node whose key
equals key, or none when no node matches. -/
def erase_loop (key : Key) : List Key → Option (List Key)
  | [] => none
  | k :: next => if key = k then some next else (erase_loop key next).map (fun c => k :: c)

/-- Member erase: the new state and the returned 0 or 1. The decrement of current_size
is only reached with a node in the table. -/
def erase (hasher : Key → Nat) (s : ADS_set Key) (key : Key) : Option (ADS_set Key × Nat) := do
  let index ← h hasher s key
  match erase_loop key (s.table.getD index []) with
  | some chain =>
    pure ({ s with table := s.table.set index chain, current_size := s.current_size - 1 }, 1)
  | none => pure (s, 0)

/-- Member swap: the two objects exchange all members. -/
def swap (a b : ADS_set Key) : ADS_set Key × ADS_set Key := (b, a)

/-- Member clear: swap with a default-constructed set. -/
def clear (N : Nat) (s : ADS_set Key) : ADS_set Key := (swap s (empty N)).1

/-- The key sequence of the loop for (it = first; it != last; ++it) over the set s, each
key read with operator*. The first argument bounds the number of steps; none means
that the bound was used up or that a null node was dereferenced. -/
def iterate (s : ADS_set Key) : Nat → Iterator Key → Iterator Key → Option (List Key)
  | 0, _, _ => none
  | fuel + 1, it, last =>
    if Iterator.eq it last then some []
    else do
      let k ← Iterator.deref it
      let rest ← iterate s fuel (Iterator.incr s it) last
      pure (k :: rest)

/-- The keys visited by a range-based for loop over s, from begin() to end(); the step
bound is one more than the number of nodes in the table. -/
def traverse (s : ADS_set Key) : Option (List Key) :=
  iterate s (s.table.flatten.length + 1) (begin s) (end_ s)

/-- The body of the loop of operator== over the keys of lhs. -/
def eq_loop (hasher : Key → Nat) (rhs : ADS_set Key) : List Key → Option Bool
  | [] => some true
  | l :: rest => do
    let c ← count hasher rhs l
    if c = 0 then pure false else eq_loop hasher rhs rest

/-- Friend operator==. -/
def operator_eq (hasher : Key → Nat) (lhs rhs : ADS_set Key) : Option Bool :=
  if lhs.current_size ≠ rhs.current_size then some false
  else do
    let keys ← traverse lhs
    eq_loop hasher rhs keys

/-- Friend operator!=. -/
def operator_ne (hasher : Key → Nat) (lhs rhs : ADS_set Key) : Option Bool :=
  (operator_eq hasher lhs rhs).map (fun b => !b)

/-- The loop of the copy constructor: add for every key of other. -/
def copy_loop (hasher : Key → Nat) (N : Nat) : ADS_set Key → List Key → Option (ADS_set Key)
  | s, [] => some s
  | s, k :: rest => do
    let (s1, _) ← add hasher N s k
    copy_loop hasher N s1 rest

/-- The copy constructor: table_size of other, fresh empty buckets, current_size 0 from
the default member initialiser, then add for every key of other. -/
def copy (hasher : Key → Nat) (N : Nat) (other : ADS_set Key) : Option (ADS_set Key) := do
  let this : ADS_set Key :=
    { table := List.replicate other.table_size [], table_size := other.table_size,
      current_size := 0 }
  let keys ← traverse other
  copy_loop hasher N this keys

/-- Copy assignment: copy-construct a temporary and swap with it. -/
def assign (hasher : Key → Nat) (N : Nat) (s other : ADS_set Key) : Option (ADS_set Key) := do
  let tmp ← copy hasher N other
  pure (swap s tmp).1

/-- Assignment from an initializer list: construct a temporary and swap with it. -/
def assign_list (hasher : Key → Nat) (N : Nat) (s : ADS_set Key) (ilist : List Key) :
    Option (ADS_set Key) := do
  let tmp ← of_list hasher N ilist
  pure (swap s tmp).1

/-- The sets that a program can hold: the default-constructed set and every result of a
completed insert, range insert, erase, clear, copy construction or swap. -/
inductive Reachable (hasher : Key → Nat) (N : Nat) : ADS_set Key → Prop
  | empty : Reachable hasher N (empty N)
  | insert {s s1 : ADS_set Key} {key : Key} {it : Iterator Key} {b : Bool} :
      Reachable hasher N s → insert hasher N s key = some (s1, it, b) → Reachable hasher N s1
  | insert_range {s s1 : ADS_set Key} {keys : List Key} :
      Reachable hasher N s → insert_range hasher N s keys = some s1 → Reachable hasher N s1
  | erase {s s1 : ADS_set Key} {key : Key} {r : Nat} :
      Reachable hasher N s → erase hasher s key = some (s1, r) → Reachable hasher N s1
  | clear {s : ADS_set Key} : Reachable hasher N s → Reachable hasher N (clear N s)
  | copy {s s1 : ADS_set Key} :
      Reachable hasher N s → copy hasher N s = some s1 → Reachable hasher N s1
  | swap_fst {a b : ADS_set Key} :
      Reachable hasher N a → Reachable hasher N b → Reachable hasher N (swap a b).1
  | swap_snd {a b : ADS_set Key} :
      Reachable hasher N a → Reachable hasher N b → Reachable hasher N (swap a b).2

/-- A finite sequence of single-key inserts, applied from left to right. -/
def insert_all (hasher : Key → Nat) (N : Nat) : ADS_set Key → List Key → Option (ADS_set Key)
  | s, [] => some s
  | s, key :: rest => do
    let (s1, _, _) ← insert hasher N s key
    insert_all hasher N s1 rest

/-- The keys still to be visited by a cursor: the rest of its chain and the chains of
all later buckets. -/
def remaining (s : ADS_set Key) (it : Iterator Key) : List Key :=
  it.ptr ++ (s.table.drop (it.position + 1)).flatten

/-- Bucket placement: every key of bucket i has hash index i for n buckets. -/
def Placed (hasher : Key → Nat) (n : Nat) (t : List (List Key)) : Prop :=
  ∀ i key, key ∈ t.getD i [] → hasher key % n = i

/-- Shape of a well-formed table: the bucket array has table_size entries, table_size is
at least N and positive, every key sits in the bucket of its hash index, no key is
stored twice, and current_size counts the nodes. -/
structure Shape (hasher : Key → Nat) (N : Nat) (s : ADS_set Key) : Prop where
  len : s.table.length = s.table_size
  floor : N ≤ s.table_size
  pos : 0 < s.table_size
  placed : Placed hasher s.table_size s.table
  nodup : s.table.flatten.Nodup
  card : s.current_size = s.table.flatten.length

/-- The representation invariant: a well-formed table with fewer keys than buckets. -/
structure Inv (hasher : Key → Nat) (N : Nat) (s : ADS_set Key) : Prop where
  shape : Shape hasher N s
  load : s.current_size < s.table_size

/-- The hash function of the worked examples on natural-number keys: the identity. -/
def example_hasher : Nat → Nat := fun k => k

/-- The set with N = 12 after the range insert of 1, 13, 25, 4, 5, 6, 7, 8: bucket 1 holds a
chain of three keys, and the table is as full as capacity 12 allows. -/
def example_set : ADS_set Nat :=
  { table := [[], [25, 13, 1], [], [], [4], [5], [6], [7], [8], [], [], []],
    table_size := 12, current_size := 8 }

/-- The set with N = 10 after the inserts of 0, 1, 2, 3, 4, 5, 6. -/
def example_tight : ADS_set Nat :=
  { table := [[0], [1], [2], [3], [4], [5], [6], [], [], []],
    table_size := 10, current_size := 7 }

/-- The set with N = 12 after the range insert of 8, 7, 6, 5, 4, 25, 13, 1, 9 (which grows
the table to 25 buckets): the keys of example_set and 9, in other buckets. -/
def example_grown : ADS_set Nat :=
  { table := [[25], [1], [], [], [4], [5], [6], [7], [8], [9], [], [], [], [13], [], [], [],
              [], [], [], [], [], [], [], []],
    table_size := 25, current_size := 9 }

/-- The set example_grown after erase(9): the keys of example_set in 25 buckets. -/
def example_other : ADS_set Nat :=
  { table := [[25], [1], [], [], [4], [5], [6], [7], [8], [], [], [], [], [13], [], [], [],
              [], [], [], [], [], [], [], []],
    table_size := 25, current_size := 8 }

/-- Capacity formula of the specification for rehash, to be compared with the capacity
that the member rehash computes: max(N, n, ceil(c / max_lf)) with max_lf = 7/10, the
ceiling of 10 * c / 7 being (10 * c + 6) / 7. -/
def spec_rehash_capacity (N n c : Nat) : Nat :=
  max N (max n ((10 * c + 6) / 7))

/-- The indices at which the for loop of Iterator::findNextNode reads the bucket array,
in order: the test reads table[position], and a non-null bucket is read a second time for
the assignment to ptr. The first argument is table_size - position, as in
findNextNode_loop. -/
def findNextNode_reads (s : ADS_set Key) : Nat → Iterator Key → List Nat
  | 0, _ => []
  | fuel + 1, it =>
    if it.position < s.table_size then
      if s.table.getD it.position [] ≠ [] then [it.position, it.position]
      else it.position :: findNextNode_reads s fuel { it with position := it.position + 1 }
    else []

/-- The indices at which the constructor Iterator(ads_set, position, ptr) reads the bucket
array: the reads of findNextNode when the first test holds, then the read table[position]
of the second test when position == table_size. -/
def Iterator.ctor_reads (s : ADS_set Key) (position : Nat) (ptr : List Key) : List Nat :=
  (if position = 0 ∧ ptr = [] then
      findNextNode_reads s (s.table_size - position) { position := position, ptr := ptr }
    else []) ++
  (if position = s.table_size then [position] else [])

/-- The set with N = 12 after the inserts of 1, 2, ..., 9. -/
def example_nine : ADS_set Nat :=
  { table := [[], [1], [2], [3], [4], [5], [6], [7], [8], [9], [], [], [], [], [], [], [],
              [], [], [], [], [], [], [], []],
    table_size := 25, current_size := 9 }

/-- The set with N = 12 after the inserts of 1, 2, ..., 8. -/
def example_eight : ADS_set Nat :=
  { table := [[], [1], [2], [3], [4], [5], [6], [7], [8], [], [], []],
    table_size := 12, current_size := 8 }

/-! ## The pointer level

A second embedding of the member functions that allocate, link and delete nodes, with the
Node objects in an explicit heap. It is used where two sets could share nodes: the copy
constructor and the operations on a copy. A node pointer is an address (none is nullptr); new Node returns the next free
address; delete leaves none at the address, and reading a deleted or unallocated node is
a failure (the result none), as is running out of the step bound fuel that every walk along
a chain takes. The bucket array stays a list inside the object: the source allocates it
with new in the constructors and in rehash and hands it over only in swap. -/

namespace Ptr

/-- The struct Node: key and next. -/
structure Node (Key : Type) where
  key : Key
  next : Option Nat
deriving DecidableEq

/-- The heap of Node objects, indexed by address. -/
abbrev Heap (Key : Type) := List (Option (Node Key))

/-- The members of an ADS_set object, with table as the array of head pointers. -/
structure Obj where
  table : List (Option Nat)
  table_size : Nat
  current_size : Nat
deriving DecidableEq

/-- Access to the node at address a. -/
def read (H : Heap Key) (a : Nat) : Option (Node Key) := H.getD a none

/-- The default constructor. -/
def empty (N : Nat) : Obj :=
  { table := List.replicate N none, table_size := N, current_size := 0 }

/-- Member h. -/
def h (hasher : Key → Nat) (o : Obj) (key : Key) : Option Nat :=
  if o.table_size = 0 then none else some (hasher key % o.table_size)

/-- The while loop of locate, from current_node on. -/
def locate_loop (H : Heap Key) (key : Key) : Nat → Option Nat → Option (Option Nat)
  | _, none => some none
  | 0, some _ => none
  | fuel + 1, some a => do
    let current_node ← read H a
    if key = current_node.key then pure (some a)
    else locate_loop H key fuel current_node.next

/-- Member locate. -/
def locate (hasher : Key → Nat) (fuel : Nat) (H : Heap Key) (o : Obj) (key : Key) :
    Option (Option Nat) := do
  let index ← h hasher o key
  locate_loop H key fuel (o.table.getD index none)

/-- Member count. -/
def count (hasher : Key → Nat) (fuel : Nat) (H : Heap Key) (o : Obj) (key : Key) :
    Option Nat := do
  let e ← locate hasher fuel H o key
  pure (if e ≠ none then 1 else 0)

/-- The expression delete p: for a non-null p the destructor of Node deletes next first,
then the node itself is released. -/
def delete : Nat → Heap Key → Option Nat → Option (Heap Key)
  | _, H, none => some H
  | 0, _, some _ => none
  | fuel + 1, H, some a => do
    let node ← read H a
    let H1 ← delete fuel H node.next
    pure (H1.set a none)

/-- The inner while loop of rehash: for every node of the old chain a new node with the same
key is allocated and linked at the head of its bucket of new_table. -/
def rehash_chain (hasher : Key → Nat) (o : Obj) :
    Nat → Heap Key → Option Nat → List (Option Nat) → Option (Heap Key × List (Option Nat))
  | _, H, none, new_table => some (H, new_table)
  | 0, _, some _, _ => none
  | fuel + 1, H, some a, new_table => do
    let current_node ← read H a
    let new_node := H.length
    let new_hash_index ← h hasher o current_node.key
    let H1 := H ++ [some { key := current_node.key, next := new_table.getD new_hash_index none }]
    rehash_chain hasher o fuel H1 current_node.next (new_table.set new_hash_index (some new_node))

/-- Member rehash: every old bucket is copied into new_table and then deleted. -/
def rehash (hasher : Key → Nat) (N fuel : Nat) (H : Heap Key) (o : Obj) (n : Nat) :
    Option (Heap Key × Obj) := do
  let new_table_size :=
    max N (max n (size_of_float (float_div (float_of_size o.current_size) max_lf)))
  let old_table := o.table
  let old_table_size := o.table_size
  let o1 : Obj := { o with table_size := new_table_size }
  let st ← (List.range old_table_size).foldlM
    (fun (st : Heap Key × List (Option Nat)) index => do
      let st1 ← rehash_chain hasher o1 fuel st.1 (old_table.getD index none) st.2
      let H2 ← delete fuel st1.1 (old_table.getD index none)
      pure (H2, st1.2))
    (H, List.replicate new_table_size none)
  pure (st.1, { o1 with table := st.2 })

/-- Member reserve. -/
def reserve (hasher : Key → Nat) (N fuel : Nat) (H : Heap Key) (o : Obj) (n : Nat) :
    Option (Heap Key × Obj) :=
  if float_mul (float_of_size o.table_size) max_lf ≥ float_of_size n then some (H, o)
  else rehash hasher N fuel H o (reserve_loop n (2 * n) o.table_size)

/-- Member add: returns the heap, the object and the new node. -/
def add (hasher : Key → Nat) (N fuel : Nat) (H : Heap Key) (o : Obj) (key : Key) :
    Option (Heap Key × Obj × Option Nat) := do
  let hashedIndex ← h hasher o key
  let o1 : Obj := { o with current_size := o.current_size + 1 }
  let st ← if float_of_size (o1.current_size / o1.table_size) ≥ max_lf then
      reserve hasher N fuel H o1 (o1.table_size * 2)
    else pure (H, o1)
  let new_node := st.1.length
  let H3 := st.1 ++ [some { key := key, next := st.2.table.getD hashedIndex none }]
  let o3 : Obj := { st.2 with table := st.2.table.set hashedIndex (some new_node) }
  pure (H3, o3, o3.table.getD hashedIndex none)

/-- The class Iterator with ptr as a node pointer. -/
structure Iterator where
  position : Nat
  ptr : Option Nat
deriving DecidableEq

/-- The for loop of Iterator::findNextNode. -/
def findNextNode_loop (o : Obj) : Nat → Iterator → Iterator
  | 0, it => it
  | fuel + 1, it =>
    if it.position < o.table_size then
      if o.table.getD it.position none ≠ none then
        { it with ptr := o.table.getD it.position none }
      else findNextNode_loop o fuel { it with position := it.position + 1 }
    else it

/-- Member Iterator::findNextNode. -/
def findNextNode (o : Obj) (it : Iterator) : Iterator :=
  findNextNode_loop o (o.table_size - it.position) it

/-- The constructor Iterator(ads_set, position, ptr). -/
def Iterator.ctor (o : Obj) (position : Nat) (ptr : Option Nat) : Iterator :=
  let members : Iterator := { position := position, ptr := ptr }
  let members := if position = 0 ∧ ptr = none then findNextNode o members else members
  let _ptr := if position = o.table_size then o.table.getD position none else ptr
  members

/-- Iterator operator*. -/
def Iterator.deref (H : Heap Key) (it : Iterator) : Option Key :=
  match it.ptr with
  | some a => (read H a).map (fun node => node.key)
  | none => none

/-- Iterator prefix operator++. -/
def Iterator.incr (H : Heap Key) (o : Obj) (it : Iterator) : Option Iterator :=
  match it.ptr with
  | some a => do
    let node ← read H a
    let it1 : Iterator := { it with ptr := node.next }
    if it1.ptr = none then pure (findNextNode o { it1 with position := it1.position + 1 })
    else pure it1
  | none => pure it

/-- Iterator operator==. -/
def Iterator.eq (lhs rhs : Iterator) : Bool := decide (lhs.ptr = rhs.ptr)

/-- Member begin(). -/
def begin (o : Obj) : Iterator := Iterator.ctor o 0 none

/-- Member end(). -/
def end_ (o : Obj) : Iterator := Iterator.ctor o o.table_size none

/-- Member insert(const key_type&). -/
def insert (hasher : Key → Nat) (N fuel : Nat) (H : Heap Key) (o : Obj) (key : Key) :
    Option (Heap Key × Obj × Iterator × Bool) := do
  let e ← locate hasher fuel H o key
  if e ≠ none then
    let position ← h hasher o key
    pure (H, o, Iterator.ctor o position e, false)
  else
    let st ← reserve hasher N fuel H o (o.current_size + 1)
    let position ← h hasher st.2 key
    let r ← add hasher N fuel st.1 st.2 key
    pure (r.1, r.2.1, Iterator.ctor r.2.1 position r.2.2, true)

/-- The while loop of erase with previous_node and current_node. -/
def erase_loop (key : Key) (index : Nat) :
    Nat → Heap Key → Obj → Option Nat → Option Nat → Option (Heap Key × Obj × Nat)
  | _, H, o, _, none => some (H, o, 0)
  | 0, _, _, _, some _ => none
  | fuel + 1, H, o, previous_node, some a => do
    let current_node ← read H a
    if key = current_node.key then
      let st ← match previous_node with
        | none => pure (H, ({ o with table := o.table.set index current_node.next } : Obj))
        | some p => do
          let previous ← read H p
          pure (H.set p (some { previous with next := current_node.next }), o)
      let H2 := st.1.set a (some { current_node with next := none })
      let H3 ← delete (fuel + 1) H2 (some a)
      pure (H3, { st.2 with current_size := st.2.current_size - 1 }, 1)
    else erase_loop key index fuel H o (some a) current_node.next

/-- Member erase. -/
def erase (hasher : Key → Nat) (fuel : Nat) (H : Heap Key) (o : Obj) (key : Key) :
    Option (Heap Key × Obj × Nat) := do
  let index ← h hasher o key
  erase_loop key index fuel H o none (o.table.getD index none)

/-- The loop of the copy constructor, for (const auto &k : other) add(k): the cursor walks
the chains of other while add allocates the nodes of this. -/
def copy_loop (hasher : Key → Nat) (N fuel : Nat) (other : Obj) :
    Nat → Heap Key → Obj → Iterator → Iterator → Option (Heap Key × Obj)
  | 0, _, _, _, _ => none
  | steps + 1, H, this, it, last =>
    if Iterator.eq it last then some (H, this)
    else do
      let k ← Iterator.deref H it
      let r ← add hasher N fuel H this k
      let it1 ← Iterator.incr r.1 other it
      copy_loop hasher N fuel other steps r.1 r.2.1 it1 last

/-- The copy constructor. -/
def copy (hasher : Key → Nat) (N fuel : Nat) (H : Heap Key) (other : Obj) :
    Option (Heap Key × Obj) :=
  let this : Obj :=
    { table := List.replicate other.table_size none, table_size := other.table_size,
      current_size := 0 }
  copy_loop hasher N fuel other fuel H this (begin other) (end_ other)

/-- The chain that starts at the pointer p holds the keys l, in nodes at addresses of the
region P. -/
def Chain (H : Heap Key) (P : Nat → Prop) : Option Nat → List Key → Prop
  | p, [] => p = none
  | p, k :: l => ∃ a nx, p = some a ∧ P a ∧ H.getD a none = some { key := k, next := nx } ∧
      Chain H P nx l

/-- The object o, with its nodes in the region P of the heap H, represents the set s of the
list model: same table_size and current_size, and bucket by bucket the chain of o holds the
keys of the chain of s. -/
structure Rep (H : Heap Key) (P : Nat → Prop) (o : Obj) (s : ADS_set Key) : Prop where
  table_size_eq : o.table_size = s.table_size
  current_size_eq : o.current_size = s.current_size
  len : o.table.length = s.table.length
  chains : ∀ i, Chain H P (o.table.getD i none) (s.table.getD i [])

/-- The heap of the worked example: the nodes of the keys 1 and 4, linked 4 -> 1. -/
def example_heap : Heap Nat :=
  [some { key := 1, next := none }, some { key := 4, next := some 0 }]

/-- The object of the worked example: N = 3, bucket 1 points to the node of the key 4. -/
def example_obj : Obj :=
  { table := [none, some 1, none], table_size := 3, current_size := 2 }

/-- The set that example_obj represents: N = 3 after the inserts of 1 and 4. -/
def example_pair : ADS_set Nat :=
  { table := [[], [4, 1], []], table_size := 3, current_size := 2 }

end Ptr

end ADS_set

/-! # Proofs -/

namespace ADS_set

section Lists

variable {Key : Type}

/-! ## Single-precision arithmetic -/

theorem max_lf_eq : max_lf = 11744051 := by decide

theorem ulp_loop_spec : ∀ (fuel q u : Nat), q ≤ fuel →
    ∃ e, ulp_loop fuel q u = u * 2 ^ e ∧ q < 2 ^ 24 * 2 ^ e ∧ (e = 0 ∨ 2 ^ 23 * 2 ^ e ≤ q)
  | 0, q, u, h => ⟨0, by simp [ulp_loop], by simp; omega, Or.inl rfl⟩
  | fuel + 1, q, u, h => by
    by_cases hq : q < 2 ^ 24
    · exact ⟨0, by simp only [ulp_loop, hq, if_true, pow_zero, Nat.mul_one], by simpa using hq,
        Or.inl rfl⟩
    · obtain ⟨e, he, hlt, hge⟩ := ulp_loop_spec fuel (q / 2) (2 * u) (by omega)
      refine ⟨e + 1, ?_, ?_, Or.inr ?_⟩
      · simp only [ulp_loop, hq, if_false]
        rw [he, pow_succ]
        ring
      · rw [pow_succ]
        omega
      · rcases hge with rfl | hge
        · simp only [zero_add, pow_one]
          omega
        · rw [pow_succ]
          omega

theorem ulp_spec (q : Nat) :
    ∃ e, ulp q = 2 ^ e ∧ q < 2 ^ 24 * 2 ^ e ∧ (e = 0 ∨ 2 ^ 23 * 2 ^ e ≤ q) := by
  obtain ⟨e, he, h1, h2⟩ := ulp_loop_spec q q 1 (Nat.le_refl _)
  exact ⟨e, by simpa [ulp] using he, h1, h2⟩

/-- The result of a rounding is one of the two neighbours of the ratio on the grid of its
unit in the last place, at most half a unit away. -/
theorem round_float_cases (num den : Nat) (hden : 0 < den) :
    ∃ e m r, ulp (num / den) = 2 ^ e ∧ num = 2 ^ e * den * m + r ∧ r < 2 ^ e * den ∧
      ((round_float num den = m * 2 ^ e ∧ 2 * r ≤ 2 ^ e * den) ∨
       (round_float num den = (m + 1) * 2 ^ e ∧ 2 ^ e * den ≤ 2 * r)) := by
  obtain ⟨e, he, _, _⟩ := ulp_spec (num / den)
  have hD : 0 < 2 ^ e * den := Nat.mul_pos (Nat.pow_pos (by decide)) hden
  refine ⟨e, num / (2 ^ e * den), num % (2 ^ e * den), he, (Nat.div_add_mod _ _).symm,
    Nat.mod_lt _ hD, ?_⟩
  simp only [round_float, he]
  split
  · left; exact ⟨rfl, by omega⟩
  · split
    · right; exact ⟨rfl, by omega⟩
    · split
      · left; exact ⟨rfl, by omega⟩
      · right; exact ⟨rfl, by omega⟩

/-- The relative error of a rounding is at most 2^-24, for a ratio of at least 2^23 units
(a value of at least 1/2). -/
theorem round_float_bounds (num den : Nat) (hden : 0 < den) (h : 2 ^ 23 * den ≤ num) :
    (2 ^ 24 - 1) * num ≤ 2 ^ 24 * (round_float num den * den) ∧
    2 ^ 24 * (round_float num den * den) ≤ (2 ^ 24 + 1) * num := by
  obtain ⟨e, m, r, he, hnum, hr, hcase⟩ := round_float_cases num den hden
  obtain ⟨e1, he1, _, hge⟩ := ulp_spec (num / den)
  have hee : (2:Nat) ^ e1 = 2 ^ e := by rw [← he1, he]
  have hD : 2 ^ 23 * (2 ^ e * den) ≤ num := by
    rcases hge with rfl | hge
    · rw [← hee]
      simpa using h
    · rw [hee] at hge
      have := (Nat.le_div_iff_mul_le hden).mp hge
      calc 2 ^ 23 * (2 ^ e * den) = 2 ^ 23 * 2 ^ e * den := by ring
        _ ≤ num := this
  have hP : ∀ k, k * 2 ^ e * den = 2 ^ e * den * k := fun k => by ring
  rcases hcase with ⟨hres, hle⟩ | ⟨hres, hle⟩
  · rw [hres, hP]
    generalize 2 ^ e * den = D at *
    generalize hM : D * m = M at *
    omega
  · rw [hres, hP, Nat.mul_add, Nat.mul_one]
    generalize 2 ^ e * den = D at *
    generalize hM : D * m = M at *
    omega

theorem float_of_size_zero : float_of_size 0 = 0 := by decide

theorem float_of_size_bounds (n : Nat) :
    (2 ^ 24 - 1) * (n * 2 ^ 24) ≤ 2 ^ 24 * float_of_size n ∧
    2 ^ 24 * float_of_size n ≤ (2 ^ 24 + 1) * (n * 2 ^ 24) := by
  cases n with
  | zero => simp [float_of_size_zero]
  | succ k =>
    have h := round_float_bounds ((k + 1) * 2 ^ 24) 1 (by decide) (by omega)
    simpa [float_of_size] using h

/-- A size below 2^24 is converted exactly. -/
theorem float_of_size_small (n : Nat) (hn : n < 2 ^ 24) : float_of_size n = n * 2 ^ 24 := by
  obtain ⟨e, m, r, he, hnum, hr, hcase⟩ := round_float_cases (n * 2 ^ 24) 1 (by decide)
  obtain ⟨e1, he1, _, hge⟩ := ulp_spec (n * 2 ^ 24 / 1)
  have hee : (2:Nat) ^ e1 = 2 ^ e := by rw [← he1, he]
  have hpos : 0 < 2 ^ e := Nat.pow_pos (by decide)
  have he24 : e ≤ 24 := by
    rcases hge with h0 | hge
    · have : (2:Nat) ^ e = 1 := by rw [← hee, h0]; rfl
      rcases Nat.eq_zero_or_pos e with h | h
      · omega
      · have := Nat.one_lt_two_pow (Nat.pos_iff_ne_zero.mp h)
        omega
    · rw [hee, Nat.div_one] at hge
      have h1 : (2:Nat) ^ e < 2 ^ 25 := by omega
      have := (Nat.pow_lt_pow_iff_right (by decide : 1 < 2)).mp h1
      omega
  have hdvd : 2 ^ e ∣ n * 2 ^ 24 := Dvd.dvd.mul_left (pow_dvd_pow 2 he24) n
  simp only [Nat.mul_one] at hnum hr hcase
  have hr0 : r = 0 := by
    have h1 : 2 ^ e ∣ r := by
      have h2 : 2 ^ e ∣ 2 ^ e * m + r := hnum ▸ hdvd
      exact (Nat.dvd_add_right (Dvd.intro _ rfl)).mp h2
    exact Nat.eq_zero_of_dvd_of_lt h1 hr
  rcases hcase with ⟨hres, _⟩ | ⟨_, hle⟩
  · rw [float_of_size, hres, hnum, hr0]
    ring
  · omega

/-- A passed load test leaves the count below the capacity. -/
theorem lt_of_load_test (x n : Nat) (hx : 0 < x)
    (h : float_of_size n ≤ float_mul (float_of_size x) max_lf) : n < x := by
  have hn := float_of_size_bounds n
  have hxb := float_of_size_bounds x
  have hm := round_float_bounds (float_of_size x * max_lf) (2 ^ 24) (by decide)
    (by rw [max_lf_eq]; omega)
  rw [max_lf_eq] at h hm
  simp only [float_mul] at h
  generalize round_float (float_of_size x * 11744051) (2 ^ 24) = M at *
  omega

/-- The load test passes for every capacity of at least twice the count. -/
theorem load_test_of_double (x n : Nat) (h : 2 * n ≤ x) :
    float_of_size n ≤ float_mul (float_of_size x) max_lf := by
  rcases Nat.eq_zero_or_pos x with rfl | hx
  · have : n = 0 := by omega
    subst this
    decide
  have hn := float_of_size_bounds n
  have hxb := float_of_size_bounds x
  have hm := round_float_bounds (float_of_size x * max_lf) (2 ^ 24) (by decide)
    (by rw [max_lf_eq]; omega)
  rw [max_lf_eq] at hm ⊢
  simp only [float_mul]
  generalize round_float (float_of_size x * 11744051) (2 ^ 24) = M at *
  omega

/-- The third term of the capacity of rehash, size_type(current_size / max_lf), is at most
twice the count. -/
theorem size_of_float_div_le (c : Nat) :
    size_of_float (float_div (float_of_size c) max_lf) ≤ 2 * c := by
  rcases Nat.eq_zero_or_pos c with rfl | hc
  · decide
  have hcb := float_of_size_bounds c
  have hd := round_float_bounds (float_of_size c * 2 ^ 24) max_lf (by decide)
    (by rw [max_lf_eq]; omega)
  rw [max_lf_eq] at hd ⊢
  simp only [float_div, size_of_float]
  generalize round_float (float_of_size c * 2 ^ 24) 11744051 = Q at *
  omega

/-- A converted integer quotient reaches max_lf exactly when it is at least 1. -/
theorem max_lf_le_float_of_size (q : Nat) : max_lf ≤ float_of_size q ↔ 1 ≤ q := by
  have hq := float_of_size_bounds q
  rw [max_lf_eq]
  constructor
  · intro h
    rcases Nat.eq_zero_or_pos q with rfl | hq0
    · rw [float_of_size_zero] at h; omega
    · exact hq0
  · intro h
    omega

/-- Below 2^24 the load test of reserve is monotone in the count: the counts are converted
exactly. -/
theorem load_test_of_le (x n m : Nat) (hnm : n ≤ m) (hm : m < 2 ^ 24)
    (h : float_of_size m ≤ float_mul (float_of_size x) max_lf) :
    float_of_size n ≤ float_mul (float_of_size x) max_lf := by
  rw [float_of_size_small m hm] at h
  rw [float_of_size_small n (by omega)]
  omega

/-! ## Buckets, placement and growth: facts that need no comparison of keys -/

theorem getD_set_self {t : List (List Key)} {i : Nat} (hi : i < t.length) (v : List Key) :
    (t.set i v).getD i [] = v := by
  simp [List.getD_eq_getElem?_getD, hi]

theorem getD_set_other {t : List (List Key)} {i j : Nat} (hij : i ≠ j) (v : List Key) :
    (t.set i v).getD j [] = t.getD j [] := by
  simp [List.getD_eq_getElem?_getD, List.getElem?_set_ne hij]

theorem getD_mem_of_ne_nil {t : List (List Key)} {i : Nat} (hne : t.getD i [] ≠ []) :
    i < t.length ∧ t.getD i [] ∈ t := by
  by_cases hi : i < t.length
  · refine ⟨hi, ?_⟩
    rw [List.getD_eq_getElem _ _ hi]
    exact List.getElem_mem hi
  · exact absurd (List.getD_eq_default _ _ (Nat.le_of_not_lt hi)) hne

theorem getD_replicate_nil (n i : Nat) : (List.replicate n ([] : List Key)).getD i [] = [] := by
  by_cases hi : i < n
  · simp [List.getD_eq_getElem?_getD, hi]
  · simp [List.getD_eq_getElem?_getD, List.getElem?_replicate, hi]

theorem flatten_split : ∀ (t : List (List Key)) (i : Nat), i < t.length →
    t.flatten = (t.take i).flatten ++ t.getD i [] ++ (t.drop (i + 1)).flatten
  | [], _, hi => by simp at hi
  | c :: t, 0, _ => by simp
  | c :: t, i + 1, hi => by
    have ih := flatten_split t i (by simpa using hi)
    simp only [List.flatten_cons, List.take_succ_cons, List.getD_cons_succ, List.drop_succ_cons,
      List.append_assoc]
    rw [ih]
    simp

theorem flatten_set : ∀ (t : List (List Key)) (i : Nat) (v : List Key), i < t.length →
    (t.set i v).flatten = (t.take i).flatten ++ v ++ (t.drop (i + 1)).flatten
  | [], _, _, hi => by simp at hi
  | c :: t, 0, v, _ => by simp
  | c :: t, i + 1, v, hi => by
    have ih := flatten_set t i v (by simpa using hi)
    simp only [List.set_cons_succ, List.flatten_cons, List.take_succ_cons, List.drop_succ_cons,
      List.append_assoc]
    rw [ih]
    simp

/-- Linking a key at the head of bucket i adds exactly that key to the stored keys. -/
theorem flatten_push_perm (t : List (List Key)) (i : Nat) (k : Key) (hi : i < t.length) :
    (t.set i (k :: t.getD i [])).flatten.Perm (k :: t.flatten) := by
  rw [flatten_set t i _ hi, flatten_split t i hi]
  simp only [List.append_assoc, List.cons_append]
  exact List.perm_middle

/-- Replacing bucket i by a chain with one key fewer removes exactly that key. -/
theorem flatten_unlink_perm (t : List (List Key)) (i : Nat) (k : Key) (v : List Key)
    (hi : i < t.length) (hv : (t.getD i []).Perm (k :: v)) :
    t.flatten.Perm (k :: (t.set i v).flatten) := by
  rw [flatten_set t i _ hi, flatten_split t i hi]
  simp only [List.append_assoc]
  refine List.Perm.trans ?_ List.perm_middle
  exact List.Perm.append_left _ (List.Perm.append_right _ hv)

theorem mem_flatten_iff_getD (t : List (List Key)) (k : Key) :
    k ∈ t.flatten ↔ ∃ i, k ∈ t.getD i [] := by
  constructor
  · intro hk
    obtain ⟨c, hc, hkc⟩ := List.mem_flatten.mp hk
    obtain ⟨i, hi, rfl⟩ := List.getElem_of_mem hc
    exact ⟨i, by rw [List.getD_eq_getElem _ _ hi]; exact hkc⟩
  · rintro ⟨i, hk⟩
    have hne : t.getD i [] ≠ [] := by
      intro h0
      rw [h0] at hk
      simp at hk
    exact List.mem_flatten.mpr ⟨_, (getD_mem_of_ne_nil hne).2, hk⟩

theorem h_eq (hasher : Key → Nat) (s : ADS_set Key) (key : Key) (hpos : 0 < s.table_size) :
    h hasher s key = some (hasher key % s.table_size) := by
  simp [h, Nat.pos_iff_ne_zero.mp hpos]

theorem placed_replicate (hasher : Key → Nat) (n m : Nat) :
    Placed hasher n (List.replicate m ([] : List Key)) := by
  intro i k hk
  rw [getD_replicate_nil] at hk
  simp at hk

theorem placed_push (hasher : Key → Nat) (n : Nat) (t : List (List Key)) (k : Key)
    (hp : Placed hasher n t) :
    Placed hasher n (t.set (hasher k % n) (k :: t.getD (hasher k % n) [])) := by
  intro i x hx
  by_cases hi : hasher k % n = i
  · subst hi
    by_cases hlt : hasher k % n < t.length
    · rw [getD_set_self hlt] at hx
      rcases List.mem_cons.mp hx with rfl | hx
      · rfl
      · exact hp _ _ hx
    · rw [List.set_eq_of_length_le (Nat.le_of_not_lt hlt)] at hx
      exact hp _ _ hx
  · rw [getD_set_other hi] at hx
    exact hp _ _ hx

theorem rehash_chain_spec (hasher : Key → Nat) (s : ADS_set Key) (hpos : 0 < s.table_size) :
    ∀ (c : List Key) (t : List (List Key)), t.length = s.table_size →
      ∃ t1, rehash_chain hasher s c t = some t1 ∧ t1.length = s.table_size ∧
        t1.flatten.Perm (c ++ t.flatten) ∧
        (Placed hasher s.table_size t → Placed hasher s.table_size t1)
  | [], t, hlen => ⟨t, rfl, hlen, by simp, fun hp => hp⟩
  | key :: next, t, hlen => by
    have hidx : hasher key % s.table_size < t.length := by
      rw [hlen]; exact Nat.mod_lt _ hpos
    obtain ⟨t1, h1, hl1, hperm, hpl⟩ := rehash_chain_spec hasher s hpos next
      (t.set (hasher key % s.table_size) (key :: t.getD (hasher key % s.table_size) []))
      (by simpa using hlen)
    refine ⟨t1, ?_, hl1, ?_, fun hp => hpl (placed_push hasher _ t key hp)⟩
    · simpa [rehash_chain, h_eq hasher s key hpos] using h1
    · refine hperm.trans ?_
      refine (List.Perm.append_left next (flatten_push_perm t _ key hidx)).trans ?_
      simp

theorem rehash_buckets_spec (hasher : Key → Nat) (s : ADS_set Key) (hpos : 0 < s.table_size) :
    ∀ (old : List (List Key)) (t : List (List Key)), t.length = s.table_size →
      ∃ t1, old.foldlM (fun new_table c => rehash_chain hasher s c new_table) t = some t1 ∧
        t1.length = s.table_size ∧ t1.flatten.Perm (old.flatten ++ t.flatten) ∧
        (Placed hasher s.table_size t → Placed hasher s.table_size t1)
  | [], t, hlen => ⟨t, rfl, hlen, by simp, fun hp => hp⟩
  | c :: old, t, hlen => by
    obtain ⟨t0, h0, hl0, hperm0, hpl0⟩ := rehash_chain_spec hasher s hpos c t hlen
    obtain ⟨t1, h1, hl1, hperm1, hpl1⟩ := rehash_buckets_spec hasher s hpos old t0 hl0
    refine ⟨t1, ?_, hl1, ?_, fun hp => hpl1 (hpl0 hp)⟩
    · simp [List.foldlM_cons, h0, h1]
    · refine hperm1.trans ?_
      refine (List.Perm.append_left old.flatten hperm0).trans ?_
      simp only [List.flatten_cons, List.append_assoc]
      rw [← List.append_assoc, ← List.append_assoc]
      exact List.Perm.append_right _ List.perm_append_comm

theorem map_getD_range (t : List (List Key)) :
    (List.range t.length).map (fun i => t.getD i []) = t := by
  apply List.ext_getElem
  · simp
  · intro i h1 h2
    simp at h1
    simp [List.getD_eq_getElem?_getD, h1]

theorem foldlM_range_getD {β : Type} (f : List Key → β → Option β) (t : List (List Key)) (init : β) :
    (List.range t.length).foldlM (fun acc i => f (t.getD i []) acc) init =
      t.foldlM (fun acc c => f c acc) init := by
  conv_rhs => rw [← map_getD_range t]
  rw [List.foldlM_map]

theorem reserve_loop_exit (n : Nat) : ∀ (fuel x : Nat), 2 * n ≤ fuel + x →
    float_of_size n ≤ float_mul (float_of_size (reserve_loop n fuel x)) max_lf
  | 0, x, hx => by
    simp only [reserve_loop]
    exact load_test_of_double x n (by omega)
  | fuel + 1, x, hx => by
    simp only [reserve_loop]
    split
    · exact reserve_loop_exit n fuel (2 * x + 1) (by omega)
    · rename_i hc
      exact Nat.le_of_not_lt hc

theorem reserve_loop_ge (n : Nat) : ∀ (fuel x : Nat), x ≤ reserve_loop n fuel x
  | 0, x => by simp [reserve_loop]
  | fuel + 1, x => by
    simp only [reserve_loop]
    split
    · exact Nat.le_trans (by omega) (reserve_loop_ge n fuel (2 * x + 1))
    · exact Nat.le_refl _

theorem reserve_loop_once (n fuel x : Nat)
    (h1 : float_mul (float_of_size x) max_lf < float_of_size n)
    (h2 : float_of_size n ≤ float_mul (float_of_size (2 * x + 1)) max_lf) :
    reserve_loop n (fuel + 1) x = 2 * x + 1 := by
  cases fuel with
  | zero => simp [reserve_loop, h1]
  | succ f =>
    have h3 : ¬ float_mul (float_of_size (2 * x + 1)) max_lf < float_of_size n :=
      Nat.not_lt.mpr h2
    simp [reserve_loop, h1, h3]

theorem rehash_spec (hasher : Key → Nat) (N : Nat) (hN : 1 ≤ N) (s : ADS_set Key) (n : Nat)
    (hlen : s.table.length = s.table_size) :
    ∃ s1, rehash hasher N s n = some s1 ∧
      s1.table_size = max N (max n (size_of_float (float_div (float_of_size s.current_size) max_lf))) ∧
      s1.current_size = s.current_size ∧ s1.table.length = s1.table_size ∧
      Placed hasher s1.table_size s1.table ∧ s1.table.flatten.Perm s.table.flatten := by
  have hpos : 0 < max N (max n (size_of_float (float_div (float_of_size s.current_size) max_lf))) :=
    Nat.lt_of_lt_of_le hN (Nat.le_max_left _ _)
  obtain ⟨t1, h1, hl1, hperm, hpl⟩ := rehash_buckets_spec hasher
    { s with table_size := max N (max n (size_of_float (float_div (float_of_size s.current_size) max_lf))) } hpos
    s.table (List.replicate (max N (max n (size_of_float (float_div (float_of_size s.current_size) max_lf)))) [])
    (by simp)
  refine ⟨{ table := t1, table_size := max N (max n (size_of_float (float_div (float_of_size s.current_size) max_lf))),
            current_size := s.current_size }, ?_, rfl, rfl, hl1,
          hpl (placed_replicate hasher _ _), by simpa using hperm⟩
  have hfold := foldlM_range_getD
    (fun c acc => rehash_chain hasher
      { s with table_size := max N (max n (size_of_float (float_div (float_of_size s.current_size) max_lf))) } c acc)
    s.table (List.replicate (max N (max n (size_of_float (float_div (float_of_size s.current_size) max_lf)))) [])
  rw [hlen] at hfold
  simp only [rehash]
  rw [hfold, h1]
  rfl

theorem reserve_spec (hasher : Key → Nat) (N : Nat) (hN : 1 ≤ N) (s : ADS_set Key) (n : Nat)
    (hlen : s.table.length = s.table_size) (hpl : Placed hasher s.table_size s.table) :
    ∃ s1, reserve hasher N s n = some s1 ∧ s1.current_size = s.current_size ∧
      s1.table.length = s1.table_size ∧ Placed hasher s1.table_size s1.table ∧
      s1.table.flatten.Perm s.table.flatten ∧
      (0 < s.table_size → n < s1.table_size) ∧ s.table_size ≤ s1.table_size ∧
      (float_of_size n ≤ float_mul (float_of_size s.table_size) max_lf → s1 = s) ∧
      (float_mul (float_of_size s.table_size) max_lf < float_of_size n →
        s1.table_size = max N (max (reserve_loop n (2 * n) s.table_size)
          (size_of_float (float_div (float_of_size s.current_size) max_lf)))) := by
  by_cases hc : float_of_size n ≤ float_mul (float_of_size s.table_size) max_lf
  · refine ⟨s, ?_, rfl, hlen, hpl, List.Perm.refl _, fun hpos => lt_of_load_test _ _ hpos hc,
      Nat.le_refl _, fun _ => rfl, ?_⟩
    · simp [reserve, hc]
    · intro hlt
      exact absurd hc (Nat.not_le.mpr hlt)
  · obtain ⟨s1, h1, hts, hcs, hl1, hpl1, hperm⟩ :=
      rehash_spec hasher N hN s (reserve_loop n (2 * n) s.table_size) hlen
    have hge : reserve_loop n (2 * n) s.table_size ≤ s1.table_size := by
      rw [hts]
      exact Nat.le_trans (Nat.le_max_left _ _) (Nat.le_max_right _ _)
    have hexit := reserve_loop_exit n (2 * n) s.table_size (by omega)
    have hlge := reserve_loop_ge n (2 * n) s.table_size
    refine ⟨s1, ?_, hcs, hl1, hpl1, hperm, fun hpos => ?_, ?_, fun h => absurd h hc, fun _ => hts⟩
    · simp [reserve, hc, h1]
    · exact Nat.lt_of_lt_of_le
        (lt_of_load_test _ _ (Nat.lt_of_lt_of_le hpos hlge) hexit) hge
    · exact Nat.le_trans hlge hge

theorem shape_of_perm (hasher : Key → Nat) (N : Nat) (s s1 : ADS_set Key) (hs : Shape hasher N s)
    (hcs : s1.current_size = s.current_size) (hlen : s1.table.length = s1.table_size)
    (hpl : Placed hasher s1.table_size s1.table) (hperm : s1.table.flatten.Perm s.table.flatten)
    (hts : s.table_size ≤ s1.table_size) : Shape hasher N s1 where
  len := hlen
  floor := Nat.le_trans hs.floor hts
  pos := Nat.lt_of_lt_of_le hs.pos hts
  placed := hpl
  nodup := hperm.nodup_iff.mpr hs.nodup
  card := by rw [hcs, hs.card, hperm.length_eq]

theorem mem_flatten_iff_bucket (hasher : Key → Nat) (N : Nat) (s : ADS_set Key)
    (hs : Shape hasher N s) (k : Key) :
    k ∈ s.table.flatten ↔ k ∈ s.table.getD (hasher k % s.table_size) [] := by
  rw [mem_flatten_iff_getD]
  constructor
  · rintro ⟨i, hi⟩
    rw [hs.placed i k hi]
    exact hi
  · intro hk
    exact ⟨_, hk⟩

/-- The growth test of add is false when the incremented count is below the capacity: the
integer quotient is 0. -/
theorem add_grows_false (s : ADS_set Key) (hload : s.current_size + 1 < s.table_size) :
    add_grows { s with current_size := s.current_size + 1 } = false := by
  have h0 : ¬ max_lf ≤ float_of_size 0 := by decide
  simp only [add_grows, Nat.div_eq_of_lt hload, ge_iff_le, decide_eq_false_iff_not]
  exact h0

theorem add_spec (hasher : Key → Nat) (N : Nat) (s : ADS_set Key) (key : Key)
    (hs : Shape hasher N s) (hload : s.current_size + 1 < s.table_size) :
    add hasher N s key =
      some ({ table := s.table.set (hasher key % s.table_size)
                (key :: s.table.getD (hasher key % s.table_size) []),
              table_size := s.table_size, current_size := s.current_size + 1 },
            key :: s.table.getD (hasher key % s.table_size) []) := by
  have hg : add_grows { s with current_size := s.current_size + 1 } = false :=
    add_grows_false s hload
  have hidx : hasher key % s.table_size < s.table.length := by
    rw [hs.len]; exact Nat.mod_lt _ hs.pos
  simp only [add, h_eq hasher s key hs.pos, hg]
  simp only [Option.bind_eq_bind, Option.some_bind, Bool.false_eq_true, if_false, Option.pure_def,
    getD_set_self hidx]

theorem shape_push (hasher : Key → Nat) (N : Nat) (s : ADS_set Key) (key : Key)
    (hs : Shape hasher N s) (hk : key ∉ s.table.flatten) :
    Shape hasher N { table := s.table.set (hasher key % s.table_size)
                       (key :: s.table.getD (hasher key % s.table_size) []),
                     table_size := s.table_size, current_size := s.current_size + 1 } := by
  have hidx : hasher key % s.table_size < s.table.length := by
    rw [hs.len]; exact Nat.mod_lt _ hs.pos
  have hperm := flatten_push_perm s.table _ key hidx
  exact {
    len := by simpa using hs.len
    floor := hs.floor
    pos := hs.pos
    placed := placed_push hasher _ s.table key hs.placed
    nodup := hperm.nodup_iff.mpr (List.nodup_cons.mpr ⟨hk, hs.nodup⟩)
    card := by
      show s.current_size + 1 = _
      rw [hperm.length_eq, hs.card]
      rfl }

theorem inv_empty (hasher : Key → Nat) (N : Nat) (hN : 1 ≤ N) :
    Inv hasher N (empty N : ADS_set Key) where
  shape := {
    len := by simp [empty]
    floor := Nat.le_refl _
    pos := hN
    placed := placed_replicate hasher _ _
    nodup := by simp [empty]
    card := by simp [empty] }
  load := hN

/-- The capacity check of insert on a well-formed set: the table is kept, or it is
rehashed once to 2 * table_size + 1 buckets. -/
theorem reserve_next (hasher : Key → Nat) (N : Nat) (hN : 1 ≤ N) (s : ADS_set Key)
    (hs : Inv hasher N s) :
    ∃ s1, reserve hasher N s (s.current_size + 1) = some s1 ∧ Shape hasher N s1 ∧
      s1.current_size = s.current_size ∧ s1.table.flatten.Perm s.table.flatten ∧
      s.current_size + 1 < s1.table_size ∧
      (float_of_size (s.current_size + 1) ≤ float_mul (float_of_size s.table_size) max_lf →
        s1 = s) ∧
      (float_mul (float_of_size s.table_size) max_lf < float_of_size (s.current_size + 1) →
        s1.table_size = 2 * s.table_size + 1) := by
  obtain ⟨s1, h1, hcs, hl1, hpl1, hperm, hload, hge, hsame, hgrow⟩ :=
    reserve_spec hasher N hN s (s.current_size + 1) hs.shape.len hs.shape.placed
  refine ⟨s1, h1, shape_of_perm hasher N s s1 hs.shape hcs hl1 hpl1 hperm hge, hcs, hperm,
    hload hs.shape.pos, hsame, fun hlt => ?_⟩
  have hl := hs.load
  have hloop : reserve_loop (s.current_size + 1) (2 * (s.current_size + 1)) s.table_size
      = 2 * s.table_size + 1 :=
    reserve_loop_once (s.current_size + 1) (2 * s.current_size + 1) s.table_size hlt
      (load_test_of_double _ _ (by omega))
  rw [hgrow hlt, hloop]
  have hfl := hs.shape.floor
  have hq := size_of_float_div_le s.current_size
  omega

/-- The state after the insert of an absent key is well formed and holds the old keys
and the new one. -/
theorem inv_link (hasher : Key → Nat) (N : Nat) (s s1 : ADS_set Key) (key : Key)
    (hsh1 : Shape hasher N s1) (hcs : s1.current_size = s.current_size)
    (hperm : s1.table.flatten.Perm s.table.flatten) (hk : key ∉ s.table.flatten)
    (hload : s.current_size + 1 < s1.table_size) :
    Inv hasher N { table := s1.table.set (hasher key % s1.table_size)
                     (key :: s1.table.getD (hasher key % s1.table_size) []),
                   table_size := s1.table_size, current_size := s1.current_size + 1 } ∧
    (s1.table.set (hasher key % s1.table_size)
        (key :: s1.table.getD (hasher key % s1.table_size) [])).flatten.Perm
      (key :: s.table.flatten) := by
  have hk1 : key ∉ s1.table.flatten := fun hm => hk (hperm.mem_iff.mp hm)
  have hidx : hasher key % s1.table_size < s1.table.length := by
    rw [hsh1.len]; exact Nat.mod_lt _ hsh1.pos
  refine ⟨⟨shape_push hasher N s1 key hsh1 hk1, ?_⟩, ?_⟩
  · show s1.current_size + 1 < s1.table_size
    rw [hcs]; exact hload
  · exact (flatten_push_perm s1.table _ key hidx).trans (List.Perm.cons key hperm)

theorem inv_clear (hasher : Key → Nat) (N : Nat) (hN : 1 ≤ N) (s : ADS_set Key) :
    Inv hasher N (clear N s) :=
  inv_empty hasher N hN

theorem copy_loop_spec (hasher : Key → Nat) (N : Nat) :
    ∀ (keys : List Key) (s : ADS_set Key), Shape hasher N s → keys.Nodup →
      (∀ k, k ∈ keys → k ∉ s.table.flatten) →
      s.current_size + keys.length < s.table_size →
      ∃ s1, copy_loop hasher N s keys = some s1 ∧ Shape hasher N s1 ∧
        s1.table_size = s.table_size ∧ s1.current_size = s.current_size + keys.length ∧
        s1.table.flatten.Perm (keys ++ s.table.flatten)
  | [], s, hs, _, _, _ => ⟨s, rfl, hs, rfl, rfl, by simp⟩
  | k :: rest, s, hs, hnd, hdisj, hload => by
    have hk : k ∉ s.table.flatten := hdisj k (List.mem_cons_self _ _)
    have hload1 : s.current_size + 1 < s.table_size := by
      simp only [List.length_cons] at hload
      omega
    have hadd := add_spec hasher N s k hs hload1
    have hsh := shape_push hasher N s k hs hk
    have hidx : hasher k % s.table_size < s.table.length := by
      rw [hs.len]; exact Nat.mod_lt _ hs.pos
    have hperm := flatten_push_perm s.table _ k hidx
    obtain ⟨s1, h1, hsh1, hts, hcs, hp1⟩ := copy_loop_spec hasher N rest _ hsh
      (List.nodup_cons.mp hnd).2
      (by
        intro x hx hmem
        rcases List.mem_cons.mp (hperm.mem_iff.mp hmem) with rfl | hm
        · exact (List.nodup_cons.mp hnd).1 hx
        · exact hdisj x (List.mem_cons_of_mem _ hx) hm)
      (by
        simp only [List.length_cons] at hload ⊢
        omega)
    refine ⟨s1, ?_, hsh1, hts, ?_, ?_⟩
    · simp only [copy_loop, hadd, Option.bind_eq_bind, Option.some_bind]
      exact h1
    · rw [hcs]
      simp only [List.length_cons]
      omega
    · refine hp1.trans ?_
      refine (List.Perm.append_left rest hperm).trans ?_
      simp

/-- Two duplicate-free key lists of the same length, one contained in the other, have the
same members. -/
theorem mem_iff_of_subset_of_length_eq {l1 l2 : List Key} (h1 : l1.Nodup)
    (hlen : l1.length = l2.length) (hsub : ∀ k ∈ l1, k ∈ l2) (k : Key) : k ∈ l2 ↔ k ∈ l1 := by
  have hp : l1.Perm l2 := (List.Nodup.subperm h1 hsub).perm_of_length_le (Nat.le_of_eq hlen.symm)
  exact hp.mem_iff.symm

theorem reserve_loop_stop (n fuel y : Nat)
    (hy : ¬ float_mul (float_of_size y) max_lf < float_of_size n) :
    reserve_loop n fuel y = y := by
  cases fuel with
  | zero => rfl
  | succ f => simp [reserve_loop, hy]

/-- The while loop of reserve returns the first value of the sequence x, 2x+1, 4x+3, ...
(that is (x + 1) * 2^j - 1) that passes the load test. -/
theorem reserve_loop_closed (n : Nat) : ∀ (fuel x : Nat), 2 * n ≤ fuel + x →
    float_mul (float_of_size x) max_lf < float_of_size n →
    ∃ j, 1 ≤ j ∧ reserve_loop n fuel x = (x + 1) * 2 ^ j - 1 ∧
      float_of_size n ≤ float_mul (float_of_size ((x + 1) * 2 ^ j - 1)) max_lf ∧
      ∀ i, i < j → float_mul (float_of_size ((x + 1) * 2 ^ i - 1)) max_lf < float_of_size n
  | 0, x, hx, hlt => by
    have := load_test_of_double x n (by omega)
    omega
  | fuel + 1, x, hx, hlt => by
    have hstep : reserve_loop n (fuel + 1) x = reserve_loop n fuel (2 * x + 1) := by
      simp [reserve_loop, hlt]
    have hdouble : ∀ i, (2 * x + 1 + 1) * 2 ^ i = (x + 1) * 2 ^ (i + 1) := by
      intro i
      rw [pow_succ]
      ring
    by_cases hnext : float_mul (float_of_size (2 * x + 1)) max_lf < float_of_size n
    · obtain ⟨j, hj, hres, hexit, hmin⟩ := reserve_loop_closed n fuel (2 * x + 1) (by omega) hnext
      refine ⟨j + 1, by omega, ?_, ?_, fun i hi => ?_⟩
      · rw [hstep, hres, hdouble]
      · rw [← hdouble]; exact hexit
      · cases i with
        | zero => simpa using hlt
        | succ i =>
          rw [← hdouble]
          exact hmin i (by omega)
    · refine ⟨1, Nat.le_refl _, ?_, ?_, fun i hi => ?_⟩
      · rw [hstep, reserve_loop_stop n fuel _ hnext]
        simp only [pow_one]
        omega
      · have : (x + 1) * 2 ^ 1 - 1 = 2 * x + 1 := by
          simp only [pow_one]
          omega
        rw [this]
        exact Nat.le_of_not_lt hnext
      · have hi0 : i = 0 := by omega
        subst hi0
        simpa using hlt

end Lists

section Operations

variable {Key : Type} [DecidableEq Key]

/-! ## The chain loops, lookup and count -/

theorem locate_loop_ne_nil_iff (key : Key) (c : List Key) : locate_loop key c ≠ [] ↔ key ∈ c := by
  induction c with
  | nil => simp [locate_loop]
  | cons k next ih =>
    by_cases hk : key = k
    · simp [locate_loop, hk]
    · simp [locate_loop, hk, ih]

theorem locate_loop_head (key : Key) (c : List Key) (hne : locate_loop key c ≠ []) :
    (locate_loop key c).head? = some key := by
  induction c with
  | nil => simp [locate_loop] at hne
  | cons k next ih =>
    by_cases hk : key = k
    · simp [locate_loop, hk]
    · simp only [locate_loop, hk, if_false] at hne ⊢
      exact ih hne

theorem erase_loop_eq (key : Key) (c : List Key) :
    erase_loop key c = if key ∈ c then some (c.erase key) else none := by
  induction c with
  | nil => simp [erase_loop]
  | cons k next ih =>
    by_cases hk : key = k
    · subst hk
      simp [erase_loop]
    · have hk2 : ¬ k = key := fun e => hk e.symm
      by_cases hm : key ∈ next
      · simp [erase_loop, hk, hk2, ih, hm, List.erase_cons_tail]
      · simp [erase_loop, hk, hk2, ih, hm]

theorem locate_eq (hasher : Key → Nat) (N : Nat) (s : ADS_set Key) (hs : Shape hasher N s)
    (k : Key) :
    locate hasher s k = some (locate_loop k (s.table.getD (hasher k % s.table_size) [])) := by
  simp only [locate, h_eq hasher s k hs.pos]
  rfl

theorem locate_ne_nil_iff (hasher : Key → Nat) (N : Nat) (s : ADS_set Key)
    (hs : Shape hasher N s) (k : Key) :
    locate_loop k (s.table.getD (hasher k % s.table_size) []) ≠ [] ↔ k ∈ s.table.flatten := by
  rw [locate_loop_ne_nil_iff, mem_flatten_iff_bucket hasher N s hs]

theorem count_eq (hasher : Key → Nat) (N : Nat) (s : ADS_set Key) (hs : Shape hasher N s)
    (k : Key) :
    count hasher s k = some (if k ∈ s.table.flatten then 1 else 0) := by
  simp only [count, locate_eq hasher N s hs k]
  by_cases hk : k ∈ s.table.flatten
  · have := (locate_ne_nil_iff hasher N s hs k).mpr hk
    simp [-List.getD_eq_getElem?_getD, hk, this]
  · have : ¬ locate_loop k (s.table.getD (hasher k % s.table_size) []) ≠ [] :=
      fun h => hk ((locate_ne_nil_iff hasher N s hs k).mp h)
    simp only [ne_eq, not_not] at this
    simp [-List.getD_eq_getElem?_getD, hk, this]

theorem count_eq_one_iff (hasher : Key → Nat) (N : Nat) (s : ADS_set Key)
    (hs : Shape hasher N s) (k : Key) :
    count hasher s k = some 1 ↔ k ∈ s.table.flatten := by
  rw [count_eq hasher N s hs k]
  by_cases hk : k ∈ s.table.flatten <;> simp [hk]

theorem count_eq_zero_iff (hasher : Key → Nat) (N : Nat) (s : ADS_set Key)
    (hs : Shape hasher N s) (k : Key) :
    count hasher s k = some 0 ↔ k ∉ s.table.flatten := by
  rw [count_eq hasher N s hs k]
  by_cases hk : k ∈ s.table.flatten <;> simp [hk]

/-! ## Cursors -/

theorem ctor_of_ne_nil (s : ADS_set Key) (position : Nat) (ptr : List Key) (hne : ptr ≠ []) :
    Iterator.ctor s position ptr = { position := position, ptr := ptr } := by
  simp [Iterator.ctor, hne]

theorem findNextNode_loop_spec (s : ADS_set Key) (hlen : s.table.length = s.table_size) :
    ∀ (fuel : Nat) (it : Iterator Key), it.ptr = [] → fuel = s.table_size - it.position →
      remaining s (findNextNode_loop s fuel it) = (s.table.drop it.position).flatten ∧
      ((findNextNode_loop s fuel it).ptr = [] → (s.table.drop it.position).flatten = [])
  | 0, it, hptr, hfuel => by
    have hle : s.table.length ≤ it.position := by omega
    have h1 : s.table.drop it.position = [] := List.drop_eq_nil_of_le hle
    have h2 : s.table.drop (it.position + 1) = [] := List.drop_eq_nil_of_le (by omega)
    simp [findNextNode_loop, remaining, hptr, h1, h2]
  | fuel + 1, it, hptr, hfuel => by
    have hlt : it.position < s.table_size := by omega
    have hlt2 : it.position < s.table.length := by omega
    have hdrop : s.table.drop it.position
        = s.table.getD it.position [] :: s.table.drop (it.position + 1) := by
      rw [List.getD_eq_getElem _ _ hlt2]
      exact List.drop_eq_getElem_cons hlt2
    by_cases hb : s.table.getD it.position [] = []
    · have ih := findNextNode_loop_spec s hlen fuel { it with position := it.position + 1 } hptr
        (by simp only; omega)
      simp only [findNextNode_loop, hlt, if_true, hb, ne_eq, not_true_eq_false, if_false]
      rw [hdrop, hb]
      simpa using ih
    · simp only [findNextNode_loop, hlt, if_true, ne_eq, hb, not_false_eq_true]
      rw [hdrop]
      exact ⟨by simp [remaining], fun h => h.elim⟩

theorem findNextNode_spec (s : ADS_set Key) (hlen : s.table.length = s.table_size)
    (it : Iterator Key) (hptr : it.ptr = []) :
    remaining s (findNextNode s it) = (s.table.drop it.position).flatten ∧
      ((findNextNode s it).ptr = [] → (s.table.drop it.position).flatten = []) :=
  findNextNode_loop_spec s hlen _ it hptr rfl

theorem end_ptr (s : ADS_set Key) : (end_ s).ptr = [] := by
  by_cases h0 : s.table_size = 0
  · simp [end_, Iterator.ctor, h0, findNextNode, findNextNode_loop]
  · simp [end_, Iterator.ctor, h0]

theorem end_position (s : ADS_set Key) : (end_ s).position = s.table_size := by
  by_cases h0 : s.table_size = 0
  · simp [end_, Iterator.ctor, h0, findNextNode, findNextNode_loop]
  · simp [end_, Iterator.ctor, h0]

theorem begin_spec (s : ADS_set Key) (hlen : s.table.length = s.table_size) :
    remaining s (begin s) = s.table.flatten ∧ ((begin s).ptr = [] → s.table.flatten = []) := by
  have hsp := findNextNode_spec s hlen { position := 0, ptr := [] } rfl
  simpa [begin, Iterator.ctor] using hsp

theorem incr_spec (s : ADS_set Key) (hlen : s.table.length = s.table_size) (it : Iterator Key)
    (k : Key) (tl : List Key) (hptr : it.ptr = k :: tl) :
    remaining s it = k :: remaining s (Iterator.incr s it) ∧
      ((Iterator.incr s it).ptr = [] → remaining s (Iterator.incr s it) = []) := by
  by_cases htl : tl = []
  · have hsp := findNextNode_spec s hlen { position := it.position + 1, ptr := [] } rfl
    have hincr : Iterator.incr s it = findNextNode s { position := it.position + 1, ptr := [] } := by
      simp [Iterator.incr, hptr, htl]
    rw [hincr]
    refine ⟨?_, fun h => ?_⟩
    · rw [hsp.1]
      simp [remaining, hptr, htl]
    · rw [hsp.1]
      exact hsp.2 h
  · have hincr : Iterator.incr s it = { position := it.position, ptr := tl } := by
      simp [Iterator.incr, hptr, htl]
    rw [hincr]
    exact ⟨by simp [remaining, hptr], fun h => absurd h htl⟩

theorem iterate_spec (s : ADS_set Key) (hlen : s.table.length = s.table_size) :
    ∀ (fuel : Nat) (it : Iterator Key), (it.ptr = [] → remaining s it = []) →
      (remaining s it).length < fuel → iterate s fuel it (end_ s) = some (remaining s it)
  | 0, it, _, hfuel => by simp at hfuel
  | fuel + 1, it, hnorm, hfuel => by
    cases hptr : it.ptr with
    | nil =>
      simp [iterate, Iterator.eq, hptr, end_ptr, hnorm hptr]
    | cons k tl =>
      obtain ⟨hrem, hnorm1⟩ := incr_spec s hlen it k tl hptr
      have ih := iterate_spec s hlen fuel (Iterator.incr s it) hnorm1 (by
        rw [hrem] at hfuel
        simpa using hfuel)
      simp [iterate, Iterator.eq, hptr, end_ptr, Iterator.deref, ih, hrem]

/-- A full traversal visits the chains bucket by bucket. -/
theorem iterate_begin (s : ADS_set Key) (hlen : s.table.length = s.table_size) (fuel : Nat)
    (hfuel : s.table.flatten.length < fuel) :
    iterate s fuel (begin s) (end_ s) = some s.table.flatten := by
  obtain ⟨hrem, hnorm⟩ := begin_spec s hlen
  have := iterate_spec s hlen fuel (begin s) (by rw [hrem]; exact hnorm) (by rw [hrem]; exact hfuel)
  rw [this, hrem]

theorem traverse_eq (s : ADS_set Key) (hlen : s.table.length = s.table_size) :
    traverse s = some s.table.flatten :=
  iterate_begin s hlen _ (Nat.lt_succ_self _)

/-! ## The operations on a well-formed set, and the claims -/

theorem insert_present (hasher : Key → Nat) (N : Nat) (s : ADS_set Key) (key : Key)
    (hs : Shape hasher N s) (hk : key ∈ s.table.flatten) :
    insert hasher N s key =
      some (s, { position := hasher key % s.table_size,
                 ptr := locate_loop key (s.table.getD (hasher key % s.table_size) []) }, false) := by
  have hne := (locate_ne_nil_iff hasher N s hs key).mpr hk
  simp only [insert, locate_eq hasher N s hs key, h_eq hasher s key hs.pos]
  simp only [Option.bind_eq_bind, Option.some_bind, hne, ne_eq, not_false_eq_true, if_true,
    Option.pure_def, ctor_of_ne_nil s _ _ hne]

theorem insert_absent (hasher : Key → Nat) (N : Nat) (hN : 1 ≤ N) (s : ADS_set Key) (key : Key)
    (hs : Inv hasher N s) (hk : key ∉ s.table.flatten) :
    ∃ s1, reserve hasher N s (s.current_size + 1) = some s1 ∧ Shape hasher N s1 ∧
      s1.current_size = s.current_size ∧ s1.table.flatten.Perm s.table.flatten ∧
      s.current_size + 1 < s1.table_size ∧
      (float_of_size (s.current_size + 1) ≤ float_mul (float_of_size s.table_size) max_lf →
        s1 = s) ∧
      (float_mul (float_of_size s.table_size) max_lf < float_of_size (s.current_size + 1) →
        s1.table_size = 2 * s.table_size + 1) ∧
      insert hasher N s key =
        some ({ table := s1.table.set (hasher key % s1.table_size)
                  (key :: s1.table.getD (hasher key % s1.table_size) []),
                table_size := s1.table_size, current_size := s1.current_size + 1 },
              { position := hasher key % s1.table_size,
                ptr := key :: s1.table.getD (hasher key % s1.table_size) [] }, true) := by
  obtain ⟨s1, h1, hsh1, hcs, hperm, hload, hsame, hgrow⟩ := reserve_next hasher N hN s hs
  refine ⟨s1, h1, hsh1, hcs, hperm, hload, hsame, hgrow, ?_⟩
  have hnil : locate_loop key (s.table.getD (hasher key % s.table_size) []) = [] := by
    by_contra hne
    exact hk ((locate_ne_nil_iff hasher N s hs.shape key).mp hne)
  have hadd := add_spec hasher N s1 key hsh1 (by rw [hcs]; exact hload)
  simp only [insert, locate_eq hasher N s hs.shape key, h1, h_eq hasher s1 key hsh1.pos, hadd,
    Option.bind_eq_bind, Option.some_bind, hnil, ne_eq, not_true_eq_false, if_false,
    Option.pure_def]
  rw [ctor_of_ne_nil _ _ _ (List.cons_ne_nil _ _)]

/-- Summary of insert on a well-formed set. -/
theorem insert_spec (hasher : Key → Nat) (N : Nat) (hN : 1 ≤ N) (s : ADS_set Key) (key : Key)
    (hs : Inv hasher N s) :
    ∃ s1 it b, insert hasher N s key = some (s1, it, b) ∧ Inv hasher N s1 ∧
      (b = true ↔ key ∉ s.table.flatten) ∧ (key ∈ s.table.flatten → s1 = s) ∧
      (key ∉ s.table.flatten → s1.table.flatten.Perm (key :: s.table.flatten)) ∧
      it.ptr ≠ [] ∧ it.deref = some key ∧
      (s1.table_size = s.table_size ∨ s1.table_size = 2 * s.table_size + 1) := by
  by_cases hk : key ∈ s.table.flatten
  · have hne := (locate_ne_nil_iff hasher N s hs.shape key).mpr hk
    refine ⟨s, _, false, insert_present hasher N s key hs.shape hk, hs, by simp [hk],
      fun _ => rfl, fun h => absurd hk h, hne, ?_, Or.inl rfl⟩
    exact locate_loop_head key _ hne
  · obtain ⟨s1, _, hsh1, hcs, hperm, hload, hsame, hgrow, hins⟩ :=
      insert_absent hasher N hN s key hs hk
    obtain ⟨hinv, hp⟩ := inv_link hasher N s s1 key hsh1 hcs hperm hk hload
    refine ⟨_, _, true, hins, hinv, by simp [hk], fun h => absurd h hk, fun _ => hp,
      List.cons_ne_nil _ _, rfl, ?_⟩
    by_cases hc : float_of_size (s.current_size + 1) ≤
        float_mul (float_of_size s.table_size) max_lf
    · left
      show s1.table_size = s.table_size
      rw [hsame hc]
    · right
      exact hgrow (Nat.not_le.mp hc)

theorem insert_range_cons (hasher : Key → Nat) (N : Nat) (hN : 1 ≤ N) (s : ADS_set Key)
    (key : Key) (rest : List Key) (hs : Inv hasher N s) :
    ∃ s1 it b, insert hasher N s key = some (s1, it, b) ∧
      insert_range hasher N s (key :: rest) = insert_range hasher N s1 rest := by
  by_cases hk : key ∈ s.table.flatten
  · refine ⟨s, _, false, insert_present hasher N s key hs.shape hk, ?_⟩
    simp [insert_range, count_eq hasher N s hs.shape key, hk]
  · obtain ⟨s1, h1, hsh1, hcs, _, hload, _, _, hins⟩ := insert_absent hasher N hN s key hs hk
    refine ⟨_, _, true, hins, ?_⟩
    have hadd := add_spec hasher N s1 key hsh1 (by rw [hcs]; exact hload)
    simp only [insert_range, count_eq hasher N s hs.shape key, hk, h1, hadd, if_false,
      Option.bind_eq_bind, Option.some_bind, if_true]

theorem insert_all_spec (hasher : Key → Nat) (N : Nat) (hN : 1 ≤ N) :
    ∀ (keys : List Key) (s : ADS_set Key), Inv hasher N s →
      ∃ s1, insert_all hasher N s keys = some s1 ∧ Inv hasher N s1 ∧
        (∀ k, k ∈ s1.table.flatten ↔ k ∈ keys ∨ k ∈ s.table.flatten)
  | [], s, hs => ⟨s, rfl, hs, by simp⟩
  | key :: rest, s, hs => by
    obtain ⟨s1, it, b, hins, hinv, _, hsame, hnew, _⟩ := insert_spec hasher N hN s key hs
    obtain ⟨s2, h2, hinv2, hmem⟩ := insert_all_spec hasher N hN rest s1 hinv
    refine ⟨s2, ?_, hinv2, fun k => ?_⟩
    · simp [insert_all, hins, h2]
    · rw [hmem k]
      by_cases hk : key ∈ s.table.flatten
      · rw [hsame hk]
        constructor
        · rintro (h | h)
          · exact Or.inl (List.mem_cons_of_mem _ h)
          · exact Or.inr h
        · rintro (h | h)
          · rcases List.mem_cons.mp h with rfl | h
            · exact Or.inr hk
            · exact Or.inl h
          · exact Or.inr h
      · rw [(hnew hk).mem_iff]
        simp only [List.mem_cons]
        tauto

theorem insert_range_eq_insert_all (hasher : Key → Nat) (N : Nat) (hN : 1 ≤ N) :
    ∀ (keys : List Key) (s : ADS_set Key), Inv hasher N s →
      insert_range hasher N s keys = insert_all hasher N s keys
  | [], _, _ => rfl
  | key :: rest, s, hs => by
    obtain ⟨s1, it, b, hins, hstep⟩ := insert_range_cons hasher N hN s key rest hs
    obtain ⟨s2, it2, b2, hins2, hinv, _⟩ := insert_spec hasher N hN s key hs
    have heq : s2 = s1 := by
      rw [hins] at hins2
      simpa using (Prod.mk.inj (Option.some.inj hins2)).1.symm
    subst heq
    rw [hstep, insert_range_eq_insert_all hasher N hN rest s2 hinv]
    simp [insert_all, hins]

theorem erase_spec (hasher : Key → Nat) (N : Nat) (s : ADS_set Key) (key : Key)
    (hs : Shape hasher N s) :
    erase hasher s key =
      some (if key ∈ s.table.flatten then
        ({ table := s.table.set (hasher key % s.table_size)
             ((s.table.getD (hasher key % s.table_size) []).erase key),
           table_size := s.table_size, current_size := s.current_size - 1 }, 1)
      else (s, 0)) := by
  simp only [erase, h_eq hasher s key hs.pos, Option.bind_eq_bind, Option.some_bind, erase_loop_eq,
    ← mem_flatten_iff_bucket hasher N s hs key]
  by_cases hk : key ∈ s.table.flatten <;> simp [hk]

theorem shape_unlink (hasher : Key → Nat) (N : Nat) (s : ADS_set Key) (key : Key)
    (hs : Shape hasher N s) (hk : key ∈ s.table.flatten) :
    Shape hasher N { table := s.table.set (hasher key % s.table_size)
                       ((s.table.getD (hasher key % s.table_size) []).erase key),
                     table_size := s.table_size, current_size := s.current_size - 1 } ∧
    s.table.flatten.Perm (key :: (s.table.set (hasher key % s.table_size)
      ((s.table.getD (hasher key % s.table_size) []).erase key)).flatten) := by
  have hidx : hasher key % s.table_size < s.table.length := by
    rw [hs.len]; exact Nat.mod_lt _ hs.pos
  have hkb := (mem_flatten_iff_bucket hasher N s hs key).mp hk
  have hperm := flatten_unlink_perm s.table _ key _ hidx (List.perm_cons_erase hkb)
  have hnd := hperm.nodup_iff.mp hs.nodup
  refine ⟨?_, hperm⟩
  exact {
    len := by simpa using hs.len
    floor := hs.floor
    pos := hs.pos
    placed := by
      intro i x hx
      by_cases hi : hasher key % s.table_size = i
      · subst hi
        rw [getD_set_self hidx] at hx
        exact hs.placed _ _ (List.mem_of_mem_erase hx)
      · rw [getD_set_other hi] at hx
        exact hs.placed _ _ hx
    nodup := (List.nodup_cons.mp hnd).2
    card := by
      show s.current_size - 1 = _
      rw [hs.card, hperm.length_eq]
      simp }

theorem copy_spec (hasher : Key → Nat) (N : Nat) (s : ADS_set Key) (hs : Inv hasher N s) :
    ∃ s1, copy hasher N s = some s1 ∧ Inv hasher N s1 ∧ s1.table_size = s.table_size ∧
      s1.current_size = s.current_size ∧ s1.table.flatten.Perm s.table.flatten := by
  have hsh0 : Shape hasher N
      ({ table := List.replicate s.table_size [], table_size := s.table_size, current_size := 0 } :
        ADS_set Key) := {
    len := by simp
    floor := hs.shape.floor
    pos := hs.shape.pos
    placed := placed_replicate hasher _ _
    nodup := by simp
    card := by simp }
  obtain ⟨s1, h1, hsh1, hts, hcs, hperm⟩ := copy_loop_spec hasher N s.table.flatten _ hsh0
    hs.shape.nodup (by simp) (by
      have := hs.load
      rw [hs.shape.card] at this
      simpa using this)
  have hcs1 : s1.current_size = s.current_size := by
    rw [hcs, hs.shape.card]; simp
  refine ⟨s1, ?_, ⟨hsh1, ?_⟩, hts, hcs1, by simpa using hperm⟩
  · simp only [copy, traverse_eq s hs.shape.len, Option.bind_eq_bind, Option.some_bind]
    exact h1
  · rw [hcs1, hts]; exact hs.load

/-- Every reachable set satisfies the representation invariant. -/
theorem reachable_inv (hasher : Key → Nat) (N : Nat) (hN : 1 ≤ N) (s : ADS_set Key)
    (hr : Reachable hasher N s) : Inv hasher N s := by
  induction hr with
  | empty => exact inv_empty hasher N hN
  | @insert s s1 key it b _ hins ih =>
    obtain ⟨s2, it2, b2, hins2, hinv, _⟩ := insert_spec hasher N hN s key ih
    rw [hins] at hins2
    have : s1 = s2 := (Prod.mk.inj (Option.some.inj hins2)).1
    rw [this]; exact hinv
  | @insert_range s s1 keys _ hins ih =>
    rw [insert_range_eq_insert_all hasher N hN keys s ih] at hins
    obtain ⟨s2, h2, hinv, _⟩ := insert_all_spec hasher N hN keys s ih
    rw [hins] at h2
    rw [Option.some.inj h2]; exact hinv
  | @erase s s1 key r _ her ih =>
    rw [erase_spec hasher N s key ih.shape] at her
    by_cases hk : key ∈ s.table.flatten
    · simp only [hk, if_true] at her
      have : _ = s1 := (Prod.mk.inj (Option.some.inj her)).1
      rw [← this]
      refine ⟨(shape_unlink hasher N s key ih.shape hk).1, ?_⟩
      have := ih.load
      show s.current_size - 1 < s.table_size
      omega
    · simp only [hk, if_false] at her
      have : s = s1 := (Prod.mk.inj (Option.some.inj her)).1
      rw [← this]; exact ih
  | clear _ _ => exact inv_clear hasher N hN _
  | @copy s s1 _ hc ih =>
    obtain ⟨s2, h2, hinv, _⟩ := copy_spec hasher N s ih
    rw [hc] at h2
    rw [Option.some.inj h2]; exact hinv
  | swap_fst _ _ _ ihb => exact ihb
  | swap_snd _ _ iha _ => exact iha

theorem find_present (hasher : Key → Nat) (N : Nat) (s : ADS_set Key) (k : Key)
    (hs : Shape hasher N s) (hk : k ∈ s.table.flatten) :
    find hasher s k =
      some { position := hasher k % s.table_size,
             ptr := locate_loop k (s.table.getD (hasher k % s.table_size) []) } := by
  have hne := (locate_ne_nil_iff hasher N s hs k).mpr hk
  simp only [find, locate_eq hasher N s hs k, h_eq hasher s k hs.pos, Option.bind_eq_bind,
    Option.some_bind, hne, ne_eq, not_false_eq_true, if_true, Option.pure_def,
    ctor_of_ne_nil s _ _ hne]

theorem count_congr (hasher : Key → Nat) (N : Nat) (s s1 : ADS_set Key) (k : Key)
    (hs : Shape hasher N s) (hs1 : Shape hasher N s1)
    (hiff : k ∈ s1.table.flatten ↔ k ∈ s.table.flatten) :
    count hasher s1 k = count hasher s k := by
  rw [count_eq hasher N s hs k, count_eq hasher N s1 hs1 k]
  by_cases hk : k ∈ s.table.flatten
  · rw [if_pos hk, if_pos (hiff.mpr hk)]
  · rw [if_neg hk, if_neg (fun h => hk (hiff.mp h))]

theorem eq_loop_spec (hasher : Key → Nat) (N : Nat) (rhs : ADS_set Key) (hs : Shape hasher N rhs) :
    ∀ keys : List Key, eq_loop hasher rhs keys = some (decide (∀ k ∈ keys, k ∈ rhs.table.flatten))
  | [] => by simp [eq_loop]
  | l :: rest => by
    by_cases hl : l ∈ rhs.table.flatten
    · simp [-List.mem_flatten, eq_loop, count_eq hasher N rhs hs l, hl,
        eq_loop_spec hasher N rhs hs rest]
    · simp [-List.mem_flatten, eq_loop, count_eq hasher N rhs hs l, hl]

theorem operator_eq_spec (hasher : Key → Nat) (N : Nat) (lhs rhs : ADS_set Key)
    (hl : Shape hasher N lhs) (hr : Shape hasher N rhs) :
    operator_eq hasher lhs rhs =
      some (decide (lhs.current_size = rhs.current_size ∧
        ∀ k ∈ lhs.table.flatten, k ∈ rhs.table.flatten)) := by
  by_cases hsz : lhs.current_size = rhs.current_size
  · simp only [operator_eq, hsz, ne_eq, not_true_eq_false, if_false, traverse_eq lhs hl.len,
      Option.bind_eq_bind, Option.some_bind, eq_loop_spec hasher N rhs hr, true_and]
  · simp [operator_eq, hsz]

theorem example_set_reachable : Reachable example_hasher 12 example_set :=
  Reachable.insert_range Reachable.empty
    (by decide : insert_range example_hasher 12 (empty 12) [1, 13, 25, 4, 5, 6, 7, 8]
      = some example_set)

theorem example_tight_reachable : Reachable example_hasher 10 example_tight :=
  Reachable.insert_range Reachable.empty
    (by decide : insert_range example_hasher 10 (empty 10) [0, 1, 2, 3, 4, 5, 6]
      = some example_tight)

/-- C1 (membership round-trip): on every reachable set insert(k) completes, and in the
resulting set count(k) is 1 and find(k) is a cursor different from end() whose key is k. -/
theorem insert_then_member (hasher : Key → Nat) (N : Nat) (hN : 1 ≤ N) (s : ADS_set Key)
    (hr : Reachable hasher N s) (k : Key) :
    ∃ s1 it b, insert hasher N s k = some (s1, it, b) ∧ count hasher s1 k = some 1 ∧
      ∃ c, find hasher s1 k = some c ∧ Iterator.eq c (end_ s1) = false ∧
        Iterator.deref c = some k := by
  have hs := reachable_inv hasher N hN s hr
  obtain ⟨s1, it, b, hins, hinv, _, hsame, hnew, _⟩ := insert_spec hasher N hN s k hs
  have hk1 : k ∈ s1.table.flatten := by
    by_cases hk : k ∈ s.table.flatten
    · rw [hsame hk]; exact hk
    · exact (hnew hk).mem_iff.mpr (List.mem_cons_self _ _)
  have hne := (locate_ne_nil_iff hasher N s1 hinv.shape k).mpr hk1
  refine ⟨s1, it, b, hins, (count_eq_one_iff hasher N s1 hinv.shape k).mpr hk1, _,
    find_present hasher N s1 k hinv.shape hk1, ?_, locate_loop_head k _ hne⟩
  simpa [Iterator.eq, end_ptr] using hne

/-- C1 at example_set and the absent key 9, whose insert grows the table from 12 to 25
buckets. -/
theorem insert_then_member_witness :
    1 ≤ 12 ∧ Reachable example_hasher 12 example_set ∧
    ∃ s1 it b, insert example_hasher 12 example_set 9 = some (s1, it, b) ∧
      count example_hasher s1 9 = some 1 ∧
      ∃ c, find example_hasher s1 9 = some c ∧ Iterator.eq c (end_ s1) = false ∧
        Iterator.deref c = some 9 :=
  ⟨by decide, example_set_reachable,
    insert_then_member example_hasher 12 (by decide) example_set example_set_reachable 9⟩

/-- C2 (idempotent insert): on a reachable set that holds k, insert(k) returns the flag
false and a cursor whose key is k, and size, capacity and the count of every key are as
before. -/
theorem insert_present_unchanged (hasher : Key → Nat) (N : Nat) (hN : 1 ≤ N) (s : ADS_set Key)
    (hr : Reachable hasher N s) (k : Key) (hk : count hasher s k = some 1) :
    ∃ s1 it, insert hasher N s k = some (s1, it, false) ∧ Iterator.deref it = some k ∧
      size s1 = size s ∧ s1.table_size = s.table_size ∧
      ∀ k1, count hasher s1 k1 = count hasher s k1 := by
  have hs := reachable_inv hasher N hN s hr
  have hmem := (count_eq_one_iff hasher N s hs.shape k).mp hk
  have hne := (locate_ne_nil_iff hasher N s hs.shape k).mpr hmem
  exact ⟨s, _, insert_present hasher N s k hs.shape hmem, locate_loop_head k _ hne, rfl, rfl,
    fun _ => rfl⟩

/-- C2 at example_set and the stored key 13, the middle node of the chain of bucket 1. -/
theorem insert_present_unchanged_witness :
    count example_hasher example_set 13 = some 1 ∧
    ∃ s1 it, insert example_hasher 12 example_set 13 = some (s1, it, false) ∧
      Iterator.deref it = some 13 ∧ size s1 = size example_set ∧
      s1.table_size = example_set.table_size ∧
      ∀ k1, count example_hasher s1 k1 = count example_hasher example_set k1 :=
  ⟨by decide,
    insert_present_unchanged example_hasher 12 (by decide) example_set example_set_reachable 13
      (by decide)⟩

/-- C3 (insert of an absent key): on a reachable set that does not hold k, insert(k)
returns the flag true, size grows by exactly 1, and the count of every other key is as
before, with or without a rehash. -/
theorem insert_absent_frame (hasher : Key → Nat) (N : Nat) (hN : 1 ≤ N) (s : ADS_set Key)
    (hr : Reachable hasher N s) (k : Key) (hk : count hasher s k = some 0) :
    ∃ s1 it, insert hasher N s k = some (s1, it, true) ∧ size s1 = size s + 1 ∧
      ∀ k1, k1 ≠ k → count hasher s1 k1 = count hasher s k1 := by
  have hs := reachable_inv hasher N hN s hr
  have hmem := (count_eq_zero_iff hasher N s hs.shape k).mp hk
  obtain ⟨s1, it, b, hins, hinv, hb, _, hnew, _⟩ := insert_spec hasher N hN s k hs
  have hbt : b = true := hb.mpr hmem
  subst hbt
  have hperm := hnew hmem
  refine ⟨s1, it, hins, ?_, fun k1 hk1 => ?_⟩
  · show s1.current_size = s.current_size + 1
    rw [hinv.shape.card, hs.shape.card, hperm.length_eq]
    rfl
  · apply count_congr hasher N s s1 k1 hs.shape hinv.shape
    rw [hperm.mem_iff]
    simp [hk1]

/-- C3 at example_set and the absent key 9, whose insert rehashes the table. -/
theorem insert_absent_frame_witness :
    count example_hasher example_set 9 = some 0 ∧
    ∃ s1 it, insert example_hasher 12 example_set 9 = some (s1, it, true) ∧
      size s1 = size example_set + 1 ∧
      ∀ k1, k1 ≠ 9 → count example_hasher s1 k1 = count example_hasher example_set k1 :=
  ⟨by decide,
    insert_absent_frame example_hasher 12 (by decide) example_set example_set_reachable 9
      (by decide)⟩

/-- C4 (erase correctness): on a reachable set, erase(k) of a stored key returns 1, size
drops by exactly 1 and count(k) becomes 0; erase(k) of an absent key returns 0 and size is
as before. -/
theorem erase_correct (hasher : Key → Nat) (N : Nat) (hN : 1 ≤ N) (s : ADS_set Key)
    (hr : Reachable hasher N s) (k : Key) :
    (count hasher s k = some 1 →
      ∃ s1, erase hasher s k = some (s1, 1) ∧ size s1 + 1 = size s ∧
        count hasher s1 k = some 0) ∧
    (count hasher s k = some 0 →
      ∃ s1, erase hasher s k = some (s1, 0) ∧ size s1 = size s) := by
  have hs := reachable_inv hasher N hN s hr
  constructor
  · intro hk
    have hmem := (count_eq_one_iff hasher N s hs.shape k).mp hk
    obtain ⟨hsh, hperm⟩ := shape_unlink hasher N s k hs.shape hmem
    have hnd := hperm.nodup_iff.mp hs.shape.nodup
    refine ⟨{ table := s.table.set (hasher k % s.table_size)
                ((s.table.getD (hasher k % s.table_size) []).erase k),
              table_size := s.table_size, current_size := s.current_size - 1 },
      by rw [erase_spec hasher N s k hs.shape, if_pos hmem], ?_, ?_⟩
    · show s.current_size - 1 + 1 = s.current_size
      have hpos : 0 < s.current_size := by
        rw [hs.shape.card, hperm.length_eq]
        simp
      omega
    · exact (count_eq_zero_iff hasher N _ hsh k).mpr (List.nodup_cons.mp hnd).1
  · intro hk
    have hmem := (count_eq_zero_iff hasher N s hs.shape k).mp hk
    exact ⟨s, by rw [erase_spec hasher N s k hs.shape, if_neg hmem], rfl⟩

/-- C4 at example_set: the stored key 13 (middle of a chain) and the absent key 9. -/
theorem erase_correct_witness :
    (∃ s1, erase example_hasher example_set 13 = some (s1, 1) ∧ size s1 + 1 = size example_set ∧
      count example_hasher s1 13 = some 0) ∧
    (∃ s1, erase example_hasher example_set 9 = some (s1, 0) ∧ size s1 = size example_set) :=
  ⟨(erase_correct example_hasher 12 (by decide) example_set example_set_reachable 13).1
      (by decide),
   (erase_correct example_hasher 12 (by decide) example_set example_set_reachable 9).2
      (by decide)⟩

/-- C5 (erase frame): on a reachable set erase(k) completes, keeps table_size, and keeps
the count of every key other than k. -/
theorem erase_frame (hasher : Key → Nat) (N : Nat) (hN : 1 ≤ N) (s : ADS_set Key)
    (hr : Reachable hasher N s) (k : Key) :
    ∃ s1 r, erase hasher s k = some (s1, r) ∧ s1.table_size = s.table_size ∧
      ∀ k1, k1 ≠ k → count hasher s1 k1 = count hasher s k1 := by
  have hs := reachable_inv hasher N hN s hr
  by_cases hmem : k ∈ s.table.flatten
  · obtain ⟨hsh, hperm⟩ := shape_unlink hasher N s k hs.shape hmem
    refine ⟨{ table := s.table.set (hasher k % s.table_size)
                ((s.table.getD (hasher k % s.table_size) []).erase k),
              table_size := s.table_size, current_size := s.current_size - 1 }, 1,
      by rw [erase_spec hasher N s k hs.shape, if_pos hmem], rfl, fun k1 hk1 => ?_⟩
    apply count_congr hasher N s _ k1 hs.shape hsh
    rw [hperm.mem_iff]
    simp [hk1]
  · exact ⟨s, 0, by rw [erase_spec hasher N s k hs.shape, if_neg hmem], rfl, fun _ _ => rfl⟩

/-- C5 at example_set and the key 13, the middle node of the chain 25, 13, 1. -/
theorem erase_frame_witness :
    1 ≤ 12 ∧ Reachable example_hasher 12 example_set ∧
    ∃ s1 r, erase example_hasher example_set 13 = some (s1, r) ∧
      s1.table_size = example_set.table_size ∧
      ∀ k1, k1 ≠ 13 → count example_hasher s1 k1 = count example_hasher example_set k1 :=
  ⟨by decide, example_set_reachable,
    erase_frame example_hasher 12 (by decide) example_set example_set_reachable 13⟩

theorem example_grown_reachable : Reachable example_hasher 12 example_grown :=
  Reachable.insert_range Reachable.empty
    (by decide : insert_range example_hasher 12 (empty 12) [8, 7, 6, 5, 4, 25, 13, 1, 9]
      = some example_grown)

theorem example_other_reachable : Reachable example_hasher 12 example_other :=
  Reachable.erase example_grown_reachable
    (by decide : erase example_hasher example_grown 9 = some (example_other, 1))

/-- C8 (capacity floor and hashing safety): for every N >= 1, every set reachable by
insert, range insert, erase, clear, copy and swap has table_size >= N, a positive
table_size that is the length of the bucket array, and h never throws on it and returns
an index below table_size; insert, range insert, erase and copy complete on it. -/
theorem capacity_floor (hasher : Key → Nat) (N : Nat) (hN : 1 ≤ N) (s : ADS_set Key)
    (hr : Reachable hasher N s) :
    N ≤ s.table_size ∧ 0 < s.table_size ∧ s.table.length = s.table_size ∧
    (∀ key, ∃ i, h hasher s key = some i ∧ i < s.table_size) ∧
    (∀ key, (insert hasher N s key).isSome) ∧ (∀ keys, (insert_range hasher N s keys).isSome) ∧
    (∀ key, (erase hasher s key).isSome) ∧ (copy hasher N s).isSome := by
  have hs := reachable_inv hasher N hN s hr
  refine ⟨hs.shape.floor, hs.shape.pos, hs.shape.len, fun key => ?_, fun key => ?_,
    fun keys => ?_, fun key => ?_, ?_⟩
  · exact ⟨_, h_eq hasher s key hs.shape.pos, Nat.mod_lt _ hs.shape.pos⟩
  · obtain ⟨s1, it, b, hins, _⟩ := insert_spec hasher N hN s key hs
    simp [hins]
  · obtain ⟨s1, h1, _⟩ := insert_all_spec hasher N hN keys s hs
    simp [insert_range_eq_insert_all hasher N hN keys s hs, h1]
  · simp [erase_spec hasher N s key hs.shape]
  · obtain ⟨s1, h1, _⟩ := copy_spec hasher N s hs
    simp [h1]

/-- C8 at example_other, a set reached through a rehash and an erase. -/
theorem capacity_floor_witness :
    1 ≤ 12 ∧ Reachable example_hasher 12 example_other ∧
    12 ≤ example_other.table_size ∧ 0 < example_other.table_size ∧
    example_other.table.length = example_other.table_size ∧
    (∀ key, ∃ i, h example_hasher example_other key = some i ∧ i < example_other.table_size) ∧
    (∀ key, (insert example_hasher 12 example_other key).isSome) ∧
    (∀ keys, (insert_range example_hasher 12 example_other keys).isSome) ∧
    (∀ key, (erase example_hasher example_other key).isSome) ∧
    (copy example_hasher 12 example_other).isSome :=
  ⟨by decide, example_other_reachable,
    capacity_floor example_hasher 12 (by decide) example_other example_other_reachable⟩

/-- C9 (iteration completeness): on every reachable set the loop from begin() with ++
until end() ends within size + 1 tests, and the keys it visits are pairwise different,
are exactly the keys with count 1, and are size many. -/
theorem iteration_complete (hasher : Key → Nat) (N : Nat) (hN : 1 ≤ N) (s : ADS_set Key)
    (hr : Reachable hasher N s) (fuel : Nat) (hfuel : size s < fuel) :
    ∃ keys, iterate s fuel (begin s) (end_ s) = some keys ∧ keys.Nodup ∧
      (∀ k, k ∈ keys ↔ count hasher s k = some 1) ∧ keys.length = size s := by
  have hs := reachable_inv hasher N hN s hr
  refine ⟨s.table.flatten, ?_, hs.shape.nodup,
    fun k => (count_eq_one_iff hasher N s hs.shape k).symm, hs.shape.card.symm⟩
  apply iterate_begin s hs.shape.len
  rw [← hs.shape.card]
  exact hfuel

/-- C9 at example_set with the step bound 9 = size + 1. -/
theorem iteration_complete_witness :
    size example_set < 9 ∧
    ∃ keys, iterate example_set 9 (begin example_set) (end_ example_set) = some keys ∧
      keys.Nodup ∧ (∀ k, k ∈ keys ↔ count example_hasher example_set k = some 1) ∧
      keys.length = size example_set :=
  ⟨by decide,
    iteration_complete example_hasher 12 (by decide) example_set example_set_reachable 9
      (by decide)⟩

/-- C10 (set equality): for two reachable sets A and B, operator== returns true exactly when
the sizes agree and every key of A is in B and every key of B is in A; it gives the same
answer with the operands exchanged, and operator!= returns the negation. -/
theorem operator_eq_iff (hasher : Key → Nat) (N : Nat) (hN : 1 ≤ N) (A B : ADS_set Key)
    (hA : Reachable hasher N A) (hB : Reachable hasher N B) :
    ∃ b, operator_eq hasher A B = some b ∧
      (b = true ↔ (size A = size B ∧ (∀ k, count hasher A k = some 1 → count hasher B k = some 1) ∧
        (∀ k, count hasher B k = some 1 → count hasher A k = some 1))) ∧
      operator_eq hasher B A = some b ∧ operator_ne hasher A B = some (!b) := by
  have ha := (reachable_inv hasher N hN A hA).shape
  have hb := (reachable_inv hasher N hN B hB).shape
  have key : ∀ (X Y : ADS_set Key), Shape hasher N X → Shape hasher N Y →
      X.current_size = Y.current_size → (∀ k ∈ X.table.flatten, k ∈ Y.table.flatten) →
      ∀ k ∈ Y.table.flatten, k ∈ X.table.flatten := by
    intro X Y hx hy hsz hsub k hk
    exact (mem_iff_of_subset_of_length_eq hx.nodup (by rw [← hx.card, ← hy.card, hsz]) hsub k).mp hk
  have hsym : (A.current_size = B.current_size ∧ ∀ k ∈ A.table.flatten, k ∈ B.table.flatten) ↔
      (B.current_size = A.current_size ∧ ∀ k ∈ B.table.flatten, k ∈ A.table.flatten) :=
    ⟨fun ⟨h1, h2⟩ => ⟨h1.symm, key A B ha hb h1 h2⟩, fun ⟨h1, h2⟩ => ⟨h1.symm, key B A hb ha h1 h2⟩⟩
  refine ⟨_, operator_eq_spec hasher N A B ha hb, ?_, ?_, ?_⟩
  · simp only [decide_eq_true_eq, size, count_eq_one_iff hasher N A ha,
      count_eq_one_iff hasher N B hb]
    constructor
    · rintro ⟨h1, h2⟩
      exact ⟨h1, h2, key A B ha hb h1 h2⟩
    · rintro ⟨h1, h2, _⟩
      exact ⟨h1, h2⟩
  · rw [operator_eq_spec hasher N B A hb ha]
    exact congrArg some (decide_eq_decide.mpr hsym.symm)
  · simp only [operator_ne, operator_eq_spec hasher N A B ha hb, Option.map_some']

/-- C10 at example_set and example_other: the same keys in 12 and in 25 buckets. -/
theorem operator_eq_iff_witness :
    1 ≤ 12 ∧ Reachable example_hasher 12 example_set ∧ Reachable example_hasher 12 example_other ∧
    ∃ b, operator_eq example_hasher example_set example_other = some b ∧
      (b = true ↔ (size example_set = size example_other ∧
        (∀ k, count example_hasher example_set k = some 1 →
          count example_hasher example_other k = some 1) ∧
        (∀ k, count example_hasher example_other k = some 1 →
          count example_hasher example_set k = some 1))) ∧
      operator_eq example_hasher example_other example_set = some b ∧
      operator_ne example_hasher example_set example_other = some (!b) :=
  ⟨by decide, example_set_reachable, example_other_reachable,
    operator_eq_iff example_hasher 12 (by decide) example_set example_other
      example_set_reachable example_other_reachable⟩

/-- The keys stored after a sequence of inserts from the empty set are the distinct keys
of the sequence. -/
theorem insert_all_empty (hasher : Key → Nat) (N : Nat) (hN : 1 ≤ N) (L : List Key) :
    ∃ s, insert_all hasher N (empty N) L = some s ∧ Inv hasher N s ∧
      s.table.flatten.Perm L.dedup := by
  obtain ⟨s, hs, hinv, hmem⟩ := insert_all_spec hasher N hN L (empty N) (inv_empty hasher N hN)
  refine ⟨s, hs, hinv, ?_⟩
  rw [List.perm_ext_iff_of_nodup hinv.shape.nodup (List.nodup_dedup L)]
  intro k
  rw [hmem k, List.mem_dedup]
  simp [empty]

theorem locate_loop_suffix (key : Key) (c : List Key) : ∃ pre, c = pre ++ locate_loop key c := by
  induction c with
  | nil => exact ⟨[], rfl⟩
  | cons k next ih =>
    by_cases hk : key = k
    · exact ⟨[], by simp [locate_loop, hk]⟩
    · obtain ⟨pre, hpre⟩ := ih
      refine ⟨k :: pre, ?_⟩
      simp only [locate_loop, hk, if_false, List.cons_append]
      rw [← hpre]

theorem find_absent (hasher : Key → Nat) (N : Nat) (s : ADS_set Key) (k : Key)
    (hs : Shape hasher N s) (hk : k ∉ s.table.flatten) : find hasher s k = some (end_ s) := by
  have hnil : locate_loop k (s.table.getD (hasher k % s.table_size) []) = [] := by
    by_contra hne
    exact hk ((locate_ne_nil_iff hasher N s hs k).mp hne)
  simp only [find, locate_eq hasher N s hs k, Option.bind_eq_bind, Option.some_bind, hnil, ne_eq,
    not_true_eq_false, if_false, Option.pure_def]

/-- C11 (insertion order): for key lists L1 and L2 that are permutations of each other, the
sets built from the empty set by the inserts of L1 and of L2 compare equal with operator==;
and for every key k of L1, the set built from L1 without the occurrences of k compares
unequal to the set built from L1, in both operand orders. -/
theorem operator_eq_of_perm (hasher : Key → Nat) (N : Nat) (hN : 1 ≤ N) (L1 L2 : List Key)
    (hp : L1.Perm L2) :
    ∃ A B, insert_all hasher N (empty N) L1 = some A ∧
      insert_all hasher N (empty N) L2 = some B ∧ operator_eq hasher A B = some true ∧
      ∀ k, k ∈ L1 → ∃ C, insert_all hasher N (empty N) (L1.filter (fun x => decide (x ≠ k)))
          = some C ∧
        operator_eq hasher C A = some false ∧ operator_eq hasher A C = some false ∧
        operator_ne hasher C A = some true := by
  obtain ⟨A, hA, hinvA, hpA⟩ := insert_all_empty hasher N hN L1
  obtain ⟨B, hB, hinvB, hpB⟩ := insert_all_empty hasher N hN L2
  have hAB : A.table.flatten.Perm B.table.flatten := by
    rw [List.perm_ext_iff_of_nodup hinvA.shape.nodup hinvB.shape.nodup]
    intro k
    rw [hpA.mem_iff, hpB.mem_iff, List.mem_dedup, List.mem_dedup, hp.mem_iff]
  refine ⟨A, B, hA, hB, ?_, fun k hk => ?_⟩
  · rw [operator_eq_spec hasher N A B hinvA.shape hinvB.shape]
    refine congrArg some (decide_eq_true ⟨?_, fun x hx => hAB.mem_iff.mp hx⟩)
    rw [hinvA.shape.card, hinvB.shape.card, hAB.length_eq]
  · obtain ⟨C, hC, hinvC, hpC⟩ :=
      insert_all_empty hasher N hN (L1.filter (fun x => decide (x ≠ k)))
    have hkA : k ∈ A.table.flatten := hpA.mem_iff.mpr (List.mem_dedup.mpr hk)
    have hkC : k ∉ C.table.flatten := by
      intro hm
      have := List.mem_dedup.mp (hpC.mem_iff.mp hm)
      simp at this
    have hsub : ∀ x ∈ C.table.flatten, x ∈ A.table.flatten := by
      intro x hx
      have := List.mem_dedup.mp (hpC.mem_iff.mp hx)
      exact hpA.mem_iff.mpr (List.mem_dedup.mpr (List.mem_of_mem_filter this))
    have hsz : C.current_size ≠ A.current_size := by
      intro heq
      apply hkC
      refine (mem_iff_of_subset_of_length_eq hinvC.shape.nodup ?_ hsub k).mp hkA
      rw [← hinvC.shape.card, ← hinvA.shape.card, heq]
    have hCA : operator_eq hasher C A = some false := by
      rw [operator_eq_spec hasher N C A hinvC.shape hinvA.shape]
      exact congrArg some (decide_eq_false (fun h => hsz h.1))
    refine ⟨C, hC, hCA, ?_, ?_⟩
    · rw [operator_eq_spec hasher N A C hinvA.shape hinvC.shape]
      exact congrArg some (decide_eq_false (fun h => hsz h.1.symm))
    · simp [operator_ne, hCA]

/-- C11 at the lists 1, 13, 1, 5 and 5, 1, 13, 1 with N = 12. -/
theorem operator_eq_of_perm_witness :
    1 ≤ 12 ∧ [1, 13, 1, 5].Perm [5, 1, 13, 1] ∧
    ∃ A B, insert_all example_hasher 12 (empty 12) [1, 13, 1, 5] = some A ∧
      insert_all example_hasher 12 (empty 12) [5, 1, 13, 1] = some B ∧
      operator_eq example_hasher A B = some true ∧
      ∀ k, k ∈ [1, 13, 1, 5] →
        ∃ C, insert_all example_hasher 12 (empty 12)
            ([1, 13, 1, 5].filter (fun x => decide (x ≠ k))) = some C ∧
          operator_eq example_hasher C A = some false ∧
          operator_eq example_hasher A C = some false ∧
          operator_ne example_hasher C A = some true :=
  ⟨by decide, by decide,
    operator_eq_of_perm example_hasher 12 (by decide) [1, 13, 1, 5] [5, 1, 13, 1] (by decide)⟩

/-- C12 (bulk construction): the set constructed from a list L holds the distinct keys of
L: its size is the number of distinct keys, count is 1 for the keys of L and 0 for all
others. -/
theorem of_list_distinct (hasher : Key → Nat) (N : Nat) (hN : 1 ≤ N) (L : List Key) :
    ∃ s, of_list hasher N L = some s ∧ size s = L.dedup.length ∧
      ∀ k, (count hasher s k = some 1 ↔ k ∈ L) ∧ (count hasher s k = some 0 ↔ k ∉ L) := by
  obtain ⟨s, hs, hinv, hperm⟩ := insert_all_empty hasher N hN L
  refine ⟨s, ?_, ?_, fun k => ?_⟩
  · rw [of_list, insert_range_eq_insert_all hasher N hN L (empty N) (inv_empty hasher N hN)]
    exact hs
  · show s.current_size = _
    rw [hinv.shape.card, hperm.length_eq]
  · rw [count_eq_one_iff hasher N s hinv.shape, count_eq_zero_iff hasher N s hinv.shape,
      hperm.mem_iff, List.mem_dedup]
    exact ⟨Iff.rfl, Iff.rfl⟩

/-- C12 at the list a, a, b, c of strings, hashed by their length: size 3 and count 1
for a. -/
theorem of_list_distinct_witness :
    1 ≤ 12 ∧ ["a", "a", "b", "c"].dedup.length = 3 ∧
    ∃ s, of_list String.length 12 ["a", "a", "b", "c"] = some s ∧
      size s = ["a", "a", "b", "c"].dedup.length ∧
      ∀ k, (count String.length s k = some 1 ↔ k ∈ ["a", "a", "b", "c"]) ∧
        (count String.length s k = some 0 ↔ k ∉ ["a", "a", "b", "c"]) :=
  ⟨by decide, by decide,
    of_list_distinct String.length 12 (by decide) ["a", "a", "b", "c"]⟩

/-- C14 (find and membership): on a reachable set find(k) equals end() exactly when
count(k) is 0; when count(k) is 1 the cursor has position hash(k) mod table_size, its node
lies in the chain of that bucket, and its key is k. -/
theorem find_iff_count (hasher : Key → Nat) (N : Nat) (hN : 1 ≤ N) (s : ADS_set Key)
    (hr : Reachable hasher N s) (k : Key) :
    ∃ c, find hasher s k = some c ∧
      (Iterator.eq c (end_ s) = true ↔ count hasher s k = some 0) ∧
      (count hasher s k = some 1 →
        c.position = hasher k % s.table_size ∧ Iterator.deref c = some k ∧
        ∃ pre, s.table.getD c.position [] = pre ++ c.ptr) := by
  have hs := (reachable_inv hasher N hN s hr).shape
  by_cases hk : k ∈ s.table.flatten
  · have hne := (locate_ne_nil_iff hasher N s hs k).mpr hk
    refine ⟨_, find_present hasher N s k hs hk, ?_, fun _ =>
      ⟨rfl, locate_loop_head k _ hne, locate_loop_suffix k _⟩⟩
    rw [count_eq_zero_iff hasher N s hs]
    simp only [Iterator.eq, end_ptr, decide_eq_true_eq]
    exact ⟨fun h => absurd h hne, fun h => absurd hk h⟩
  · refine ⟨_, find_absent hasher N s k hs hk, ?_, fun h1 => ?_⟩
    · rw [count_eq_zero_iff hasher N s hs]
      simp [Iterator.eq, hk]
    · exact absurd ((count_eq_one_iff hasher N s hs k).mp h1) hk

/-- C14 at example_other and the key 25, which sits in bucket 0. -/
theorem find_iff_count_witness :
    count example_hasher example_other 25 = some 1 ∧
    example_hasher 25 % example_other.table_size = 0 ∧
    ∃ c, find example_hasher example_other 25 = some c ∧
      (Iterator.eq c (end_ example_other) = true ↔ count example_hasher example_other 25 = some 0) ∧
      (count example_hasher example_other 25 = some 1 →
        c.position = example_hasher 25 % example_other.table_size ∧
        Iterator.deref c = some 25 ∧
        ∃ pre, example_other.table.getD c.position [] = pre ++ c.ptr) :=
  ⟨by decide, by decide,
    find_iff_count example_hasher 12 (by decide) example_other example_other_reachable 25⟩

/-- C15 (bucket placement): in every reachable set each key of bucket i has hash index i
for the current table_size; the same holds for the table produced by any rehash of it; and
the cursor returned by insert points at position hash(key) mod table_size of the table
after the insert, at a node of that bucket whose key is key. -/
theorem placement (hasher : Key → Nat) (N : Nat) (hN : 1 ≤ N) (s : ADS_set Key)
    (hr : Reachable hasher N s) :
    Placed hasher s.table_size s.table ∧
    (∀ n, ∃ s1, rehash hasher N s n = some s1 ∧ Placed hasher s1.table_size s1.table) ∧
    (∀ key, ∃ s1 it b, insert hasher N s key = some (s1, it, b) ∧
      Placed hasher s1.table_size s1.table ∧
      it.position = hasher key % s1.table_size ∧ Iterator.deref it = some key ∧
      (∃ pre, s1.table.getD it.position [] = pre ++ it.ptr) ∧
      (b = true → s1.table.getD it.position [] = it.ptr)) := by
  have hs := reachable_inv hasher N hN s hr
  refine ⟨hs.shape.placed, fun n => ?_, fun key => ?_⟩
  · obtain ⟨s1, h1, _, _, _, hpl, _⟩ := rehash_spec hasher N hN s n hs.shape.len
    exact ⟨s1, h1, hpl⟩
  · by_cases hk : key ∈ s.table.flatten
    · have hne := (locate_ne_nil_iff hasher N s hs.shape key).mpr hk
      exact ⟨s, _, false, insert_present hasher N s key hs.shape hk, hs.shape.placed, rfl,
        locate_loop_head key _ hne, locate_loop_suffix key _, fun h => absurd h (by simp)⟩
    · obtain ⟨s1, _, hsh1, hcs, hperm, hload, _, _, hins⟩ := insert_absent hasher N hN s key hs hk
      have hidx : hasher key % s1.table_size < s1.table.length := by
        rw [hsh1.len]; exact Nat.mod_lt _ hsh1.pos
      have hk1 : key ∉ s1.table.flatten := fun hm => hk (hperm.mem_iff.mp hm)
      have hget : (s1.table.set (hasher key % s1.table_size)
          (key :: s1.table.getD (hasher key % s1.table_size) [])).getD
            (hasher key % s1.table_size) [] = key :: s1.table.getD (hasher key % s1.table_size) [] :=
        getD_set_self hidx _
      exact ⟨_, _, true, hins, (shape_push hasher N s1 key hsh1 hk1).placed, rfl, rfl,
        ⟨[], hget⟩, fun _ => hget⟩

/-- C15 at example_set, where the insert of 9 grows the table to 25 buckets. -/
theorem placement_witness :
    1 ≤ 12 ∧ Reachable example_hasher 12 example_set ∧
    Placed example_hasher example_set.table_size example_set.table ∧
    (∀ n, ∃ s1, rehash example_hasher 12 example_set n = some s1 ∧
      Placed example_hasher s1.table_size s1.table) ∧
    (∀ key, ∃ s1 it b, insert example_hasher 12 example_set key = some (s1, it, b) ∧
      Placed example_hasher s1.table_size s1.table ∧
      it.position = example_hasher key % s1.table_size ∧ Iterator.deref it = some key ∧
      (∃ pre, s1.table.getD it.position [] = pre ++ it.ptr) ∧
      (b = true → s1.table.getD it.position [] = it.ptr)) :=
  ⟨by decide, example_set_reachable,
    placement example_hasher 12 (by decide) example_set example_set_reachable⟩

theorem insert_all_append (hasher : Key → Nat) (N : Nat) :
    ∀ (l1 l2 : List Key) (s : ADS_set Key),
      insert_all hasher N s (l1 ++ l2) =
        (insert_all hasher N s l1).bind (fun s1 => insert_all hasher N s1 l2)
  | [], l2, s => by simp [insert_all]
  | k :: l1, l2, s => by
    simp only [List.cons_append, insert_all]
    cases hins : insert hasher N s k with
    | none => simp
    | some r =>
      obtain ⟨s1, it, b⟩ := r
      simp [insert_all_append hasher N l1 l2 s1]

/-- Inserts of new keys keep the table as long as the load test of reserve passes for the
final count, for counts below 2^24. -/
theorem insert_all_keeps (hasher : Key → Nat) (N : Nat) (hN : 1 ≤ N) :
    ∀ (L : List Key) (s : ADS_set Key), Inv hasher N s → L.Nodup →
      (∀ k, k ∈ L → k ∉ s.table.flatten) → s.current_size + L.length < 2 ^ 24 →
      float_of_size (s.current_size + L.length) ≤ float_mul (float_of_size s.table_size) max_lf →
      ∃ s1, insert_all hasher N s L = some s1 ∧ Inv hasher N s1 ∧
        s1.table_size = s.table_size ∧ s1.current_size = s.current_size + L.length ∧
        ∀ k, k ∈ s1.table.flatten ↔ k ∈ L ∨ k ∈ s.table.flatten
  | [], s, hs, _, _, _, _ => ⟨s, rfl, hs, rfl, rfl, by simp⟩
  | key :: rest, s, hs, hnd, hdisj, hsz, htest => by
    have hk : key ∉ s.table.flatten := hdisj key (List.mem_cons_self _ _)
    obtain ⟨s1, _, hsh1, hcs, hperm, hload, hsame, _, hins⟩ :=
      insert_absent hasher N hN s key hs hk
    obtain ⟨hinv, hp⟩ := inv_link hasher N s s1 key hsh1 hcs hperm hk hload
    simp only [List.length_cons] at hsz htest
    have hkeep : s1 = s :=
      hsame (load_test_of_le _ _ _ (by omega) hsz htest)
    subst hkeep
    have hsum : s1.current_size + 1 + rest.length = s1.current_size + (rest.length + 1) := by
      omega
    obtain ⟨s2, h2, hinv2, hts2, hcs2, hmem2⟩ := insert_all_keeps hasher N hN rest _ hinv
      (List.nodup_cons.mp hnd).2
      (by
        intro x hx hm
        rcases List.mem_cons.mp (hp.mem_iff.mp hm) with rfl | hm
        · exact (List.nodup_cons.mp hnd).1 hx
        · exact hdisj x (List.mem_cons_of_mem _ hx) hm)
      (by show s1.current_size + 1 + rest.length < 2 ^ 24; omega)
      (by
        show float_of_size (s1.current_size + 1 + rest.length) ≤
          float_mul (float_of_size s1.table_size) max_lf
        rw [hsum]; exact htest)
    refine ⟨s2, ?_, hinv2, hts2, ?_, fun k => ?_⟩
    · simp only [insert_all, hins, Option.bind_eq_bind, Option.some_bind]
      exact h2
    · rw [hcs2]
      simp only [List.length_cons]
      omega
    · rw [hmem2 k, hp.mem_iff]
      simp only [List.mem_cons]
      clear hsz htest
      tauto

theorem example_eight_reachable : Reachable example_hasher 12 example_eight :=
  Reachable.insert_range Reachable.empty
    (by decide : insert_range example_hasher 12 (empty 12) [1, 2, 3, 4, 5, 6, 7, 8]
      = some example_eight)

/-- C16, as stated, fails: from the empty set with N = 12 the inserts of 1 .. 8 keep the 12
buckets and the insert of 9 grows the table to 25 buckets, not 24; reserve(9) on the set
of 8 keys gives a capacity that is not 12 * 2^j for any j. -/
theorem growth_not_doubling :
    insert_all example_hasher 12 (empty 12) [1, 2, 3, 4, 5, 6, 7, 8] = some example_eight ∧
    example_eight.table_size = 12 ∧
    insert_all example_hasher 12 (empty 12) [1, 2, 3, 4, 5, 6, 7, 8, 9] = some example_nine ∧
    size example_nine = 9 ∧ example_nine.table_size = 25 ∧ example_nine.table_size ≠ 24 ∧
    (reserve example_hasher 12 example_eight 9).map (fun s => s.table_size) = some 25 ∧
    ∀ j, 25 ≠ 12 * 2 ^ j := by
  refine ⟨by decide, by decide, by decide, by decide, by decide, by decide, by decide, ?_⟩
  intro j
  generalize 2 ^ j = m
  omega

/-- C16, amended: on a state whose bucket array has table_size entries, reserve(n) changes
nothing when the test table_size * max_lf >= n holds as the code evaluates it, in single
precision; otherwise it rehashes with the request (table_size + 1) * 2^j - 1 (the capacity
doubled and incremented j times) for the least j >= 1 whose value passes that test for n,
the new capacity being the maximum of N, the request and size_type(size / max_lf), and
keeps the size; on a reachable set the new capacity is the request and every count is kept.
In particular, with N = 12 the inserts of nine different keys keep 12 buckets for the first
eight and end with size 9 in 25 buckets. The test is the rounded one: at 13631487 buckets
it passes for n = 9542041, although 7/10 of 13631487 is less than 9542041. -/
theorem reserve_growth (hasher : Key → Nat) (N : Nat) (hN : 1 ≤ N) (s : ADS_set Key)
    (hlen : s.table.length = s.table_size) (n : Nat) :
    (float_mul (float_of_size s.table_size) max_lf ≥ float_of_size n →
      reserve hasher N s n = some s) ∧
    (float_mul (float_of_size s.table_size) max_lf < float_of_size n →
      ∃ j s1, 1 ≤ j ∧ reserve hasher N s n = some s1 ∧
        s1.table_size = max N (max ((s.table_size + 1) * 2 ^ j - 1)
          (size_of_float (float_div (float_of_size s.current_size) max_lf))) ∧
        float_mul (float_of_size ((s.table_size + 1) * 2 ^ j - 1)) max_lf ≥ float_of_size n ∧
        (∀ i, i < j →
          float_mul (float_of_size ((s.table_size + 1) * 2 ^ i - 1)) max_lf < float_of_size n) ∧
        size s1 = size s ∧
        (Reachable hasher N s →
          s1.table_size = (s.table_size + 1) * 2 ^ j - 1 ∧
          ∀ k, count hasher s1 k = count hasher s k)) ∧
    (∀ L : List Key, L.Nodup → L.length = 9 →
      (∀ m, m ≤ 8 → ∃ sm, insert_all hasher 12 (empty 12) (L.take m) = some sm ∧
        size sm = m ∧ sm.table_size = 12) ∧
      ∃ s9, insert_all hasher 12 (empty 12) L = some s9 ∧ size s9 = 9 ∧
        s9.table_size = 25) ∧
    (float_mul (float_of_size 13631487) max_lf ≥ float_of_size 9542041 ∧
      7 * 13631487 < 10 * 9542041) := by
  refine ⟨fun hle => ?_, fun hlt => ?_, fun L hnd hlen => ?_, by decide, by decide⟩
  · simp [reserve, hle]
  · have hc : ¬ float_of_size n ≤ float_mul (float_of_size s.table_size) max_lf :=
      Nat.not_le.mpr hlt
    obtain ⟨s1, h1, hts, hcs, hl1, hpl1, hperm⟩ :=
      rehash_spec hasher N hN s (reserve_loop n (2 * n) s.table_size) hlen
    obtain ⟨j, hj, hres, hexit, hmin⟩ := reserve_loop_closed n (2 * n) s.table_size (by omega) hlt
    have hr2 := reserve_loop_ge n (2 * n) s.table_size
    rw [hres] at hts hr2
    refine ⟨j, s1, hj, ?_, hts, hexit, hmin, hcs, fun hr => ?_⟩
    · simp only [reserve, ge_iff_le, hc, if_false]
      exact h1
    · have hs := reachable_inv hasher N hN s hr
      have hfl := hs.shape.floor
      have hl := hs.load
      have hq := size_of_float_div_le s.current_size
      have hstep : 2 * s.table_size + 1 ≤ (s.table_size + 1) * 2 ^ j - 1 := by
        have h2 : 2 ^ 1 ≤ 2 ^ j := Nat.pow_le_pow_right (by decide) hj
        have h3 : (s.table_size + 1) * 2 ^ 1 ≤ (s.table_size + 1) * 2 ^ j :=
          Nat.mul_le_mul_left _ h2
        omega
      have hts2 : s1.table_size = (s.table_size + 1) * 2 ^ j - 1 := by
        rw [hts]; omega
      have hsh1 := shape_of_perm hasher N s s1 hs.shape hcs hl1 hpl1 hperm (by rw [hts2]; exact hr2)
      exact ⟨hts2, fun k => count_congr hasher N s s1 k hs.shape hsh1 hperm.mem_iff⟩
  · have hinv0 := inv_empty hasher 12 (by decide)
    have hprefix : ∀ m, m ≤ 8 → ∃ sm, insert_all hasher 12 (empty 12) (L.take m) = some sm ∧
        Inv hasher 12 sm ∧ sm.table_size = 12 ∧ sm.current_size = m ∧
        ∀ k, k ∈ sm.table.flatten ↔ k ∈ L.take m := by
      intro m hm
      have hlm : (L.take m).length = m := by
        rw [List.length_take]; omega
      obtain ⟨sm, h, hinv, hts, hcsm, hmem⟩ := insert_all_keeps hasher 12 (by decide) (L.take m)
        (empty 12) hinv0 (List.Nodup.sublist (List.take_sublist m L) hnd) (by simp [empty])
        (by rw [hlm]; simp only [empty]; omega)
        (by
          rw [hlm]
          simp only [empty, Nat.zero_add]
          exact load_test_of_le 12 m 8 hm (by decide) (by decide))
      refine ⟨sm, h, hinv, hts, ?_, fun k => ?_⟩
      · rw [hcsm, hlm]; simp [empty]
      · rw [hmem k]; simp [empty]
    refine ⟨fun m hm => ?_, ?_⟩
    · obtain ⟨sm, h, _, hts, hcsm, _⟩ := hprefix m hm
      exact ⟨sm, h, hcsm, hts⟩
    · obtain ⟨s8, h8, hinv8, hts8, hcs8, hmem8⟩ := hprefix 8 (Nat.le_refl _)
      have hsplit : L = L.take 8 ++ L.drop 8 := (List.take_append_drop 8 L).symm
      obtain ⟨x, hx⟩ : ∃ x, L.drop 8 = [x] := by
        have hl : (L.drop 8).length = 1 := by
          rw [List.length_drop]; omega
        match hd : L.drop 8, hl with
        | [x], _ => exact ⟨x, rfl⟩
      have hx8 : x ∉ s8.table.flatten := by
        rw [hmem8 x]
        have hnd2 : (L.take 8 ++ L.drop 8).Nodup := by rw [← hsplit]; exact hnd
        intro hxm
        exact (List.disjoint_of_nodup_append hnd2) hxm (by rw [hx]; exact List.mem_singleton_self x)
      obtain ⟨s1, _, hsh1, hcs1, hperm1, hload1, _, hgrow1, hins⟩ :=
        insert_absent hasher 12 (by decide) s8 x hinv8 hx8
      have hts1 : s1.table_size = 25 := by
        rw [hgrow1 (by rw [hts8, hcs8]; decide), hts8]
      refine ⟨{ table := s1.table.set (hasher x % s1.table_size)
                  (x :: s1.table.getD (hasher x % s1.table_size) []),
                table_size := s1.table_size, current_size := s1.current_size + 1 }, ?_, ?_, hts1⟩
      · rw [hsplit, insert_all_append, h8, hx]
        simp only [Option.some_bind, insert_all, hins, Option.bind_eq_bind]
      · show s1.current_size + 1 = 9
        rw [hcs1, hcs8]

/-- C16 as amended, at example_eight and the target 9: one step, from 12 to 25 buckets. -/
theorem reserve_growth_witness :
    1 ≤ 12 ∧ example_eight.table.length = example_eight.table_size ∧
    float_mul (float_of_size example_eight.table_size) max_lf < float_of_size 9 ∧
    Reachable example_hasher 12 example_eight ∧
    ∃ j s1, 1 ≤ j ∧ reserve example_hasher 12 example_eight 9 = some s1 ∧
      s1.table_size = max 12 (max ((example_eight.table_size + 1) * 2 ^ j - 1)
        (size_of_float (float_div (float_of_size example_eight.current_size) max_lf))) ∧
      float_mul (float_of_size ((example_eight.table_size + 1) * 2 ^ j - 1)) max_lf
        ≥ float_of_size 9 ∧
      (∀ i, i < j →
        float_mul (float_of_size ((example_eight.table_size + 1) * 2 ^ i - 1)) max_lf
          < float_of_size 9) ∧
      size s1 = size example_eight ∧
      (Reachable example_hasher 12 example_eight →
        s1.table_size = (example_eight.table_size + 1) * 2 ^ j - 1 ∧
        ∀ k, count example_hasher s1 k = count example_hasher example_eight k) :=
  ⟨by decide, by decide, by decide, example_eight_reachable,
    (reserve_growth example_hasher 12 (by decide) example_eight (by decide) 9).2.1 (by decide)⟩

/-- From the empty set, inserts of different keys fill the first table as long as the load
test of reserve passes. -/
theorem insert_all_fill (hasher : Key → Nat) (N : Nat) (hN : 1 ≤ N) (a : Nat)
    (hsmall : a < 2 ^ 24)
    (hroom : float_mul (float_of_size N) max_lf ≥ float_of_size a) :
    ∀ L : List Key, L.Nodup → L.length = a →
      ∃ s, insert_all hasher N (empty N) L = some s ∧ Inv hasher N s ∧ s.table_size = N ∧
        s.current_size = a ∧ ∀ k, k ∈ s.table.flatten ↔ k ∈ L := by
  intro L hnd hlen
  obtain ⟨s, h, hinv, hts, hcs, hmem⟩ := insert_all_keeps hasher N hN L (empty N)
    (inv_empty hasher N hN) hnd (by simp [empty])
    (by rw [hlen]; simp only [empty, Nat.zero_add]; exact hsmall)
    (by rw [hlen]; simp only [empty, Nat.zero_add]; exact hroom)
  refine ⟨s, h, hinv, hts, ?_, fun k => ?_⟩
  · rw [hcs, hlen]; simp [empty]
  · rw [hmem k]; simp [empty]

/-- One growth phase of a sequence of inserts of different keys: when a keys fill t buckets so
that the load test of reserve fails for a + 1, the next insert rehashes to 2 * t + 1 buckets,
and b more inserts keep them when the test passes there for a + 1 + b. -/
theorem insert_all_grow (hasher : Key → Nat) (N : Nat) (hN : 1 ≤ N) (t a b t1 a1 : Nat)
    (ht1 : t1 = 2 * t + 1) (ha1 : a1 = a + 1 + b)
    (hprev : ∀ L : List Key, L.Nodup → L.length = a →
      ∃ s, insert_all hasher N (empty N) L = some s ∧ Inv hasher N s ∧ s.table_size = t ∧
        s.current_size = a ∧ ∀ k, k ∈ s.table.flatten ↔ k ∈ L)
    (hfull : float_mul (float_of_size t) max_lf < float_of_size (a + 1))
    (hroom : float_mul (float_of_size t1) max_lf ≥ float_of_size a1)
    (hsmall : a1 < 2 ^ 24) :
    ∀ L : List Key, L.Nodup → L.length = a1 →
      ∃ s, insert_all hasher N (empty N) L = some s ∧ Inv hasher N s ∧ s.table_size = t1 ∧
        s.current_size = a1 ∧ ∀ k, k ∈ s.table.flatten ↔ k ∈ L := by
  intro L hnd hlen
  subst ht1 ha1
  have hsplit : L = L.take a ++ L.drop a := (List.take_append_drop a L).symm
  have hnd2 : (L.take a ++ L.drop a).Nodup := by rw [← hsplit]; exact hnd
  obtain ⟨s0, h0, hinv0, hts0, hcs0, hmem0⟩ := hprev (L.take a)
    (List.Nodup.of_append_left hnd2) (by rw [List.length_take]; omega)
  obtain ⟨x, rest, hx⟩ : ∃ x rest, L.drop a = x :: rest := by
    have hl : (L.drop a).length = 1 + b := by
      rw [List.length_drop]; omega
    cases hd : L.drop a with
    | nil =>
      rw [hd] at hl
      simp only [List.length_nil] at hl
      omega
    | cons x rest => exact ⟨x, rest, rfl⟩
  have hrest : rest.length = b := by
    have hl : (L.drop a).length = 1 + b := by
      rw [List.length_drop]; omega
    rw [hx] at hl
    simp only [List.length_cons] at hl
    omega
  have hndx : (x :: rest).Nodup := by rw [← hx]; exact List.Nodup.of_append_right hnd2
  have hdisj := List.disjoint_of_nodup_append hnd2
  have hx0 : x ∉ s0.table.flatten := by
    rw [hmem0 x]
    intro hxm
    exact hdisj hxm (by rw [hx]; exact List.mem_cons_self _ _)
  obtain ⟨s1, _, hsh1, hcs1, hperm1, hload1, _, hgrow1, hins⟩ :=
    insert_absent hasher N hN s0 x hinv0 hx0
  have hts1 : s1.table_size = 2 * t + 1 := by
    rw [hgrow1 (by rw [hts0, hcs0]; exact hfull), hts0]
  obtain ⟨hinv2, hp2⟩ := inv_link hasher N s0 s1 x hsh1 hcs1 hperm1 hx0 hload1
  obtain ⟨s3, h3, hinv3, hts3, hcs3, hmem3⟩ := insert_all_keeps hasher N hN rest _ hinv2
    (List.nodup_cons.mp hndx).2
    (by
      intro k hk hm
      rcases List.mem_cons.mp (hp2.mem_iff.mp hm) with rfl | hm
      · exact (List.nodup_cons.mp hndx).1 hk
      · exact hdisj ((hmem0 k).mp hm) (by rw [hx]; exact List.mem_cons_of_mem _ hk))
    (by
      show s1.current_size + 1 + rest.length < 2 ^ 24
      rw [hcs1, hcs0, hrest]; exact hsmall)
    (by
      show float_of_size (s1.current_size + 1 + rest.length) ≤
        float_mul (float_of_size s1.table_size) max_lf
      rw [hcs1, hcs0, hrest, hts1]; exact hroom)
  refine ⟨s3, ?_, hinv3, hts3.trans hts1, ?_, fun k => ?_⟩
  · rw [hsplit, insert_all_append, h0, hx]
    simp only [Option.some_bind, insert_all, hins, Option.bind_eq_bind]
    exact h3
  · rw [hcs3]
    show s1.current_size + 1 + rest.length = a + 1 + b
    rw [hcs1, hcs0, hrest]
  · rw [hmem3 k, hp2.mem_iff, List.mem_cons, hmem0 k]
    conv_rhs => rw [hsplit, List.mem_append, hx, List.mem_cons]
    clear hsmall hroom hfull
    tauto

/-- From the empty set with N = 12, the inserts of 9542041 different keys end with 9542041
keys in 13631487 buckets. -/
theorem insert_all_default_sizes (hasher : Key → Nat) :
    ∀ L : List Key, L.Nodup → L.length = 9542041 →
      ∃ s, insert_all hasher 12 (empty 12) L = some s ∧ Inv hasher 12 s ∧
        s.table_size = 13631487 ∧ s.current_size = 9542041 ∧
        ∀ k, k ∈ s.table.flatten ↔ k ∈ L := by
  have p0 := insert_all_fill hasher 12 (by decide) 8 (by decide) (by decide)
  have p1 := insert_all_grow hasher 12 (by decide) 12 8 8 25 17 rfl rfl p0
    (by decide) (by decide) (by decide)
  have p2 := insert_all_grow hasher 12 (by decide) 25 17 17 51 35 rfl rfl p1
    (by decide) (by decide) (by decide)
  have p3 := insert_all_grow hasher 12 (by decide) 51 35 36 103 72 rfl rfl p2
    (by decide) (by decide) (by decide)
  have p4 := insert_all_grow hasher 12 (by decide) 103 72 71 207 144 rfl rfl p3
    (by decide) (by decide) (by decide)
  have p5 := insert_all_grow hasher 12 (by decide) 207 144 145 415 290 rfl rfl p4
    (by decide) (by decide) (by decide)
  have p6 := insert_all_grow hasher 12 (by decide) 415 290 290 831 581 rfl rfl p5
    (by decide) (by decide) (by decide)
  have p7 := insert_all_grow hasher 12 (by decide) 831 581 582 1663 1164 rfl rfl p6
    (by decide) (by decide) (by decide)
  have p8 := insert_all_grow hasher 12 (by decide) 1663 1164 1163 3327 2328 rfl rfl p7
    (by decide) (by decide) (by decide)
  have p9 := insert_all_grow hasher 12 (by decide) 3327 2328 2329 6655 4658 rfl rfl p8
    (by decide) (by decide) (by decide)
  have p10 := insert_all_grow hasher 12 (by decide) 6655 4658 4658 13311 9317 rfl rfl p9
    (by decide) (by decide) (by decide)
  have p11 := insert_all_grow hasher 12 (by decide) 13311 9317 9318 26623 18636 rfl rfl p10
    (by decide) (by decide) (by decide)
  have p12 := insert_all_grow hasher 12 (by decide) 26623 18636 18635 53247 37272 rfl rfl p11
    (by decide) (by decide) (by decide)
  have p13 := insert_all_grow hasher 12 (by decide) 53247 37272 37273 106495 74546 rfl rfl p12
    (by decide) (by decide) (by decide)
  have p14 := insert_all_grow hasher 12 (by decide) 106495 74546 74546 212991 149093 rfl rfl p13
    (by decide) (by decide) (by decide)
  have p15 := insert_all_grow hasher 12 (by decide) 212991 149093 149094 425983 298188 rfl rfl p14
    (by decide) (by decide) (by decide)
  have p16 := insert_all_grow hasher 12 (by decide) 425983 298188 298187 851967 596376 rfl rfl p15
    (by decide) (by decide) (by decide)
  have p17 := insert_all_grow hasher 12 (by decide) 851967 596376 596377 1703935 1192754 rfl rfl p16
    (by decide) (by decide) (by decide)
  have p18 := insert_all_grow hasher 12 (by decide) 1703935 1192754 1192754 3407871 2385509 rfl rfl p17
    (by decide) (by decide) (by decide)
  have p19 := insert_all_grow hasher 12 (by decide) 3407871 2385509 2385510 6815743 4771020 rfl rfl p18
    (by decide) (by decide) (by decide)
  have p20 := insert_all_grow hasher 12 (by decide) 6815743 4771020 4771020 13631487 9542041 rfl rfl p19
    (by decide) (by decide) (by decide)
  exact p20

/-- A sequence of single-key inserts on a reachable set ends in a reachable set. -/
theorem reachable_insert_all (hasher : Key → Nat) (N : Nat) :
    ∀ (L : List Key) (s s1 : ADS_set Key), Reachable hasher N s →
      insert_all hasher N s L = some s1 → Reachable hasher N s1
  | [], s, s1, hr, h => by
    simp only [insert_all, Option.some.injEq] at h
    rw [← h]; exact hr
  | k :: rest, s, s1, hr, h => by
    simp only [insert_all, Option.bind_eq_bind] at h
    cases hins : insert hasher N s k with
    | none => rw [hins] at h; exact Option.noConfusion h
    | some r =>
      obtain ⟨s2, it, b⟩ := r
      rw [hins] at h
      exact reachable_insert_all hasher N rest s2 s1 (Reachable.insert hr hins) h

/-- C6 fails on the code: from the empty set with N = 12, the single inserts of 9542041
different keys complete and end in a reachable set of 9542041 keys in 13631487 buckets, where
10 * size = 95420410 exceeds 7 * capacity = 95420409, so that size / capacity < 7/10 is
false. The test of reserve passes there in single precision, and the growth test of add is
false. -/
theorem load_factor_default_exceeded (hasher : Key → Nat) (L : List Key) (hnd : L.Nodup)
    (hlen : L.length = 9542041) :
    ∃ s, insert_all hasher 12 (empty 12) L = some s ∧ Reachable hasher 12 s ∧
      size s = 9542041 ∧ s.table_size = 13631487 ∧
      ¬ (10 * size s < 7 * s.table_size) ∧ 7 * s.table_size < 10 * size s ∧
      float_mul (float_of_size s.table_size) max_lf ≥ float_of_size (size s) ∧
      add_grows s = false := by
  obtain ⟨s, h, _, hts, hcs, _⟩ := insert_all_default_sizes hasher L hnd hlen
  refine ⟨s, h, reachable_insert_all hasher 12 L _ s Reachable.empty h, hcs, hts, ?_, ?_, ?_, ?_⟩
  · simp only [size, hcs, hts]; decide
  · simp only [size, hcs, hts]; decide
  · simp only [size, hcs, hts]; decide
  · simp only [add_grows, hcs, hts]; decide

/-- C6's failure at the keys 0, 1, ..., 9542040 with the identity as hash function. -/
theorem load_factor_default_exceeded_witness :
    (List.range 9542041).Nodup ∧ (List.range 9542041).length = 9542041 ∧
    ∃ s, insert_all example_hasher 12 (empty 12) (List.range 9542041) = some s ∧
      Reachable example_hasher 12 s ∧ size s = 9542041 ∧ s.table_size = 13631487 ∧
      ¬ (10 * size s < 7 * s.table_size) ∧ 7 * s.table_size < 10 * size s ∧
      float_mul (float_of_size s.table_size) max_lf ≥ float_of_size (size s) ∧
      add_grows s = false :=
  ⟨List.nodup_range 9542041, List.length_range 9542041,
    load_factor_default_exceeded example_hasher (List.range 9542041) (List.nodup_range 9542041)
      (List.length_range 9542041)⟩

/-- C7 fails on the code. With N = 10 the seven inserts of 0 .. 6 end in a reachable set of
size 7 and capacity 10, where 10 * size < 7 * capacity is false: reserve keeps the table
because its test 10 * max_lf >= 7 passes, and the growth test of add, with the integer
quotient 7 / 10 = 0, is false. With N = 5991867 the inserts of 0 .. 4194306 end in a
reachable set of 4194307 keys in 5991867 buckets, where 10 * size exceeds 7 * capacity. -/
theorem load_factor_strict_fails :
    insert_all example_hasher 10 (empty 10) [0, 1, 2, 3, 4, 5, 6] = some example_tight ∧
    Reachable example_hasher 10 example_tight ∧
    size example_tight = 7 ∧ example_tight.table_size = 10 ∧
    ¬ (10 * size example_tight < 7 * example_tight.table_size) ∧
    float_mul (float_of_size 10) max_lf ≥ float_of_size 7 ∧
    add_grows example_tight = false ∧
    ∃ s, insert_all example_hasher 5991867 (empty 5991867) (List.range 4194307) = some s ∧
      Reachable example_hasher 5991867 s ∧ size s = 4194307 ∧ s.table_size = 5991867 ∧
      7 * s.table_size < 10 * size s := by
  refine ⟨by decide, example_tight_reachable, by decide, by decide, by decide, by decide,
    by decide, ?_⟩
  obtain ⟨s, h, _, hts, hcs, _⟩ := insert_all_fill example_hasher 5991867 (by decide) 4194307
    (by decide) (by decide) (List.range 4194307) (List.nodup_range _) (List.length_range _)
  refine ⟨s, h, reachable_insert_all example_hasher 5991867 _ _ s Reachable.empty h, hcs, hts, ?_⟩
  simp only [size, hcs, hts]
  decide

/-- On a reachable set, a request of at least 2 * table_size + 1, as in every call that
reserve makes, decides the capacity of rehash: the new capacity is the request, which is also
the value of the formula of the specification, and it satisfies the load bound 7/10 for the
current count. -/
theorem rehash_capacity_in_reserve (hasher : Key → Nat) (N : Nat) (hN : 1 ≤ N) (s : ADS_set Key)
    (hr : Reachable hasher N s) (n : Nat) (hn : 2 * s.table_size + 1 ≤ n) :
    ∃ s1, rehash hasher N s n = some s1 ∧ s1.table_size = n ∧
      s1.table_size = spec_rehash_capacity N n s.current_size ∧
      10 * size s1 ≤ 7 * s1.table_size := by
  have hs := reachable_inv hasher N hN s hr
  obtain ⟨s1, h1, hts, hcs, _, _, _⟩ := rehash_spec hasher N hN s n hs.shape.len
  have hfl := hs.shape.floor
  have hl := hs.load
  have hq := size_of_float_div_le s.current_size
  have hts1 : s1.table_size = n := by rw [hts]; omega
  refine ⟨s1, h1, hts1, ?_, ?_⟩
  · rw [hts1]
    simp only [spec_rehash_capacity]
    omega
  · simp only [size, hcs, hts1]
    omega

/-- Iterator::findNextNode from a null node stops at the first non-empty bucket at or after
its position, or at table_size with a null node when there is none. -/
theorem findNextNode_loop_first (s : ADS_set Key) :
    ∀ (fuel : Nat) (it : Iterator Key), it.ptr = [] → fuel = s.table_size - it.position →
      it.position ≤ s.table_size →
      it.position ≤ (findNextNode_loop s fuel it).position ∧
      (∀ j, it.position ≤ j → j < (findNextNode_loop s fuel it).position →
        s.table.getD j [] = []) ∧
      (((findNextNode_loop s fuel it).position < s.table_size ∧
          (findNextNode_loop s fuel it).ptr
            = s.table.getD (findNextNode_loop s fuel it).position [] ∧
          (findNextNode_loop s fuel it).ptr ≠ []) ∨
        ((findNextNode_loop s fuel it).position = s.table_size ∧
          (findNextNode_loop s fuel it).ptr = []))
  | 0, it, hptr, hfuel, hle => by
    simp only [findNextNode_loop]
    exact ⟨Nat.le_refl _, fun j h1 h2 => absurd h2 (by omega), Or.inr ⟨by omega, hptr⟩⟩
  | fuel + 1, it, hptr, hfuel, hle => by
    have hlt : it.position < s.table_size := by omega
    by_cases hb : s.table.getD it.position [] = []
    · obtain ⟨h1, h2, h3⟩ := findNextNode_loop_first s fuel
        { it with position := it.position + 1 } hptr (by simp only; omega) (by simp only; omega)
      simp only [findNextNode_loop, hlt, if_true, hb, ne_eq, not_true_eq_false, if_false]
      refine ⟨by simp only at h1; omega, fun j hj1 hj2 => ?_, h3⟩
      by_cases hj : j = it.position
      · rw [hj]; exact hb
      · exact h2 j (by simp only; omega) hj2
    · have hres : findNextNode_loop s (fuel + 1) it
          = { it with ptr := s.table.getD it.position [] } := by
        simp only [findNextNode_loop, hlt, if_true, ne_eq, hb, not_false_eq_true]
      rw [hres]
      exact ⟨Nat.le_refl _, fun j h1 h2 => absurd h2 (by simp only; omega), Or.inl ⟨hlt, rfl, hb⟩⟩

theorem begin_eq (s : ADS_set Key) :
    begin s = findNextNode_loop s s.table_size { position := 0, ptr := [] } := by
  simp [begin, Iterator.ctor, findNextNode]

theorem incr_last (s : ADS_set Key) (p : Nat) (k : Key) :
    Iterator.incr s { position := p, ptr := [k] } =
      findNextNode_loop s (s.table_size - (p + 1)) { position := p + 1, ptr := [] } := by
  simp [Iterator.incr, findNextNode]

/-- C18 (cursor order): on a reachable set begin() stands at the head of the first non-empty
bucket, or is the end cursor when all buckets are empty, which is the case exactly when
size is 0; the keys visited from begin() to end() are the chains of buckets 0, 1, 2, ...
one after the other, each from head to tail; ++ inside a chain moves to the next node, and
++ at the last node of a chain moves to the head of the next non-empty bucket, or to the
end position when there is none. -/
theorem cursor_order (hasher : Key → Nat) (N : Nat) (hN : 1 ≤ N) (s : ADS_set Key)
    (hr : Reachable hasher N s) :
    (∀ j, j < (begin s).position → s.table.getD j [] = []) ∧
    (((begin s).position < s.table_size ∧ (begin s).ptr = s.table.getD (begin s).position [] ∧
        (begin s).ptr ≠ []) ∨
      ((begin s).position = s.table_size ∧ (begin s).ptr = [])) ∧
    (Iterator.eq (begin s) (end_ s) = true ↔ size s = 0) ∧
    (∀ fuel, size s < fuel → iterate s fuel (begin s) (end_ s) = some s.table.flatten) ∧
    (∀ p k tl, tl ≠ [] →
      Iterator.incr s { position := p, ptr := k :: tl } = { position := p, ptr := tl }) ∧
    (∀ p k, p < s.table_size →
      p < (Iterator.incr s { position := p, ptr := [k] }).position ∧
      (∀ j, p < j → j < (Iterator.incr s { position := p, ptr := [k] }).position →
        s.table.getD j [] = []) ∧
      (((Iterator.incr s { position := p, ptr := [k] }).position < s.table_size ∧
          (Iterator.incr s { position := p, ptr := [k] }).ptr
            = s.table.getD (Iterator.incr s { position := p, ptr := [k] }).position [] ∧
          (Iterator.incr s { position := p, ptr := [k] }).ptr ≠ []) ∨
        ((Iterator.incr s { position := p, ptr := [k] }).position = s.table_size ∧
          (Iterator.incr s { position := p, ptr := [k] }).ptr = []))) := by
  have hs := (reachable_inv hasher N hN s hr).shape
  obtain ⟨_, hb2, hb3⟩ := findNextNode_loop_first s s.table_size { position := 0, ptr := [] }
    rfl rfl (Nat.zero_le _)
  rw [← begin_eq] at hb2 hb3
  refine ⟨fun j hj => hb2 j (Nat.zero_le _) hj, hb3, ?_, fun fuel hfuel => ?_,
    fun p k tl htl => ?_, fun p k hp => ?_⟩
  · obtain ⟨hrem, hnorm⟩ := begin_spec s hs.len
    simp only [Iterator.eq, end_ptr, decide_eq_true_eq, size]
    constructor
    · intro hnil
      rw [hs.card, hnorm hnil]
      rfl
    · intro h0
      have hfl : s.table.flatten = [] := by
        apply List.eq_nil_of_length_eq_zero
        rw [← hs.card]; exact h0
      rw [hfl] at hrem
      simp only [remaining, List.append_eq_nil] at hrem
      exact hrem.1
  · apply iterate_begin s hs.len
    rw [← hs.card]; exact hfuel
  · simp [Iterator.incr, htl]
  · obtain ⟨h1, h2, h3⟩ := findNextNode_loop_first s (s.table_size - (p + 1))
      { position := p + 1, ptr := [] } rfl rfl (by simp only; omega)
    rw [← incr_last s p k] at h1 h2 h3
    exact ⟨by simp only at h1; omega, fun j hj1 hj2 => h2 j (by simp only; omega) hj2, h3⟩

/-- C18 at example_other, whose non-empty buckets are 0, 1, 4 .. 8 and 13. -/
theorem cursor_order_witness :
    1 ≤ 12 ∧ Reachable example_hasher 12 example_other ∧
    (∀ j, j < (begin example_other).position → example_other.table.getD j [] = []) ∧
    (((begin example_other).position < example_other.table_size ∧
        (begin example_other).ptr = example_other.table.getD (begin example_other).position [] ∧
        (begin example_other).ptr ≠ []) ∨
      ((begin example_other).position = example_other.table_size ∧
        (begin example_other).ptr = [])) ∧
    (Iterator.eq (begin example_other) (end_ example_other) = true ↔ size example_other = 0) ∧
    (∀ fuel, size example_other < fuel →
      iterate example_other fuel (begin example_other) (end_ example_other)
        = some example_other.table.flatten) ∧
    (∀ p k tl, tl ≠ [] →
      Iterator.incr example_other { position := p, ptr := k :: tl }
        = { position := p, ptr := tl }) ∧
    (∀ p k, p < example_other.table_size →
      p < (Iterator.incr example_other { position := p, ptr := [k] }).position ∧
      (∀ j, p < j → j < (Iterator.incr example_other { position := p, ptr := [k] }).position →
        example_other.table.getD j [] = []) ∧
      (((Iterator.incr example_other { position := p, ptr := [k] }).position
            < example_other.table_size ∧
          (Iterator.incr example_other { position := p, ptr := [k] }).ptr
            = example_other.table.getD
                (Iterator.incr example_other { position := p, ptr := [k] }).position [] ∧
          (Iterator.incr example_other { position := p, ptr := [k] }).ptr ≠ []) ∨
        ((Iterator.incr example_other { position := p, ptr := [k] }).position
            = example_other.table_size ∧
          (Iterator.incr example_other { position := p, ptr := [k] }).ptr = []))) :=
  ⟨by decide, example_other_reachable,
    cursor_order example_hasher 12 (by decide) example_other example_other_reachable⟩

theorem findNextNode_reads_lt (s : ADS_set Key) :
    ∀ (fuel : Nat) (it : Iterator Key) (i : Nat), i ∈ findNextNode_reads s fuel it →
      i < s.table_size
  | 0, _, i, hi => by simp [findNextNode_reads] at hi
  | fuel + 1, it, i, hi => by
    by_cases hlt : it.position < s.table_size
    · by_cases hb : s.table.getD it.position [] = []
      · simp only [findNextNode_reads, hlt, if_true, hb, ne_eq, not_true_eq_false, if_false,
          List.mem_cons] at hi
        rcases hi with rfl | hi
        · exact hlt
        · exact findNextNode_reads_lt s fuel _ i hi
      · simp only [findNextNode_reads, hlt, if_true, ne_eq, hb, not_false_eq_true,
          List.mem_cons, List.mem_singleton, or_self, List.not_mem_nil, or_false] at hi
        rw [hi]; exact hlt
    · simp [findNextNode_reads, hlt] at hi

/-- The cursors other than end() are constructed with reads inside the bucket array: begin()
reads below table_size, and a cursor built from a node (find, insert) reads nothing. -/
theorem cursor_reads_in_bounds (s : ADS_set Key) (hpos : 0 < s.table_size) :
    (∀ i, i ∈ Iterator.ctor_reads s 0 [] → i < s.table_size) ∧
    (∀ position ptr, ptr ≠ [] → position < s.table_size →
      Iterator.ctor_reads s position ptr = []) := by
  constructor
  · intro i hi
    have h0 : ¬ 0 = s.table_size := by omega
    simp only [Iterator.ctor_reads, and_self, if_true, h0, if_false, List.append_nil] at hi
    exact findNextNode_reads_lt s _ _ i hi
  · intro position ptr hne hlt
    have h0 : ¬ position = s.table_size := by omega
    simp [Iterator.ctor_reads, hne, h0]

/-- C19: the constructor of the end cursor reads the bucket array at index table_size, one
past its last entry. For every set the reads of Iterator(this, table_size, nullptr) are
exactly that index; for the default-constructed set this is index N of an array of N
entries. The node of the end cursor is null all the same, because the value read is
assigned to the parameter. -/
theorem end_reads_past_the_array (s : ADS_set Key) (N : Nat) :
    Iterator.ctor_reads s s.table_size [] = [s.table_size] ∧ (end_ s).ptr = [] ∧
    (empty N : ADS_set Key).table.length = N ∧
    Iterator.ctor_reads (empty N : ADS_set Key) (empty N : ADS_set Key).table_size [] = [N] := by
  have hreads : ∀ t : ADS_set Key, Iterator.ctor_reads t t.table_size [] = [t.table_size] := by
    intro t
    by_cases h0 : t.table_size = 0
    · simp [Iterator.ctor_reads, h0, findNextNode_reads]
    · simp [Iterator.ctor_reads, h0]
  exact ⟨hreads s, end_ptr s, by simp [empty], hreads (empty N)⟩

/-- C20 (the growth test of add is dead): on a reachable set with N >= 1, (1) in insert of an
absent key, after reserve(current_size + 1) the test of add is false, add keeps table_size
and links the node at the head of the bucket of the index it computed first; (2) each step
of a range insert runs on a reachable set, so (1) applies to it; (3) in the copy
constructor, for every key of the traversal the test of add is false in the state reached by
the keys before it, and add keeps table_size and links the node at the head of its
bucket. -/
theorem add_growth_dead (hasher : Key → Nat) (N : Nat) (hN : 1 ≤ N) (s : ADS_set Key)
    (hr : Reachable hasher N s) :
    (∀ key, count hasher s key = some 0 →
      ∃ s1, reserve hasher N s (s.current_size + 1) = some s1 ∧
        add_grows { s1 with current_size := s1.current_size + 1 } = false ∧
        ∃ s2 node, add hasher N s1 key = some (s2, node) ∧ s2.table_size = s1.table_size ∧
          node.head? = some key ∧ s2.table.getD (hasher key % s2.table_size) [] = node) ∧
    (∀ pre rest, ∃ sp, insert_range hasher N s pre = some sp ∧ Reachable hasher N sp ∧
      insert_range hasher N s (pre ++ rest) = insert_range hasher N sp rest) ∧
    (∃ keys, traverse s = some keys ∧ ∀ pre k post, keys = pre ++ k :: post →
      ∃ t, copy_loop hasher N
          { table := List.replicate s.table_size [], table_size := s.table_size,
            current_size := 0 } pre = some t ∧
        add_grows { t with current_size := t.current_size + 1 } = false ∧
        ∃ t2 node, add hasher N t k = some (t2, node) ∧ t2.table_size = t.table_size ∧
          node.head? = some k ∧ t2.table.getD (hasher k % t2.table_size) [] = node) := by
  have hs := reachable_inv hasher N hN s hr
  refine ⟨fun key hk => ?_, fun pre rest => ?_, s.table.flatten, traverse_eq s hs.shape.len,
    fun pre k post hsplit => ?_⟩
  · have hmem := (count_eq_zero_iff hasher N s hs.shape key).mp hk
    obtain ⟨s1, h1, hsh1, hcs, _, hload, _, _, _⟩ := insert_absent hasher N hN s key hs hmem
    have hload1 : s1.current_size + 1 < s1.table_size := by
      rw [hcs]; exact hload
    have hidx : hasher key % s1.table_size < s1.table.length := by
      rw [hsh1.len]; exact Nat.mod_lt _ hsh1.pos
    exact ⟨s1, h1, add_grows_false s1 hload1, _, _, add_spec hasher N s1 key hsh1 hload1,
      rfl, rfl, getD_set_self hidx _⟩
  · obtain ⟨sp, hp, hinvp, _⟩ := insert_all_spec hasher N hN pre s hs
    have hrp : insert_range hasher N s pre = some sp := by
      rw [insert_range_eq_insert_all hasher N hN pre s hs]; exact hp
    refine ⟨sp, hrp, Reachable.insert_range hr hrp, ?_⟩
    rw [insert_range_eq_insert_all hasher N hN (pre ++ rest) s hs, insert_all_append, hp,
      insert_range_eq_insert_all hasher N hN rest sp hinvp]
    rfl
  · have hnd : (pre ++ k :: post).Nodup := by rw [← hsplit]; exact hs.shape.nodup
    have hlen : pre.length + 1 ≤ s.current_size := by
      rw [hs.shape.card, hsplit]
      simp only [List.length_append, List.length_cons]
      omega
    have hsh0 : Shape hasher N
        ({ table := List.replicate s.table_size [], table_size := s.table_size,
           current_size := 0 } : ADS_set Key) := {
      len := by simp
      floor := hs.shape.floor
      pos := hs.shape.pos
      placed := placed_replicate hasher _ _
      nodup := by simp
      card := by simp }
    have hl := hs.load
    obtain ⟨t, ht, hsht, hts, hcs, hperm⟩ := copy_loop_spec hasher N pre _ hsh0
      (List.Nodup.of_append_left hnd) (by simp) (by
        simp only [Nat.zero_add]
        omega)
    have hload : t.current_size + 1 < t.table_size := by
      rw [hcs, hts]
      simp only [Nat.zero_add]
      omega
    have hidx : hasher k % t.table_size < t.table.length := by
      rw [hsht.len]; exact Nat.mod_lt _ hsht.pos
    exact ⟨t, ht, add_grows_false t hload, _, _, add_spec hasher N t k hsht hload, rfl,
      rfl, getD_set_self hidx _⟩

/-- C20 at example_eight: the insert of 9 grows the table in reserve, not in add. -/
theorem add_growth_dead_witness :
    1 ≤ 12 ∧ Reachable example_hasher 12 example_eight ∧
    (∀ key, count example_hasher example_eight key = some 0 →
      ∃ s1, reserve example_hasher 12 example_eight (example_eight.current_size + 1) = some s1 ∧
        add_grows { s1 with current_size := s1.current_size + 1 } = false ∧
        ∃ s2 node, add example_hasher 12 s1 key = some (s2, node) ∧
          s2.table_size = s1.table_size ∧ node.head? = some key ∧
          s2.table.getD (example_hasher key % s2.table_size) [] = node) ∧
    (∀ pre rest, ∃ sp, insert_range example_hasher 12 example_eight pre = some sp ∧
      Reachable example_hasher 12 sp ∧
      insert_range example_hasher 12 example_eight (pre ++ rest)
        = insert_range example_hasher 12 sp rest) ∧
    (∃ keys, traverse example_eight = some keys ∧ ∀ pre k post, keys = pre ++ k :: post →
      ∃ t, copy_loop example_hasher 12
          { table := List.replicate example_eight.table_size [],
            table_size := example_eight.table_size, current_size := 0 } pre = some t ∧
        add_grows { t with current_size := t.current_size + 1 } = false ∧
        ∃ t2 node, add example_hasher 12 t k = some (t2, node) ∧
          t2.table_size = t.table_size ∧ node.head? = some k ∧
          t2.table.getD (example_hasher k % t2.table_size) [] = node) :=
  ⟨by decide, example_eight_reachable,
    add_growth_dead example_hasher 12 (by decide) example_eight example_eight_reachable⟩

/-- Copy construction on the list model: the copy of a reachable set A completes, has the
size, the capacity and the counts of A, and compares equal to A in both operand orders. -/
theorem copy_equal (hasher : Key → Nat) (N : Nat) (hN : 1 ≤ N) (A : ADS_set Key)
    (hA : Reachable hasher N A) :
    ∃ B, copy hasher N A = some B ∧ Reachable hasher N B ∧ size B = size A ∧
      B.table_size = A.table_size ∧ (∀ k, count hasher B k = count hasher A k) ∧
      operator_eq hasher B A = some true ∧ operator_eq hasher A B = some true := by
  have ha := reachable_inv hasher N hN A hA
  obtain ⟨B, hB, hb, hts, hcs, hperm⟩ := copy_spec hasher N A ha
  refine ⟨B, hB, Reachable.copy hA hB, hcs, hts,
    fun k => count_congr hasher N A B k ha.shape hb.shape hperm.mem_iff, ?_, ?_⟩
  · rw [operator_eq_spec hasher N B A hb.shape ha.shape]
    exact congrArg some (decide_eq_true ⟨hcs, fun x hx => hperm.mem_iff.mp hx⟩)
  · rw [operator_eq_spec hasher N A B ha.shape hb.shape]
    exact congrArg some (decide_eq_true ⟨hcs.symm, fun x hx => hperm.mem_iff.mpr hx⟩)

end Operations

/-! ## The pointer level: the copy constructor allocates all its nodes -/

namespace Ptr

section HeapLists

variable {Key : Type}

theorem getD_set_eq {α : Type} (l : List α) (i : Nat) (v d : α) (hi : i < l.length) :
    (l.set i v).getD i d = v := by
  simp [List.getD_eq_getElem?_getD, hi]

theorem getD_set_ne {α : Type} (l : List α) (i j : Nat) (v d : α) (hij : i ≠ j) :
    (l.set i v).getD j d = l.getD j d := by
  simp [List.getD_eq_getElem?_getD, List.getElem?_set_ne hij]

theorem getD_lt_of_some {α : Type} (l : List (Option α)) (a : Nat) (x : α)
    (hx : l.getD a none = some x) : a < l.length := by
  by_contra hlt
  rw [List.getD_eq_default _ _ (Nat.le_of_not_lt hlt)] at hx
  exact Option.noConfusion hx

theorem getD_append_some {α : Type} (l : List (Option α)) (c : Option α) (a : Nat) (x : α)
    (hx : l.getD a none = some x) : (l ++ [c]).getD a none = some x := by
  have hlt := getD_lt_of_some l a x hx
  rw [← hx]
  simp [List.getD_eq_getElem?_getD, List.getElem?_append_left hlt]

theorem getD_append_length {α : Type} (l : List (Option α)) (c : Option α) :
    (l ++ [c]).getD l.length none = c := by
  simp [List.getD_eq_getElem?_getD]

theorem chain_none (H : Heap Key) (P : Nat → Prop) (l : List Key)
    (hc : Chain H P none l) : l = [] := by
  cases l with
  | nil => rfl
  | cons _ l =>
    obtain ⟨a, nx, hp, _⟩ := hc
    exact Option.noConfusion hp

theorem chain_nil_iff (H : Heap Key) (P : Nat → Prop) (p : Option Nat) (l : List Key)
    (hc : Chain H P p l) : p = none ↔ l = [] := by
  constructor
  · intro hp
    rw [hp] at hc
    exact chain_none H P l hc
  · intro hl
    rw [hl] at hc
    exact hc

/-- A chain is unchanged by every change of the heap that keeps the nodes of its region
that hold its keys. -/
theorem chain_stable (H H1 : Heap Key) (P : Nat → Prop) :
    ∀ (l : List Key) (p : Option Nat), Chain H P p l →
      (∀ a node, P a → H.getD a none = some node → node.key ∈ l →
        H1.getD a none = some node) →
      Chain H1 P p l
  | [], _, hc, _ => hc
  | _ :: l, _, ⟨a, nx, hp, hpa, hread, hrest⟩, hkeep =>
    ⟨a, nx, hp, hpa, hkeep a _ hpa hread (List.mem_cons_self _ _),
      chain_stable H H1 P l nx hrest
        (fun b node hb hr hm => hkeep b node hb hr (List.mem_cons_of_mem _ hm))⟩

theorem chain_region (H : Heap Key) (P Q : Nat → Prop) (hPQ : ∀ a, P a → Q a) :
    ∀ (l : List Key) (p : Option Nat), Chain H P p l → Chain H Q p l
  | [], _, hc => hc
  | _ :: l, _, ⟨a, nx, hp, hpa, hread, hrest⟩ =>
    ⟨a, nx, hp, hPQ a hpa, hread, chain_region H P Q hPQ l nx hrest⟩

theorem chain_append (H : Heap Key) (P : Nat → Prop) (c : Option (Node Key)) (l : List Key)
    (p : Option Nat) (hc : Chain H P p l) : Chain (H ++ [c]) P p l :=
  chain_stable H (H ++ [c]) P l p hc (fun a node _ hr _ => getD_append_some H c a node hr)

/-- The nodes of a chain lie in allocated cells. -/
theorem chain_region_lt (H : Heap Key) (P : Nat → Prop) :
    ∀ (l : List Key) (p : Option Nat), Chain H P p l →
      Chain H (fun a => P a ∧ a < H.length) p l
  | [], _, hc => hc
  | _ :: l, _, ⟨a, nx, hp, hpa, hread, hrest⟩ =>
    ⟨a, nx, hp, ⟨hpa, getD_lt_of_some H a _ hread⟩, hread, chain_region_lt H P l nx hrest⟩

/-- The expression delete p releases the nodes of the chain at p and nothing else. -/
theorem delete_spec (P : Nat → Prop) :
    ∀ (l : List Key) (fuel : Nat) (H : Heap Key) (p : Option Nat), Chain H P p l →
      l.length < fuel →
      ∃ H1, delete fuel H p = some H1 ∧ H1.length = H.length ∧
        ∀ a node, H.getD a none = some node → (¬ P a ∨ node.key ∉ l) →
          H1.getD a none = some node
  | [], fuel, H, p, hc, _ => by
    have hp : p = none := hc
    subst hp
    refine ⟨H, ?_, rfl, fun a node hr _ => hr⟩
    cases fuel <;> rfl
  | k :: l, 0, _, _, _, hfuel => by simp at hfuel
  | k :: l, fuel + 1, H, p, ⟨a, nx, hp, hpa, hread, hrest⟩, hfuel => by
    subst hp
    obtain ⟨H1, h1, hlen1, hframe1⟩ := delete_spec P l fuel H nx hrest
      (by simp only [List.length_cons] at hfuel; omega)
    refine ⟨H1.set a none, ?_, by simp [hlen1], fun b node hr hout => ?_⟩
    · simp only [delete, read, hread, Option.bind_eq_bind, Option.some_bind, h1, Option.pure_def]
    · have hba : a ≠ b := by
        rintro rfl
        rw [hread] at hr
        have hnk : node.key = k := by rw [← Option.some.inj hr]
        rcases hout with hnp | hnk2
        · exact hnp hpa
        · exact hnk2 (by rw [hnk]; exact List.mem_cons_self _ _)
      rw [getD_set_ne H1 a b none none hba]
      apply hframe1 b node hr
      rcases hout with hnp | hnk
      · exact Or.inl hnp
      · exact Or.inr (fun hm => hnk (List.mem_cons_of_mem _ hm))

/-- A set whose nodes lie below the address w is not affected by a change of the heap that
keeps the nodes below w. -/
theorem rep_stable (H H1 : Heap Key) (w : Nat) (o : Obj) (s : ADS_set Key)
    (hrep : Rep H (fun a => a < w) o s)
    (hframe : ∀ a node, a < w → H.getD a none = some node → H1.getD a none = some node) :
    Rep H1 (fun a => a < w) o s where
  table_size_eq := hrep.table_size_eq
  current_size_eq := hrep.current_size_eq
  len := hrep.len
  chains := fun i => chain_stable H H1 _ _ _ (hrep.chains i)
    (fun a node ha hr _ => hframe a node ha hr)

theorem length_getD_le_flatten (t : List (List Key)) (i : Nat) :
    (t.getD i []).length ≤ t.flatten.length := by
  by_cases hi : i < t.length
  · rw [flatten_split t i hi]
    simp only [List.length_append]
    omega
  · rw [List.getD_eq_default _ _ (Nat.le_of_not_lt hi)]
    exact Nat.zero_le _

/-- The inner loop of rehash on the heap follows the inner loop of the list model; it only
allocates. -/
theorem rehash_chain_sim (hasher : Key → Nat) (o1 : Obj) (s1 : ADS_set Key)
    (hts : s1.table_size = o1.table_size) (hpos : 0 < o1.table_size) (Pold : Nat → Prop)
    (w1 : Nat) :
    ∀ (c : List Key) (fuel : Nat) (H : Heap Key) (cur : Option Nat) (nt : List (Option Nat))
      (tl : List (List Key)), Chain H Pold cur c → c.length < fuel → w1 ≤ H.length →
      nt.length = o1.table_size → tl.length = o1.table_size →
      (∀ i, Chain H (fun a => w1 ≤ a) (nt.getD i none) (tl.getD i [])) →
      ∃ H1 nt1 tl1, rehash_chain hasher o1 fuel H cur nt = some (H1, nt1) ∧
        ADS_set.rehash_chain hasher s1 c tl = some tl1 ∧
        nt1.length = o1.table_size ∧ tl1.length = o1.table_size ∧
        (∀ i, Chain H1 (fun a => w1 ≤ a) (nt1.getD i none) (tl1.getD i [])) ∧
        H.length ≤ H1.length ∧
        ∀ a node, H.getD a none = some node → H1.getD a none = some node
  | [], fuel, H, cur, nt, tl, hc, _, _, hnt, htl, hnew => by
    have hp : cur = none := hc
    subst hp
    refine ⟨H, nt, tl, ?_, rfl, hnt, htl, hnew, Nat.le_refl _, fun a node hr => hr⟩
    cases fuel <;> rfl
  | k :: c, 0, _, _, _, _, _, hfuel, _, _, _, _ => by simp at hfuel
  | k :: c, fuel + 1, H, cur, nt, tl, ⟨a, nx, hp, hpa, hread, hrest⟩, hfuel, hw, hnt, htl,
      hnew => by
    subst hp
    have hidx : hasher k % o1.table_size < o1.table_size := Nat.mod_lt _ hpos
    have hnew1 : ∀ i, Chain (H ++ [some { key := k, next := nt.getD (hasher k % o1.table_size) none }])
        (fun a => w1 ≤ a)
        ((nt.set (hasher k % o1.table_size) (some H.length)).getD i none)
        ((tl.set (hasher k % o1.table_size) (k :: tl.getD (hasher k % o1.table_size) [])).getD i [])
        := by
      intro i
      by_cases hi : hasher k % o1.table_size = i
      · subst hi
        rw [getD_set_eq nt _ _ _ (by rw [hnt]; exact hidx),
          getD_set_eq tl _ _ _ (by rw [htl]; exact hidx)]
        exact ⟨H.length, _, rfl, hw, getD_append_length H _, chain_append H _ _ _ _ (hnew _)⟩
      · rw [getD_set_ne nt _ _ _ _ hi, getD_set_ne tl _ _ _ _ hi]
        exact chain_append H _ _ _ _ (hnew i)
    obtain ⟨H1, nt1, tl1, h1, h2, hnt1, htl1, hnew2, hlen, hkeep⟩ :=
      rehash_chain_sim hasher o1 s1 hts hpos Pold w1 c fuel
        (H ++ [some { key := k, next := nt.getD (hasher k % o1.table_size) none }]) nx
        (nt.set (hasher k % o1.table_size) (some H.length))
        (tl.set (hasher k % o1.table_size) (k :: tl.getD (hasher k % o1.table_size) []))
        (chain_append H Pold _ c nx hrest)
        (by simp only [List.length_cons] at hfuel; omega)
        (by simp only [List.length_append, List.length_singleton]; omega)
        (by simpa using hnt) (by simpa using htl) hnew1
    refine ⟨H1, nt1, tl1, ?_, ?_, hnt1, htl1, hnew2, ?_, fun b node hr => ?_⟩
    · have hh : h hasher o1 k = some (hasher k % o1.table_size) := by
        simp [h, Nat.pos_iff_ne_zero.mp hpos]
      simp only [rehash_chain, read, hread, Option.bind_eq_bind, Option.some_bind, hh]
      exact h1
    · have hh : ADS_set.h hasher s1 k = some (hasher k % o1.table_size) := by
        rw [h_eq hasher s1 k (by rw [hts]; exact hpos), hts]
      simp only [ADS_set.rehash_chain, hh, Option.bind_eq_bind, Option.some_bind]
      exact h2
    · simp only [List.length_append, List.length_singleton] at hlen
      omega
    · exact hkeep b node (getD_append_some H _ b node hr)

/-- The outer loop of rehash on the heap follows the outer loop of the list model: after
each bucket the new table represents the new table of the list model, the old buckets still
to come are intact, and outside the old region nothing has changed. -/
theorem rehash_buckets_sim (hasher : Key → Nat) (o1 : Obj) (s1 : ADS_set Key)
    (hts : s1.table_size = o1.table_size) (hpos : 0 < o1.table_size) (w w1 fuel : Nat)
    (old : List (Option Nat)) (sold : List (List Key))
    (hfuel : ∀ i, (sold.getD i []).length < fuel)
    (hdisj : ∀ i j k, k ∈ sold.getD i [] → k ∈ sold.getD j [] → i = j) :
    ∀ (is : List Nat) (H : Heap Key) (nt : List (Option Nat)) (tl : List (List Key)),
      is.Nodup → w1 ≤ H.length → nt.length = o1.table_size → tl.length = o1.table_size →
      (∀ i, i ∈ is → Chain H (fun a => w ≤ a ∧ a < w1) (old.getD i none) (sold.getD i [])) →
      (∀ i, Chain H (fun a => w1 ≤ a) (nt.getD i none) (tl.getD i [])) →
      ∃ H1 nt1 tl1,
        is.foldlM (fun (st : Heap Key × List (Option Nat)) index =>
          (rehash_chain hasher o1 fuel st.1 (old.getD index none) st.2).bind (fun st1 =>
            (delete fuel st1.1 (old.getD index none)).bind (fun H2 => some (H2, st1.2))))
          (H, nt) = some (H1, nt1) ∧
        is.foldlM (fun new_table index =>
          ADS_set.rehash_chain hasher s1 (sold.getD index []) new_table) tl = some tl1 ∧
        nt1.length = o1.table_size ∧ tl1.length = o1.table_size ∧
        (∀ i, Chain H1 (fun a => w1 ≤ a) (nt1.getD i none) (tl1.getD i [])) ∧
        H.length ≤ H1.length ∧
        ∀ a node, H.getD a none = some node → ¬ (w ≤ a ∧ a < w1) →
          H1.getD a none = some node
  | [], H, nt, tl, _, _, hnt, htl, _, hnew =>
    ⟨H, nt, tl, rfl, rfl, hnt, htl, hnew, Nat.le_refl _, fun _ _ hr _ => hr⟩
  | i :: is, H, nt, tl, hnd, hw1, hnt, htl, hold, hnew => by
    obtain ⟨hi_notin, hnd1⟩ := List.nodup_cons.mp hnd
    obtain ⟨H2, nt2, tl2, h2, hl2, hnt2, htl2, hnew2, hlen2, hkeep2⟩ :=
      rehash_chain_sim hasher o1 s1 hts hpos (fun a => w ≤ a ∧ a < w1) w1 (sold.getD i [])
        fuel H (old.getD i none) nt tl (hold i (List.mem_cons_self _ _)) (hfuel i) hw1 hnt htl
        hnew
    have hold2 : Chain H2 (fun a => w ≤ a ∧ a < w1) (old.getD i none) (sold.getD i []) :=
      chain_stable H H2 _ _ _ (hold i (List.mem_cons_self _ _))
        (fun a node _ hr _ => hkeep2 a node hr)
    obtain ⟨H3, h3, hlen3, hframe3⟩ := delete_spec (fun a => w ≤ a ∧ a < w1) (sold.getD i [])
      fuel H2 (old.getD i none) hold2 (hfuel i)
    have hold3 : ∀ j, j ∈ is →
        Chain H3 (fun a => w ≤ a ∧ a < w1) (old.getD j none) (sold.getD j []) := by
      intro j hj
      apply chain_stable H H3 _ _ _ (hold j (List.mem_cons_of_mem _ hj))
      intro a node _ hr hm
      apply hframe3 a node (hkeep2 a node hr)
      right
      intro hmi
      have hij : j = i := hdisj j i node.key hm hmi
      exact hi_notin (hij ▸ hj)
    have hnew3 : ∀ j, Chain H3 (fun a => w1 ≤ a) (nt2.getD j none) (tl2.getD j []) := by
      intro j
      apply chain_stable H2 H3 _ _ _ (hnew2 j)
      intro a node ha hr _
      exact hframe3 a node hr (Or.inl (fun hp => by omega))
    obtain ⟨H1, nt1, tl1, h1, hl1, hnt1, htl1, hnew1, hlen1, hframe1⟩ :=
      rehash_buckets_sim hasher o1 s1 hts hpos w w1 fuel old sold hfuel hdisj is H3 nt2 tl2
        hnd1 (by omega) hnt2 htl2 hold3 hnew3
    refine ⟨H1, nt1, tl1, ?_, ?_, hnt1, htl1, hnew1, by omega, fun a node hr hout => ?_⟩
    · simp only [List.foldlM_cons, h2, Option.bind_eq_bind, Option.some_bind, h3]
      exact h1
    · simp only [List.foldlM_cons, hl2, Option.bind_eq_bind, Option.some_bind]
      exact hl1
    · exact hframe1 a node (hframe3 a node (hkeep2 a node hr) (Or.inl hout)) hout

theorem bucket_keys_disjoint (hasher : Key → Nat) (N : Nat) (s : ADS_set Key)
    (hs : Shape hasher N s) (i j : Nat) (k : Key) (hi : k ∈ s.table.getD i [])
    (hj : k ∈ s.table.getD j []) : i = j := by
  rw [← hs.placed i k hi, ← hs.placed j k hj]

theorem bucket_length_lt (hasher : Key → Nat) (N : Nat) (s : ADS_set Key)
    (hs : Shape hasher N s) (fuel : Nat) (hfuel : s.current_size < fuel) (i : Nat) :
    (s.table.getD i []).length < fuel := by
  have := length_getD_le_flatten s.table i
  rw [← hs.card] at this
  omega

/-- Member rehash on the heap follows rehash of the list model, keeps the nodes of the set
at or above the address w, and leaves the nodes below w as they are. -/
theorem rehash_sim (hasher : Key → Nat) (N : Nat) (hN : 1 ≤ N) (fuel w : Nat) (H : Heap Key)
    (o : Obj) (s : ADS_set Key) (n : Nat) (hrep : Rep H (fun a => w ≤ a) o s)
    (hw : w ≤ H.length) (hs : Shape hasher N s) (hfuel : s.current_size < fuel) :
    ∃ H1 o1 s1, rehash hasher N fuel H o n = some (H1, o1) ∧
      ADS_set.rehash hasher N s n = some s1 ∧ Rep H1 (fun a => w ≤ a) o1 s1 ∧
      H.length ≤ H1.length ∧
      ∀ a node, a < w → H.getD a none = some node → H1.getD a none = some node := by
  have hpos : 0 < max N (max n (size_of_float (float_div (float_of_size o.current_size) max_lf))) :=
    Nat.lt_of_lt_of_le hN (Nat.le_max_left _ _)
  have hcs : o.current_size = s.current_size := hrep.current_size_eq
  obtain ⟨H1, nt1, tl1, h1, hl1, hnt1, htl1, hnew1, hlen1, hframe1⟩ :=
    rehash_buckets_sim hasher
      ({ o with table_size := max N (max n (size_of_float (float_div (float_of_size o.current_size) max_lf))) } : Obj)
      ({ s with table_size := max N (max n (size_of_float (float_div (float_of_size s.current_size) max_lf))) })
      (by simp only [hcs]) hpos w H.length fuel o.table s.table
      (bucket_length_lt hasher N s hs fuel hfuel) (bucket_keys_disjoint hasher N s hs)
      (List.range o.table_size) H
      (List.replicate (max N (max n (size_of_float (float_div (float_of_size o.current_size) max_lf)))) none)
      (List.replicate (max N (max n (size_of_float (float_div (float_of_size o.current_size) max_lf)))) [])
      (List.nodup_range _) (Nat.le_refl _) (by simp) (by simp)
      (fun i _ => chain_region H _ _ (fun a ha => ha) _ _ (chain_region_lt H _ _ _ (hrep.chains i)))
      (fun i => by
        have h1 : (List.replicate (max N (max n (size_of_float (float_div (float_of_size o.current_size) max_lf))))
            (none : Option Nat)).getD i none = none := by
          by_cases hi : i < max N (max n (size_of_float (float_div (float_of_size o.current_size) max_lf)))
          · simp [List.getD_eq_getElem?_getD, hi]
          · simp [List.getD_eq_getElem?_getD, List.getElem?_replicate, hi]
        rw [h1, getD_replicate_nil]
        rfl)
  refine ⟨H1, { table := nt1,
                table_size := max N (max n (size_of_float (float_div (float_of_size o.current_size) max_lf))),
                current_size := o.current_size },
    { table := tl1, table_size := max N (max n (size_of_float (float_div (float_of_size s.current_size) max_lf))),
      current_size := s.current_size }, ?_, ?_, ?_, hlen1, fun a node ha hr => ?_⟩
  · simp only [rehash, Option.bind_eq_bind, Option.pure_def]
    rw [h1]
    rfl
  · simp only [ADS_set.rehash, Option.bind_eq_bind, Option.pure_def]
    rw [hcs] at hl1
    rw [← hrep.table_size_eq, hl1]
    rfl
  · exact {
      table_size_eq := by simp only [hcs]
      current_size_eq := hcs
      len := by simp only; rw [hnt1, htl1]
      chains := fun i => chain_region H1 _ _ (fun a ha => Nat.le_trans hw ha) _ _ (hnew1 i) }
  · exact hframe1 a node hr (fun hp => by omega)

/-- Member reserve on the heap follows reserve of the list model. -/
theorem reserve_sim (hasher : Key → Nat) (N : Nat) (hN : 1 ≤ N) (fuel w : Nat) (H : Heap Key)
    (o : Obj) (s : ADS_set Key) (n : Nat) (hrep : Rep H (fun a => w ≤ a) o s)
    (hw : w ≤ H.length) (hs : Shape hasher N s) (hfuel : s.current_size < fuel) :
    ∃ H1 o1 s1, reserve hasher N fuel H o n = some (H1, o1) ∧
      ADS_set.reserve hasher N s n = some s1 ∧ Rep H1 (fun a => w ≤ a) o1 s1 ∧
      H.length ≤ H1.length ∧
      ∀ a node, a < w → H.getD a none = some node → H1.getD a none = some node := by
  by_cases hc : float_of_size n ≤ float_mul (float_of_size s.table_size) max_lf
  · refine ⟨H, o, s, ?_, ?_, hrep, Nat.le_refl _, fun a node _ hr => hr⟩
    · simp [reserve, hrep.table_size_eq, hc]
    · simp [ADS_set.reserve, hc]
  · obtain ⟨H1, o1, s1, h1, h2, hrep1, hlen, hframe⟩ := rehash_sim hasher N hN fuel w H o s
      (reserve_loop n (2 * n) s.table_size) hrep hw hs hfuel
    refine ⟨H1, o1, s1, ?_, ?_, hrep1, hlen, hframe⟩
    · simp only [reserve, hrep.table_size_eq, ge_iff_le, hc, if_false]
      exact h1
    · simp only [ADS_set.reserve, ge_iff_le, hc, if_false]
      exact h2

theorem h_sim (hasher : Key → Nat) (o : Obj) (s : ADS_set Key) (key : Key)
    (hts : o.table_size = s.table_size) : h hasher o key = ADS_set.h hasher s key := by
  simp [h, ADS_set.h, hts]

/-- Member add on the heap, in a state where the capacity check for one more key has passed:
it allocates one node, and follows add of the list model. -/
theorem add_sim (hasher : Key → Nat) (N fuel w : Nat) (H : Heap Key) (o : Obj)
    (s : ADS_set Key) (key : Key) (hrep : Rep H (fun a => w ≤ a) o s) (hw : w ≤ H.length)
    (hs : Shape hasher N s) (hload : s.current_size + 1 < s.table_size) :
    ∃ H1 o1 p s1 node, add hasher N fuel H o key = some (H1, o1, p) ∧
      ADS_set.add hasher N s key = some (s1, node) ∧ Rep H1 (fun a => w ≤ a) o1 s1 ∧
      Chain H1 (fun a => w ≤ a) p node ∧ H.length ≤ H1.length ∧
      ∀ a nd, H.getD a none = some nd → H1.getD a none = some nd := by
  have htest : ¬ float_of_size ((o.current_size + 1) / o.table_size) ≥ max_lf := by
    rw [hrep.current_size_eq, hrep.table_size_eq, Nat.div_eq_of_lt hload]
    decide
  have hidx : hasher key % s.table_size < s.table_size := Nat.mod_lt _ hs.pos
  have hidxo : hasher key % s.table_size < o.table.length := by
    rw [hrep.len, hs.len]; exact hidx
  have hidxs : hasher key % s.table_size < s.table.length := by
    rw [hs.len]; exact hidx
  have hnode : Chain (H ++ [some { key := key, next := o.table.getD (hasher key % s.table_size) none }])
      (fun a => w ≤ a) (some H.length) (key :: s.table.getD (hasher key % s.table_size) []) :=
    ⟨H.length, _, rfl, hw, getD_append_length H _, chain_append H _ _ _ _ (hrep.chains _)⟩
  refine ⟨H ++ [some { key := key, next := o.table.getD (hasher key % s.table_size) none }],
    { table := o.table.set (hasher key % s.table_size) (some H.length),
      table_size := o.table_size, current_size := o.current_size + 1 },
    some H.length, _, _, ?_, add_spec hasher N s key hs hload, ?_, hnode, by simp,
    fun a nd hr => getD_append_some H _ a nd hr⟩
  · have hh : h hasher o key = some (hasher key % s.table_size) := by
      rw [h_sim hasher o s key hrep.table_size_eq, h_eq hasher s key hs.pos]
    simp only [add, hh, Option.bind_eq_bind, Option.some_bind, htest, if_false, Option.pure_def,
      getD_set_eq o.table _ _ _ hidxo]
  · exact {
      table_size_eq := hrep.table_size_eq
      current_size_eq := by simp only [hrep.current_size_eq]
      len := by simp only [List.length_set]; exact hrep.len
      chains := fun i => by
        by_cases hi : hasher key % s.table_size = i
        · subst hi
          simp only
          rw [getD_set_eq o.table _ _ _ hidxo, getD_set_eq s.table _ _ _ hidxs]
          exact hnode
        · simp only
          rw [getD_set_ne o.table _ _ _ _ hi, getD_set_ne s.table _ _ _ _ hi]
          exact chain_append H _ _ _ _ (hrep.chains i) }

/-- The release of the node found by erase: its next was set to null, so delete releases this
node only. -/
theorem delete_single (H : Heap Key) (a fuel : Nat) (k : Key)
    (hread : H.getD a none = some { key := k, next := none }) :
    delete (fuel + 1) H (some a) = some (H.set a none) := by
  have hd : delete fuel H none = some H := by cases fuel <;> rfl
  simp only [delete, read, hread, Option.bind_eq_bind, Option.some_bind, hd, Option.pure_def]

theorem bucket_nodup (hasher : Key → Nat) (N : Nat) (s : ADS_set Key) (hs : Shape hasher N s)
    (i : Nat) : (s.table.getD i []).Nodup := by
  by_cases hi : i < s.table.length
  · have hnd := hs.nodup
    rw [flatten_split s.table i hi] at hnd
    exact List.Nodup.of_append_right (List.Nodup.of_append_left hnd)
  · rw [List.getD_eq_default _ _ (Nat.le_of_not_lt hi)]
    exact List.nodup_nil

theorem bucket_null_iff (H : Heap Key) (P : Nat → Prop) (o : Obj) (s : ADS_set Key)
    (hrep : Rep H P o s) (i : Nat) : o.table.getD i none = none ↔ s.table.getD i [] = [] :=
  chain_nil_iff H P _ _ (hrep.chains i)

end HeapLists

section HeapOperations

variable {Key : Type} [DecidableEq Key]

/-- The loop of locate finds the node that the loop of the list model finds. -/
theorem locate_loop_sim (H : Heap Key) (P : Nat → Prop) (key : Key) :
    ∀ (l : List Key) (fuel : Nat) (p : Option Nat), Chain H P p l → l.length < fuel →
      ∃ q, locate_loop H key fuel p = some q ∧ Chain H P q (ADS_set.locate_loop key l)
  | [], fuel, p, hc, _ => by
    have hp : p = none := hc
    subst hp
    refine ⟨none, ?_, rfl⟩
    cases fuel <;> rfl
  | k :: l, 0, _, _, hfuel => by simp at hfuel
  | k :: l, fuel + 1, p, ⟨a, nx, hp, hpa, hread, hrest⟩, hfuel => by
    subst hp
    by_cases hk : key = k
    · refine ⟨some a, ?_, ?_⟩
      · simp only [locate_loop, read, hread, Option.bind_eq_bind, Option.some_bind, hk, if_true,
          Option.pure_def]
      · simp only [ADS_set.locate_loop, hk, if_true]
        exact ⟨a, nx, rfl, hpa, hread, hrest⟩
    · obtain ⟨q, hq, hcq⟩ := locate_loop_sim H P key l fuel nx hrest
        (by simp only [List.length_cons] at hfuel; omega)
      refine ⟨q, ?_, ?_⟩
      · simp only [locate_loop, read, hread, Option.bind_eq_bind, Option.some_bind, hk, if_false,
          hq]
      · simp only [ADS_set.locate_loop, hk, if_false]
        exact hcq

/-- Member locate on the heap finds the node that locate of the list model finds. -/
theorem locate_sim (hasher : Key → Nat) (N fuel : Nat) (H : Heap Key) (P : Nat → Prop)
    (o : Obj) (s : ADS_set Key) (key : Key) (hrep : Rep H P o s) (hs : Shape hasher N s)
    (hfuel : s.current_size < fuel) :
    ∃ q, locate hasher fuel H o key = some q ∧
      Chain H P q (ADS_set.locate_loop key (s.table.getD (hasher key % s.table_size) [])) := by
  obtain ⟨q, hq, hc⟩ := locate_loop_sim H P key _ fuel _ (hrep.chains (hasher key % s.table_size))
    (bucket_length_lt hasher N s hs fuel hfuel _)
  refine ⟨q, ?_, hc⟩
  simp only [locate, h_sim hasher o s key hrep.table_size_eq, h_eq hasher s key hs.pos,
    Option.bind_eq_bind, Option.some_bind]
  exact hq

/-- Member count on the heap returns what count of the list model returns. -/
theorem count_sim (hasher : Key → Nat) (N fuel : Nat) (H : Heap Key) (P : Nat → Prop)
    (o : Obj) (s : ADS_set Key) (key : Key) (hrep : Rep H P o s) (hs : Shape hasher N s)
    (hfuel : s.current_size < fuel) :
    count hasher fuel H o key = ADS_set.count hasher s key := by
  obtain ⟨q, hq, hc⟩ := locate_sim hasher N fuel H P o s key hrep hs hfuel
  have hiff := chain_nil_iff H P q _ hc
  simp only [count, hq, ADS_set.count, locate_eq hasher N s hs key, Option.bind_eq_bind,
    Option.some_bind, Option.pure_def]
  by_cases hq0 : q = none
  · simp [-List.getD_eq_getElem?_getD, hq0, hiff.mp hq0]
  · have hne : ¬ ADS_set.locate_loop key (s.table.getD (hasher key % s.table_size) []) = [] :=
      fun h0 => hq0 (hiff.mpr h0)
    simp [-List.getD_eq_getElem?_getD, hq0, hne]

/-- Member insert on the heap follows insert of the list model, keeps the nodes of the set
at or above the address w, and leaves the nodes below w as they are. -/
theorem insert_sim (hasher : Key → Nat) (N : Nat) (hN : 1 ≤ N) (fuel w : Nat) (H : Heap Key)
    (o : Obj) (s : ADS_set Key) (key : Key) (hrep : Rep H (fun a => w ≤ a) o s)
    (hw : w ≤ H.length) (hs : Inv hasher N s) (hfuel : s.current_size < fuel) :
    ∃ H1 o1 it1 s1 it b, insert hasher N fuel H o key = some (H1, o1, it1, b) ∧
      ADS_set.insert hasher N s key = some (s1, it, b) ∧ Rep H1 (fun a => w ≤ a) o1 s1 ∧
      H.length ≤ H1.length ∧
      ∀ a node, a < w → H.getD a none = some node → H1.getD a none = some node := by
  obtain ⟨q, hq, hc⟩ := locate_sim hasher N fuel H _ o s key hrep hs.shape hfuel
  have hiff := chain_nil_iff H _ q _ hc
  have hh : h hasher o key = some (hasher key % s.table_size) := by
    rw [h_sim hasher o s key hrep.table_size_eq, h_eq hasher s key hs.shape.pos]
  by_cases hk : key ∈ s.table.flatten
  · have hne := (locate_ne_nil_iff hasher N s hs.shape key).mpr hk
    have hq0 : q ≠ none := fun h0 => hne (hiff.mp h0)
    refine ⟨H, o, Iterator.ctor o (hasher key % s.table_size) q, s, _, false, ?_,
      insert_present hasher N s key hs.shape hk, hrep,
      Nat.le_refl _, fun a node _ hr => hr⟩
    simp only [insert, hq, Option.bind_eq_bind, Option.some_bind, ne_eq, hq0, not_false_eq_true,
      if_true, hh, Option.pure_def]
  · have hnil : ADS_set.locate_loop key (s.table.getD (hasher key % s.table_size) []) = [] := by
      by_contra hne
      exact hk ((locate_ne_nil_iff hasher N s hs.shape key).mp hne)
    have hq0 : q = none := hiff.mpr hnil
    obtain ⟨sr, hsr, hshr, hcsr, _, hloadr, _, _, hins⟩ := insert_absent hasher N hN s key hs hk
    obtain ⟨H1, o1, s1, h1, h2, hrep1, hlen1, hframe1⟩ := reserve_sim hasher N hN fuel w H o s
      (s.current_size + 1) hrep hw hs.shape hfuel
    have hs1 : s1 = sr := by
      rw [hsr] at h2
      exact (Option.some.inj h2).symm
    subst hs1
    obtain ⟨H2, o2, p, s2, node, h3, h4, hrep2, _, hlen2, hkeep2⟩ := add_sim hasher N fuel w H1 o1
      s1 key hrep1 (Nat.le_trans hw hlen1) hshr (by rw [hcsr]; exact hloadr)
    have hh1 : h hasher o1 key = some (hasher key % s1.table_size) := by
      rw [h_sim hasher o1 s1 key hrep1.table_size_eq, h_eq hasher s1 key hshr.pos]
    have hs2 := add_spec hasher N s1 key hshr (by rw [hcsr]; exact hloadr)
    rw [hs2] at h4
    obtain ⟨rfl, rfl⟩ := Prod.mk.inj (Option.some.inj h4)
    refine ⟨H2, o2, Iterator.ctor o2 (hasher key % s1.table_size) p, _, _, true, ?_, hins, hrep2,
      Nat.le_trans hlen1 hlen2,
      fun a nd ha hr => hkeep2 a nd (hframe1 a nd ha hr)⟩
    simp only [insert, hq, hq0, Option.bind_eq_bind, Option.some_bind, ne_eq, not_true_eq_false,
      if_false, hrep.current_size_eq, h1, hh1, h3, Option.pure_def]

theorem erase_loop_null (key : Key) (index fuel : Nat) (H : Heap Key) (o : Obj)
    (prev : Option Nat) : erase_loop key index fuel H o prev none = some (H, o, 0) := by
  cases fuel <;> rfl

/-- The loop of erase behind the first node of a chain: with previous_node at the node p,
the key is unlinked from the chain behind p if it is there, and nothing changes otherwise. -/
theorem erase_loop_sim (key : Key) (index : Nat) (P : Nat → Prop) (o : Obj) :
    ∀ (rest : List Key) (fuel : Nat) (H : Heap Key) (p : Nat) (kp : Key) (cur : Option Nat),
      H.getD p none = some { key := kp, next := cur } → P p → Chain H P cur rest →
      (kp :: rest).Nodup → rest.length < fuel →
      (key ∈ rest → ∃ H1, erase_loop key index fuel H o (some p) cur
          = some (H1, { o with current_size := o.current_size - 1 }, 1) ∧
        Chain H1 P (some p) (kp :: rest.erase key) ∧ H1.length = H.length ∧
        ∀ a node, H.getD a none = some node → (¬ P a ∨ node.key ∉ kp :: rest) →
          H1.getD a none = some node) ∧
      (key ∉ rest → erase_loop key index fuel H o (some p) cur = some (H, o, 0))
  | [], fuel, H, p, kp, cur, _, _, hc, _, _ => by
    have hcur : cur = none := hc
    subst hcur
    exact ⟨fun hm => absurd hm (List.not_mem_nil _), fun _ => erase_loop_null key index fuel H o _⟩
  | k :: rest, 0, _, _, _, _, _, _, _, _, hfuel => by simp at hfuel
  | k :: rest, fuel + 1, H, p, kp, cur, hp, hPp, ⟨a, nx, hcur, hPa, hread, hrest⟩, hnd, hfuel => by
    subst hcur
    have hkpk : kp ≠ k := fun e => (List.nodup_cons.mp hnd).1 (e ▸ List.mem_cons_self _ _)
    have hkp_rest : kp ∉ rest := fun hm => (List.nodup_cons.mp hnd).1 (List.mem_cons_of_mem _ hm)
    have hnd1 : (k :: rest).Nodup := (List.nodup_cons.mp hnd).2
    have hk_rest : k ∉ rest := (List.nodup_cons.mp hnd1).1
    have hpa : p ≠ a := by
      rintro rfl
      rw [hp] at hread
      exact hkpk (congrArg Node.key (Option.some.inj hread))
    have hplt := getD_lt_of_some H p _ hp
    have halt := getD_lt_of_some H a _ hread
    by_cases hk : key = k
    · subst hk
      refine ⟨fun _ => ?_, fun hn => absurd (List.mem_cons_self _ _) hn⟩
      have hread2 : ((H.set p (some { key := kp, next := nx })).set a
          (some { key := key, next := none })).getD a none = some { key := key, next := none } :=
        getD_set_eq _ a _ none (by simpa using halt)
      refine ⟨((H.set p (some { key := kp, next := nx })).set a
          (some { key := key, next := none })).set a none, ?_, ?_, by simp, ?_⟩
      · simp only [erase_loop, read, hread, Option.bind_eq_bind, Option.some_bind, if_true, hp,
          Option.pure_def, delete_single _ a fuel key hread2]
      · have hkeep : ∀ b node, H.getD b none = some node → b ≠ p → b ≠ a →
            (((H.set p (some { key := kp, next := nx })).set a
              (some { key := key, next := none })).set a none).getD b none = some node := by
          intro b node hr hbp hba
          rw [getD_set_ne _ a b _ none (Ne.symm hba), getD_set_ne _ a b _ none (Ne.symm hba),
            getD_set_ne _ p b _ none (Ne.symm hbp)]
          exact hr
        refine ⟨p, nx, rfl, hPp, ?_, ?_⟩
        · rw [getD_set_ne _ a p _ none (Ne.symm hpa), getD_set_ne _ a p _ none (Ne.symm hpa),
            getD_set_eq _ p _ none hplt]
        · rw [List.erase_cons_head]
          apply chain_stable H _ P rest nx hrest
          intro b node _ hr hm
          apply hkeep b node hr
          · rintro rfl
            rw [hp] at hr
            have hkey : node.key = kp := by rw [← Option.some.inj hr]
            exact hkp_rest (by rw [← hkey]; exact hm)
          · rintro rfl
            rw [hread] at hr
            have hkey : node.key = key := by rw [← Option.some.inj hr]
            exact hk_rest (by rw [← hkey]; exact hm)
      · intro b node hr hout
        have hbp : b ≠ p := by
          rintro rfl
          rw [hp] at hr
          have hkey : node.key = kp := by rw [← Option.some.inj hr]
          rcases hout with h1 | h1
          · exact h1 hPp
          · exact h1 (by rw [hkey]; exact List.mem_cons_self _ _)
        have hba : b ≠ a := by
          rintro rfl
          rw [hread] at hr
          have hkey : node.key = key := by rw [← Option.some.inj hr]
          rcases hout with h1 | h1
          · exact h1 hPa
          · exact h1 (by rw [hkey]; exact List.mem_cons_of_mem _ (List.mem_cons_self _ _))
        rw [getD_set_ne _ a b _ none (Ne.symm hba), getD_set_ne _ a b _ none (Ne.symm hba),
          getD_set_ne _ p b _ none (Ne.symm hbp)]
        exact hr
    · obtain ⟨hfound, hmissing⟩ := erase_loop_sim key index P o rest fuel H a k nx hread hPa hrest
        hnd1 (by simp only [List.length_cons] at hfuel; omega)
      have hstep : erase_loop key index (fuel + 1) H o (some p) (some a)
          = erase_loop key index fuel H o (some a) nx := by
        simp only [erase_loop, read, hread, Option.bind_eq_bind, Option.some_bind, hk, if_false]
      have hk2 : ¬ k = key := fun e => hk e.symm
      refine ⟨fun hm => ?_, fun hn => ?_⟩
      · have hm1 : key ∈ rest := by
          rcases List.mem_cons.mp hm with h1 | h1
          · exact absurd h1 hk
          · exact h1
        obtain ⟨H1, h1, hc1, hlen1, hframe1⟩ := hfound hm1
        refine ⟨H1, by rw [hstep]; exact h1, ?_, hlen1, fun b node hr hout => ?_⟩
        · have herase : (k :: rest).erase key = k :: rest.erase key := by
            simp [List.erase_cons_tail, hk2]
          rw [herase]
          exact ⟨p, some a, rfl, hPp,
            hframe1 p _ hp (Or.inr (fun hm2 => (List.nodup_cons.mp hnd).1 hm2)), hc1⟩
        · apply hframe1 b node hr
          rcases hout with h2 | h2
          · exact Or.inl h2
          · exact Or.inr (fun hm2 => h2 (List.mem_cons_of_mem _ hm2))
      · rw [hstep]
        exact hmissing (fun hm => hn (List.mem_cons_of_mem _ hm))

/-- Member erase on the heap follows erase of the list model and touches only nodes of the
region of the set. -/
theorem erase_sim (hasher : Key → Nat) (N fuel : Nat) (H : Heap Key) (P : Nat → Prop) (o : Obj)
    (s : ADS_set Key) (key : Key) (hrep : Rep H P o s) (hs : Shape hasher N s)
    (hfuel : s.current_size < fuel) :
    ∃ H1 o1 r s1, erase hasher fuel H o key = some (H1, o1, r) ∧
      ADS_set.erase hasher s key = some (s1, r) ∧ Rep H1 P o1 s1 ∧ H1.length = H.length ∧
      ∀ a node, H.getD a none = some node → ¬ P a → H1.getD a none = some node := by
  have hh : h hasher o key = some (hasher key % s.table_size) := by
    rw [h_sim hasher o s key hrep.table_size_eq, h_eq hasher s key hs.pos]
  have hidx : hasher key % s.table_size < s.table_size := Nat.mod_lt _ hs.pos
  have hidxo : hasher key % s.table_size < o.table.length := by
    rw [hrep.len, hs.len]; exact hidx
  have hidxs : hasher key % s.table_size < s.table.length := by
    rw [hs.len]; exact hidx
  have hchain := hrep.chains (hasher key % s.table_size)
  have hnd := bucket_nodup hasher N s hs (hasher key % s.table_size)
  have hlen := bucket_length_lt hasher N s hs fuel hfuel (hasher key % s.table_size)
  have hmemiff := mem_flatten_iff_bucket hasher N s hs key
  have hother : ∀ i, hasher key % s.table_size ≠ i → ∀ x, x ∈ s.table.getD i [] →
      x ∉ s.table.getD (hasher key % s.table_size) [] := by
    intro i hi x hx hx2
    exact hi (bucket_keys_disjoint hasher N s hs _ _ x hx2 hx)
  have hunfold : erase hasher fuel H o key = erase_loop key (hasher key % s.table_size) fuel H o
      none (o.table.getD (hasher key % s.table_size) none) := by
    simp only [erase, hh, Option.bind_eq_bind, Option.some_bind]
  rw [hunfold, erase_spec hasher N s key hs]
  cases hc : s.table.getD (hasher key % s.table_size) [] with
  | nil =>
    rw [hc] at hchain
    have hnone : o.table.getD (hasher key % s.table_size) none = none := hchain
    have hkn : key ∉ s.table.flatten := by rw [hmemiff, hc]; exact List.not_mem_nil _
    refine ⟨H, o, 0, s, ?_, by rw [if_neg hkn], hrep, rfl, fun a node hr _ => hr⟩
    rw [hnone]; exact erase_loop_null key _ fuel H o none
  | cons k rest =>
    rw [hc] at hchain hnd hlen
    obtain ⟨a, nx, hpa, hPa, hread, hrest⟩ := hchain
    have hk_rest : k ∉ rest := (List.nodup_cons.mp hnd).1
    have halt := getD_lt_of_some H a _ hread
    obtain ⟨f, rfl⟩ : ∃ f, fuel = f + 1 := ⟨fuel - 1, by
      simp only [List.length_cons] at hlen; omega⟩
    rw [hpa]
    by_cases hk : key = k
    · subst hk
      have hkm : key ∈ s.table.flatten := by rw [hmemiff, hc]; exact List.mem_cons_self _ _
      have hread2 : (H.set a (some { key := key, next := none })).getD a none
          = some { key := key, next := none } := getD_set_eq _ a _ none halt
      have hkeep : ∀ b node, H.getD b none = some node → b ≠ a →
          ((H.set a (some { key := key, next := none })).set a none).getD b none = some node := by
        intro b node hr hba
        rw [getD_set_ne _ a b _ none (Ne.symm hba), getD_set_ne _ a b _ none (Ne.symm hba)]
        exact hr
      have hne_a : ∀ b node (l : List Key), H.getD b none = some node → node.key ∈ l → key ∉ l →
          b ≠ a := by
        intro b node l hr hm hnl
        rintro rfl
        rw [hread] at hr
        have hkey : node.key = key := by rw [← Option.some.inj hr]
        exact hnl (by rw [← hkey]; exact hm)
      refine ⟨(H.set a (some { key := key, next := none })).set a none,
        { table := o.table.set (hasher key % s.table_size) nx, table_size := o.table_size,
          current_size := o.current_size - 1 }, 1, _, ?_, by rw [if_pos hkm], ?_, by simp,
        fun b node hr hnp => hkeep b node hr (fun e => hnp (e ▸ hPa))⟩
      · simp only [erase_loop, read, hread, Option.bind_eq_bind, Option.some_bind, if_true,
          Option.pure_def, delete_single _ a f key hread2]
      · exact {
          table_size_eq := hrep.table_size_eq
          current_size_eq := by simp only [hrep.current_size_eq]
          len := by simp only [List.length_set]; exact hrep.len
          chains := fun i => by
            by_cases hi : hasher key % s.table_size = i
            · subst hi
              simp only
              rw [getD_set_eq o.table _ _ _ hidxo, getD_set_eq s.table _ _ _ hidxs,
                List.erase_cons_head]
              exact chain_stable H _ P rest nx hrest
                (fun b node _ hr hm => hkeep b node hr (hne_a b node rest hr hm hk_rest))
            · simp only
              rw [getD_set_ne o.table _ _ _ _ hi, getD_set_ne s.table _ _ _ _ hi]
              apply chain_stable H _ P _ _ (hrep.chains i)
              intro b node _ hr hm
              apply hkeep b node hr
              apply hne_a b node _ hr hm
              intro hkm2
              exact hother i hi key hkm2 (by rw [hc]; exact List.mem_cons_self _ _) }
    · have hk2 : ¬ k = key := fun e => hk e.symm
      have hstep : erase_loop key (hasher key % s.table_size) (f + 1) H o none (some a)
          = erase_loop key (hasher key % s.table_size) f H o (some a) nx := by
        simp only [erase_loop, read, hread, Option.bind_eq_bind, Option.some_bind, hk, if_false]
      obtain ⟨hfound, hmissing⟩ := erase_loop_sim key (hasher key % s.table_size) P o rest f H a k
        nx hread hPa hrest hnd (by simp only [List.length_cons] at hlen; omega)
      rw [hstep]
      by_cases hm : key ∈ rest
      · obtain ⟨H1, h1, hc1, hlen1, hframe1⟩ := hfound hm
        have hkm : key ∈ s.table.flatten := by
          rw [hmemiff, hc]; exact List.mem_cons_of_mem _ hm
        have herase : (k :: rest).erase key = k :: rest.erase key := by
          simp [List.erase_cons_tail, hk2]
        refine ⟨H1, { o with current_size := o.current_size - 1 }, 1, _, h1, by rw [if_pos hkm],
          ?_, hlen1, fun b node hr hnp => hframe1 b node hr (Or.inl hnp)⟩
        exact {
          table_size_eq := hrep.table_size_eq
          current_size_eq := by simp only [hrep.current_size_eq]
          len := by simp only [List.length_set]; exact hrep.len
          chains := fun i => by
            by_cases hi : hasher key % s.table_size = i
            · subst hi
              simp only
              rw [getD_set_eq s.table _ _ _ hidxs, herase, hpa]
              exact hc1
            · simp only
              rw [getD_set_ne s.table _ _ _ _ hi]
              apply chain_stable H _ P _ _ (hrep.chains i)
              intro b node _ hr hmem
              apply hframe1 b node hr
              right
              intro hin
              exact hother i hi node.key hmem (by rw [hc]; exact hin) }
      · have hkn : key ∉ s.table.flatten := by
          rw [hmemiff, hc]
          intro hin
          rcases List.mem_cons.mp hin with h1 | h1
          · exact hk h1
          · exact hm h1
        exact ⟨H, o, 0, s, hmissing hm, by rw [if_neg hkn], hrep, rfl, fun a node hr _ => hr⟩

/-- Iterator::findNextNode on the heap stops where findNextNode of the list model stops. -/
theorem findNextNode_loop_sim (H : Heap Key) (P : Nat → Prop) (o : Obj) (s : ADS_set Key)
    (hrep : Rep H P o s) :
    ∀ (fuel : Nat) (it : Iterator) (itl : ADS_set.Iterator Key),
      it.position = itl.position → Chain H P it.ptr itl.ptr →
      (findNextNode_loop o fuel it).position = (ADS_set.findNextNode_loop s fuel itl).position ∧
      Chain H P (findNextNode_loop o fuel it).ptr (ADS_set.findNextNode_loop s fuel itl).ptr
  | 0, _, _, hpos, hptr => ⟨hpos, hptr⟩
  | fuel + 1, it, itl, hpos, hptr => by
    by_cases hlt : itl.position < s.table_size
    · have hlto : it.position < o.table_size := by rw [hpos, hrep.table_size_eq]; exact hlt
      by_cases hb : s.table.getD itl.position [] = []
      · have hbo : o.table.getD it.position none = none := by
          rw [hpos]; exact (bucket_null_iff H P o s hrep _).mpr hb
        have ih := findNextNode_loop_sim H P o s hrep fuel
          { it with position := it.position + 1 } { itl with position := itl.position + 1 }
          (by simp only [hpos]) hptr
        simp only [findNextNode_loop, hlto, if_true, hbo, ne_eq, not_true_eq_false, if_false,
          ADS_set.findNextNode_loop, hlt, hb]
        exact ih
      · have hbo : ¬ o.table.getD it.position none = none := by
          rw [hpos]; exact fun h0 => hb ((bucket_null_iff H P o s hrep _).mp h0)
        simp only [findNextNode_loop, hlto, if_true, ne_eq, hbo, not_false_eq_true,
          ADS_set.findNextNode_loop, hlt, hb]
        refine ⟨hpos, ?_⟩
        rw [hpos]
        exact hrep.chains _
    · have hlto : ¬ it.position < o.table_size := by rw [hpos, hrep.table_size_eq]; exact hlt
      simp only [findNextNode_loop, hlto, if_false, ADS_set.findNextNode_loop, hlt]
      exact ⟨hpos, hptr⟩

theorem findNextNode_sim (H : Heap Key) (P : Nat → Prop) (o : Obj) (s : ADS_set Key)
    (hrep : Rep H P o s) (it : Iterator) (itl : ADS_set.Iterator Key)
    (hpos : it.position = itl.position) (hptr : Chain H P it.ptr itl.ptr) :
    (findNextNode o it).position = (ADS_set.findNextNode s itl).position ∧
      Chain H P (findNextNode o it).ptr (ADS_set.findNextNode s itl).ptr := by
  have := findNextNode_loop_sim H P o s hrep (s.table_size - itl.position) it itl hpos hptr
  simpa only [findNextNode, ADS_set.findNextNode, hpos, hrep.table_size_eq] using this

theorem begin_sim (H : Heap Key) (P : Nat → Prop) (o : Obj) (s : ADS_set Key)
    (hrep : Rep H P o s) :
    (begin o).position = (ADS_set.begin s).position ∧
      Chain H P (begin o).ptr (ADS_set.begin s).ptr := by
  have := findNextNode_sim H P o s hrep { position := 0, ptr := none } { position := 0, ptr := [] }
    rfl rfl
  simpa [begin, ADS_set.begin, Iterator.ctor, ADS_set.Iterator.ctor] using this

theorem end_ptr_null (o : Obj) : (end_ o).ptr = none := by
  by_cases h0 : o.table_size = 0
  · simp [end_, Iterator.ctor, h0, findNextNode, findNextNode_loop]
  · simp [end_, Iterator.ctor, h0]

/-- Iterator operator++ on the heap, at a node, follows operator++ of the list model. -/
theorem incr_sim (H : Heap Key) (P : Nat → Prop) (o : Obj) (s : ADS_set Key)
    (hrep : Rep H P o s) (it : Iterator) (itl : ADS_set.Iterator Key) (k : Key) (tl : List Key)
    (hpos : it.position = itl.position) (hptr : Chain H P it.ptr itl.ptr)
    (hl : itl.ptr = k :: tl) :
    Iterator.deref H it = some k ∧
    ∃ it1, Iterator.incr H o it = some it1 ∧
      it1.position = (ADS_set.Iterator.incr s itl).position ∧
      Chain H P it1.ptr (ADS_set.Iterator.incr s itl).ptr := by
  rw [hl] at hptr
  obtain ⟨a, nx, hpa, _, hread, hrest⟩ := hptr
  have hnx := chain_nil_iff H P nx tl hrest
  refine ⟨by simp only [Iterator.deref, hpa, read, hread, Option.map_some'], ?_⟩
  by_cases htl : tl = []
  · have hnx0 : nx = none := hnx.mpr htl
    have hfn := findNextNode_sim H P o s hrep { position := it.position + 1, ptr := none }
      { position := itl.position + 1, ptr := [] } (by simp only [hpos]) rfl
    refine ⟨findNextNode o { position := it.position + 1, ptr := none }, ?_, ?_⟩
    · simp only [Iterator.incr, hpa, read, hread, Option.bind_eq_bind, Option.some_bind, hnx0,
        if_true, Option.pure_def]
    · have hincr : ADS_set.Iterator.incr s itl
          = ADS_set.findNextNode s { position := itl.position + 1, ptr := [] } := by
        simp [ADS_set.Iterator.incr, hl, htl]
      rw [hincr]
      exact hfn
  · have hnx0 : ¬ nx = none := fun h0 => htl (hnx.mp h0)
    refine ⟨{ position := it.position, ptr := nx }, ?_, ?_⟩
    · simp only [Iterator.incr, hpa, read, hread, Option.bind_eq_bind, Option.some_bind, hnx0,
        if_false, Option.pure_def]
    · have hincr : ADS_set.Iterator.incr s itl = { position := itl.position, ptr := tl } := by
        simp [ADS_set.Iterator.incr, hl, htl]
      rw [hincr]
      exact ⟨hpos, hrest⟩

/-- The loop of the copy constructor on the heap: while the cursor walks the nodes of other
below the address w, add allocates the nodes of this at or above w; the loop follows the
loop of the list model over the keys still to be visited, and only allocates. -/
theorem copy_loop_sim (hasher : Key → Nat) (N fuel w : Nat) (A : Obj) (sA : ADS_set Key)
    (hlenA : sA.table.length = sA.table_size) :
    ∀ (steps : Nat) (H : Heap Key) (this : Obj) (sthis : ADS_set Key) (it : Iterator)
      (itl : ADS_set.Iterator Key),
      Rep H (fun a => a < w) A sA → Rep H (fun a => w ≤ a) this sthis → w ≤ H.length →
      Shape hasher N sthis → it.position = itl.position →
      Chain H (fun a => a < w) it.ptr itl.ptr → (itl.ptr = [] → remaining sA itl = []) →
      (remaining sA itl).Nodup → (∀ k, k ∈ remaining sA itl → k ∉ sthis.table.flatten) →
      sthis.current_size + (remaining sA itl).length < sthis.table_size →
      (remaining sA itl).length < steps →
      ∃ H1 this1 s1, copy_loop hasher N fuel A steps H this it (end_ A) = some (H1, this1) ∧
        ADS_set.copy_loop hasher N sthis (remaining sA itl) = some s1 ∧
        Rep H1 (fun a => w ≤ a) this1 s1 ∧ H.length ≤ H1.length ∧
        ∀ a node, H.getD a none = some node → H1.getD a none = some node
  | 0, _, _, _, _, _, _, _, _, _, _, _, _, _, _, _, hsteps => by simp at hsteps
  | steps + 1, H, this, sthis, it, itl, hrepA, hrepB, hw, hsh, hpos, hptr, hnorm, hnd, hdisj,
      hload, hsteps => by
    cases hl : itl.ptr with
    | nil =>
      have hrem : remaining sA itl = [] := hnorm hl
      have hnone : it.ptr = none := by rw [hl] at hptr; exact hptr
      refine ⟨H, this, sthis, ?_, by rw [hrem]; rfl, hrepB, Nat.le_refl _, fun a node hr => hr⟩
      simp [copy_loop, Iterator.eq, hnone, end_ptr_null]
    | cons k tl =>
      obtain ⟨hrem, hnorm1⟩ := incr_spec sA hlenA itl k tl hl
      have hsome : it.ptr ≠ none := by
        rw [hl] at hptr
        obtain ⟨a, _, hpa, _⟩ := hptr
        rw [hpa]; exact Option.some_ne_none a
      have hderef := (incr_sim H _ A sA hrepA it itl k tl hpos hptr hl).1
      have hk : k ∉ sthis.table.flatten := hdisj k (by rw [hrem]; exact List.mem_cons_self _ _)
      have hload1 : sthis.current_size + 1 < sthis.table_size := by
        rw [hrem] at hload
        simp only [List.length_cons] at hload
        omega
      obtain ⟨H1, this1, p, s1, node, hadd, hladd, hrep1, _, hlen1, hkeep1⟩ :=
        add_sim hasher N fuel w H this sthis k hrepB hw hsh hload1
      have hls := add_spec hasher N sthis k hsh hload1
      rw [hls] at hladd
      obtain ⟨hs1, _⟩ := Prod.mk.inj (Option.some.inj hladd)
      have hsh1 : Shape hasher N s1 := hs1 ▸ shape_push hasher N sthis k hsh hk
      have hidx : hasher k % sthis.table_size < sthis.table.length := by
        rw [hsh.len]; exact Nat.mod_lt _ hsh.pos
      have hperm : s1.table.flatten.Perm (k :: sthis.table.flatten) :=
        hs1 ▸ flatten_push_perm sthis.table _ k hidx
      have hrepA1 := rep_stable H H1 w A sA hrepA (fun a nd _ hr => hkeep1 a nd hr)
      have hptr1 : Chain H1 (fun a => a < w) it.ptr itl.ptr :=
        chain_stable H H1 _ _ _ hptr (fun a nd _ hr _ => hkeep1 a nd hr)
      obtain ⟨_, it1, hincr, hpos1, hptr2⟩ := incr_sim H1 _ A sA hrepA1 it itl k tl hpos hptr1 hl
      have hnd0 : (k :: remaining sA (ADS_set.Iterator.incr sA itl)).Nodup := by
        rw [← hrem]; exact hnd
      obtain ⟨H2, this2, s2, h2, hl2, hrep2, hlen2, hkeep2⟩ :=
        copy_loop_sim hasher N fuel w A sA hlenA steps H1 this1 s1 it1
          (ADS_set.Iterator.incr sA itl) hrepA1 hrep1 (Nat.le_trans hw hlen1) hsh1 hpos1 hptr2
          hnorm1 (List.nodup_cons.mp hnd0).2
          (by
            intro x hx hm
            rcases List.mem_cons.mp (hperm.mem_iff.mp hm) with rfl | hm1
            · exact (List.nodup_cons.mp hnd0).1 hx
            · exact hdisj x (by rw [hrem]; exact List.mem_cons_of_mem _ hx) hm1)
          (by
            have hcs1 : s1.current_size = sthis.current_size + 1 := by rw [← hs1]
            have hts1 : s1.table_size = sthis.table_size := by rw [← hs1]
            rw [hrem] at hload
            rw [hcs1, hts1]
            simp only [List.length_cons] at hload ⊢
            omega)
          (by
            rw [hrem] at hsteps
            simp only [List.length_cons] at hsteps
            omega)
      refine ⟨H2, this2, s2, ?_, ?_, hrep2, Nat.le_trans hlen1 hlen2,
        fun a nd hr => hkeep2 a nd (hkeep1 a nd hr)⟩
      · have heq : Iterator.eq it (end_ A) = false := by
          simp [Iterator.eq, end_ptr_null, hsome]
        simp only [copy_loop, heq, Bool.false_eq_true, if_false, hderef, Option.bind_eq_bind,
          Option.some_bind, hadd, hincr]
        exact h2
      · rw [hrem]
        simp only [ADS_set.copy_loop, hls, Option.bind_eq_bind, Option.some_bind]
        rw [hs1]
        exact hl2

/-- The copy constructor on the heap follows the copy constructor of the list model; the
nodes of the copy are the nodes allocated by it, and the heap it found is kept as it was. -/
theorem copy_sim (hasher : Key → Nat) (N fuel : Nat) (H : Heap Key) (A : Obj)
    (sA : ADS_set Key) (hrepA : Rep H (fun a => a < H.length) A sA) (hA : Inv hasher N sA)
    (hfuel : sA.current_size < fuel) :
    ∃ H1 B sB, copy hasher N fuel H A = some (H1, B) ∧ ADS_set.copy hasher N sA = some sB ∧
      Rep H1 (fun a => H.length ≤ a) B sB ∧ Rep H1 (fun a => a < H.length) A sA ∧
      H.length ≤ H1.length := by
  have hsh0 : Shape hasher N
      ({ table := List.replicate sA.table_size [], table_size := sA.table_size,
         current_size := 0 } : ADS_set Key) := {
    len := by simp
    floor := hA.shape.floor
    pos := hA.shape.pos
    placed := placed_replicate hasher _ _
    nodup := by simp
    card := by simp }
  have hrep0 : Rep H (fun a => H.length ≤ a)
      { table := List.replicate A.table_size none, table_size := A.table_size,
        current_size := 0 }
      ({ table := List.replicate sA.table_size [], table_size := sA.table_size,
         current_size := 0 } : ADS_set Key) := {
    table_size_eq := hrepA.table_size_eq
    current_size_eq := rfl
    len := by simp [hrepA.table_size_eq]
    chains := fun i => by
      have h1 : (List.replicate A.table_size (none : Option Nat)).getD i none = none := by
        by_cases hi : i < A.table_size
        · simp [List.getD_eq_getElem?_getD, hi]
        · simp [List.getD_eq_getElem?_getD, List.getElem?_replicate, hi]
      simp only
      rw [h1, getD_replicate_nil]
      rfl }
  obtain ⟨hbpos, hbptr⟩ := begin_sim H _ A sA hrepA
  obtain ⟨hrem, hnorm⟩ := begin_spec sA hA.shape.len
  have hl := hA.load
  obtain ⟨H1, B, sB, h1, h2, hrepB, hlen, hkeep⟩ :=
    copy_loop_sim hasher N fuel H.length A sA hA.shape.len fuel H _ _ (begin A)
      (ADS_set.begin sA) hrepA hrep0 (Nat.le_refl _) hsh0 hbpos hbptr
      (by rw [hrem]; exact hnorm) (by rw [hrem]; exact hA.shape.nodup) (by simp)
      (by
        rw [hrem, ← hA.shape.card]
        simpa using hl)
      (by rw [hrem, ← hA.shape.card]; exact hfuel)
  rw [hrem] at h2
  refine ⟨H1, B, sB, h1, ?_, hrepB,
    rep_stable H H1 H.length A sA hrepA (fun a nd _ hr => hkeep a nd hr), hlen⟩
  simp only [ADS_set.copy, traverse_eq sA hA.shape.len, Option.bind_eq_bind, Option.some_bind]
  exact h2

theorem example_pair_reachable : Reachable example_hasher 3 example_pair :=
  Reachable.insert_range Reachable.empty
    (by decide : insert_range example_hasher 3 (ADS_set.empty 3) [1, 4] = some example_pair)

theorem example_rep :
    Rep example_heap (fun a => a < example_heap.length) example_obj example_pair where
  table_size_eq := rfl
  current_size_eq := rfl
  len := rfl
  chains := fun i =>
    match i with
    | 0 => rfl
    | 1 => ⟨1, some 0, rfl, by decide, rfl, ⟨0, none, rfl, by decide, rfl, rfl⟩⟩
    | 2 => rfl
    | _ + 3 => rfl

/-- C13 (copy is a deep copy): let the object A, with its nodes in the heap H, represent a
reachable set sA. The copy constructor completes with an object B whose nodes are all newly
allocated and which represents the copy of sA in the list model, while A still represents
sA; B has the size, the capacity and the counts of A, and B == A holds in both operand
orders. A later insert or erase on B completes, takes effect in B, and leaves A
representing sA, with every count of A as before the copy. -/
theorem copy_independent (hasher : Key → Nat) (N : Nat) (hN : 1 ≤ N) (H : Heap Key) (A : Obj)
    (sA : ADS_set Key) (hrepA : Rep H (fun a => a < H.length) A sA)
    (hA : Reachable hasher N sA) (fuel : Nat) (hfuel : sA.current_size + 1 < fuel) :
    ∃ H1 B sB, copy hasher N fuel H A = some (H1, B) ∧ ADS_set.copy hasher N sA = some sB ∧
      Rep H1 (fun a => H.length ≤ a) B sB ∧ Rep H1 (fun a => a < H.length) A sA ∧
      B.current_size = A.current_size ∧ B.table_size = A.table_size ∧
      (∀ k, count hasher fuel H1 B k = count hasher fuel H1 A k) ∧
      operator_eq hasher sB sA = some true ∧ operator_eq hasher sA sB = some true ∧
      (∀ key, ∃ H2 B2 it2 b, insert hasher N fuel H1 B key = some (H2, B2, it2, b) ∧
        count hasher fuel H2 B2 key = some 1 ∧ Rep H2 (fun a => a < H.length) A sA ∧
        ∀ k, count hasher fuel H2 A k = count hasher fuel H A k) ∧
      (∀ key, ∃ H2 B2 r, erase hasher fuel H1 B key = some (H2, B2, r) ∧
        count hasher fuel H2 B2 key = some 0 ∧ Rep H2 (fun a => a < H.length) A sA ∧
        ∀ k, count hasher fuel H2 A k = count hasher fuel H A k) := by
  have ha := reachable_inv hasher N hN sA hA
  have hfa : sA.current_size < fuel := by omega
  obtain ⟨H1, B, sB, hcopy, hlcopy, hrepB, hrepA1, hlen1⟩ :=
    copy_sim hasher N fuel H A sA hrepA ha hfa
  obtain ⟨sB0, hl0, hBr, hsize, hts, hcount, heq1, heq2⟩ := copy_equal hasher N hN sA hA
  have hsb : sB0 = sB := by
    rw [hl0] at hlcopy
    exact Option.some.inj hlcopy
  subst hsb
  have hb := reachable_inv hasher N hN sB0 hBr
  have hcsB : sB0.current_size = sA.current_size := hsize
  have hfb : sB0.current_size < fuel := by omega
  have hcountA : ∀ (H2 : Heap Key), Rep H2 (fun a => a < H.length) A sA →
      ∀ k, count hasher fuel H2 A k = count hasher fuel H A k := by
    intro H2 hrep2 k
    rw [count_sim hasher N fuel H2 _ A sA k hrep2 ha.shape hfa,
      count_sim hasher N fuel H _ A sA k hrepA ha.shape hfa]
  refine ⟨H1, B, sB0, hcopy, hl0, hrepB, hrepA1, ?_, ?_, fun k => ?_, heq1, heq2, fun key => ?_,
    fun key => ?_⟩
  · rw [hrepB.current_size_eq, hrepA.current_size_eq, hcsB]
  · rw [hrepB.table_size_eq, hrepA.table_size_eq, hts]
  · rw [count_sim hasher N fuel H1 _ B sB0 k hrepB hb.shape hfb,
      count_sim hasher N fuel H1 _ A sA k hrepA1 ha.shape hfa]
    exact hcount k
  · obtain ⟨H2, B2, it2, s2, it, b, hins, hlins, hrep2, _, hframe2⟩ :=
      insert_sim hasher N hN fuel H.length H1 B sB0 key hrepB hlen1 hb hfb
    obtain ⟨s3, it3, b3, hlins3, hinv3, _, hsame, hnew, _⟩ := insert_spec hasher N hN sB0 key hb
    have hs23 : s2 = s3 := by
      rw [hlins] at hlins3
      exact (Prod.mk.inj (Option.some.inj hlins3)).1
    subst hs23
    have hmem : key ∈ s2.table.flatten := by
      by_cases hk : key ∈ sB0.table.flatten
      · rw [hsame hk]; exact hk
      · exact (hnew hk).mem_iff.mpr (List.mem_cons_self _ _)
    have hcs2 : s2.current_size < fuel := by
      by_cases hk : key ∈ sB0.table.flatten
      · rw [hsame hk]; exact hfb
      · rw [hinv3.shape.card, (hnew hk).length_eq, List.length_cons, ← hb.shape.card]
        omega
    have hrepA2 := rep_stable H1 H2 H.length A sA hrepA1 hframe2
    refine ⟨H2, B2, it2, b, hins, ?_, hrepA2, hcountA H2 hrepA2⟩
    rw [count_sim hasher N fuel H2 _ B2 s2 key hrep2 hinv3.shape hcs2]
    exact (count_eq_one_iff hasher N s2 hinv3.shape key).mpr hmem
  · obtain ⟨H2, B2, r, s2, her, hler, hrep2, _, hframe2⟩ :=
      erase_sim hasher N fuel H1 _ B sB0 key hrepB hb.shape hfb
    have hrepA2 := rep_stable H1 H2 H.length A sA hrepA1
      (fun a nd ha hr => hframe2 a nd hr (fun hp => by omega))
    refine ⟨H2, B2, r, her, ?_, hrepA2, hcountA H2 hrepA2⟩
    rw [erase_spec hasher N sB0 key hb.shape] at hler
    by_cases hk : key ∈ sB0.table.flatten
    · rw [if_pos hk] at hler
      obtain ⟨hs2, _⟩ := Prod.mk.inj (Option.some.inj hler)
      obtain ⟨hsh2, hperm⟩ := shape_unlink hasher N sB0 key hb.shape hk
      have hnd := hperm.nodup_iff.mp hb.shape.nodup
      rw [hs2] at hsh2
      have hcs2 : s2.current_size < fuel := by
        rw [← hs2]
        show sB0.current_size - 1 < fuel
        omega
      rw [count_sim hasher N fuel H2 _ B2 s2 key hrep2 hsh2 hcs2]
      apply (count_eq_zero_iff hasher N s2 hsh2 key).mpr
      rw [← hs2]
      exact (List.nodup_cons.mp hnd).1
    · rw [if_neg hk] at hler
      obtain ⟨hs2, _⟩ := Prod.mk.inj (Option.some.inj hler)
      subst hs2
      rw [count_sim hasher N fuel H2 _ B2 sB0 key hrep2 hb.shape hfb]
      exact (count_eq_zero_iff hasher N sB0 hb.shape key).mpr hk

/-- C13 at the set of the keys 1 and 4 in one chain (N = 3), with the step bound 4. -/
theorem copy_independent_witness :
    1 ≤ 3 ∧ Rep example_heap (fun a => a < example_heap.length) example_obj example_pair ∧
    Reachable example_hasher 3 example_pair ∧ example_pair.current_size + 1 < 4 ∧
    ∃ H1 B sB, copy example_hasher 3 4 example_heap example_obj = some (H1, B) ∧
      ADS_set.copy example_hasher 3 example_pair = some sB ∧
      Rep H1 (fun a => example_heap.length ≤ a) B sB ∧
      Rep H1 (fun a => a < example_heap.length) example_obj example_pair ∧
      B.current_size = example_obj.current_size ∧ B.table_size = example_obj.table_size ∧
      (∀ k, count example_hasher 4 H1 B k = count example_hasher 4 H1 example_obj k) ∧
      operator_eq example_hasher sB example_pair = some true ∧
      operator_eq example_hasher example_pair sB = some true ∧
      (∀ key, ∃ H2 B2 it2 b, insert example_hasher 3 4 H1 B key = some (H2, B2, it2, b) ∧
        count example_hasher 4 H2 B2 key = some 1 ∧
        Rep H2 (fun a => a < example_heap.length) example_obj example_pair ∧
        ∀ k, count example_hasher 4 H2 example_obj k
          = count example_hasher 4 example_heap example_obj k) ∧
      (∀ key, ∃ H2 B2 r, erase example_hasher 4 H1 B key = some (H2, B2, r) ∧
        count example_hasher 4 H2 B2 key = some 0 ∧
        Rep H2 (fun a => a < example_heap.length) example_obj example_pair ∧
        ∀ k, count example_hasher 4 H2 example_obj k
          = count example_hasher 4 example_heap example_obj k) :=
  ⟨by decide, example_rep, example_pair_reachable, by decide,
    copy_independent example_hasher 3 (by decide) example_heap example_obj example_pair
      example_rep example_pair_reachable 4 (by decide)⟩

end HeapOperations

end Ptr

end ADS_set
